import Mathlib

/-!
# Tensority (Bytom proof-of-work): a shallow embedding and its properties

The development follows the C++ sources under `mining/tensority`:

* `dylib/scrypt.h`   : `xor_salsa8`, `Words32`, `LTCMemory::scrypt`
* `dylib/seed.h`     : `extend`, `init_seed`
* `stlib/BytomPoW.h` : `Mat256x256i8`, `Mat256x256i16`, `Arr256x64i32`,
                       `BytomMatList16`, `iter_mineBytom`
* `*/cSimdTs.cpp`    : the three variants of `SimdTs`

Conventions of the embedding.

* `uint8_t` is `Byte = Fin 256`; `uint32_t` is a `Nat` kept below `2^32` by an explicit
  `% 2^32` wherever the C++ arithmetic can wrap.
* `int`, `int8_t` and `int16_t` values are `Int`; a store into an `int8_t` or `int16_t` slot
  goes through `toI8` or `toI16` (two's complement wrap).  On `Int`, `v % 256` is the
  non-negative remainder, that is `v & 0xFF`; `v * 256` is `v << 8`; `v / 256` is the
  arithmetic shift `v >> 8`.
* A fixed-size array `T a[n]` is a function `Fin n → T`, so every index carries its bound.
* A `for` loop is `forLoop n body s`, a left fold of the body over `0, 1, ..., n-1`.
* A method that writes `this` takes the previous contents of the object as `self`; for an
  object that was just allocated these contents are arbitrary (uninitialised storage).
-/

namespace Tensority

/-! ## Machine integers and loops -/

/-- An octet, the C++ `uint8_t`. -/
abbrev Byte := Fin 256

/-- Two to the 32, the modulus of `uint32_t` arithmetic. -/
abbrev U32 : Nat := 4294967296

/-- Conversion of an integer to `int8_t` (two's complement wrap). -/
def toI8 (v : Int) : Int := (v + 128) % 256 - 128

/-- Conversion of an integer to `int16_t` (two's complement wrap). -/
def toI16 (v : Int) : Int := (v + 32768) % 65536 - 32768

/-- Conversion of an integer to `uint8_t`, as a byte. -/
def toU8 (v : Int) : Byte := ⟨(v % 256).toNat, by omega⟩

/-- The loop `for (i = 0; i < n; i++) s = body(i, s)`. -/
def forLoop {σ : Type} (n : Nat) (body : Fin n → σ → σ) (s : σ) : σ :=
  (List.finRange n).foldl (fun acc i => body i acc) s

/-- The assignment `m[i][j] = v` on a two-dimensional array. -/
def set2 {α : Type} {r c : Nat} (m : Fin r → Fin c → α) (i : Fin r) (j : Fin c) (v : α) :
    Fin r → Fin c → α :=
  fun i' j' => if i' = i ∧ j' = j then v else m i' j'

/-- The assignment `a[i] = v` on a one-dimensional array. -/
def set1 {α : Type} {n : Nat} (a : Fin n → α) (i : Fin n) (v : α) : Fin n → α :=
  fun i' => if i' = i then v else a i'

/-! ## `Mat256x256i8` -/

/-- The struct `Mat256x256i8`: `int8_t d[256][256]`. -/
structure Mat256x256i8 where
  d : Fin 256 → Fin 256 → Int

/-- The struct `Mat256x256i16`: `int16_t d[256][256]`. -/
structure Mat256x256i16 where
  d : Fin 256 → Fin 256 → Int

/-- The store `this->d[i][j] = v` into an `int8_t` cell. -/
def Mat256x256i8.set (m : Mat256x256i8) (i j : Fin 256) (v : Int) : Mat256x256i8 :=
  ⟨set2 m.d i j (toI8 v)⟩

/-- The store `this->d[i][j] = v` into an `int16_t` cell. -/
def Mat256x256i16.set (m : Mat256x256i16) (i j : Fin 256) (v : Int) : Mat256x256i16 :=
  ⟨set2 m.d i j (toI16 v)⟩

/-- The method `Mat256x256i8::add(a, b)` when `this` is an object distinct from `a` and `b`:
`int tmp = int(a.d[i][j]) + int(b.d[i][j]); this->d[i][j] = (tmp & 0xFF);`. -/
def Mat256x256i8.add (self a b : Mat256x256i8) : Mat256x256i8 :=
  forLoop 256 (fun i m =>
    forLoop 256 (fun j m =>
      let tmp : Int := a.d i j + b.d i j
      m.set i j (tmp % 256)) m) self

/-- The call `res->add(*res, b)` of `Mat256x256i8::add`, where the first operand is `this`:
every read of `a.d[i][j]` is a read of the current contents of `this`. -/
def Mat256x256i8.addInPlace (self b : Mat256x256i8) : Mat256x256i8 :=
  forLoop 256 (fun i m =>
    forLoop 256 (fun j m =>
      let tmp : Int := m.d i j + b.d i j
      m.set i j (tmp % 256)) m) self

/-! ## `Mat256x256i16` -/

/-- The method `Mat256x256i16::toIdentityMatrix`. -/
def Mat256x256i16.toIdentityMatrix (self : Mat256x256i16) : Mat256x256i16 :=
  forLoop 256 (fun i m =>
    forLoop 256 (fun j m =>
      m.set i j (if i = j then 1 else 0)) m) self

/-- The method `Mat256x256i16::copyFrom(const Mat256x256i8&)`; the assertion of the source is
`Mat256x256i16.copyFrom8_assert`. -/
def Mat256x256i16.copyFrom8 (self : Mat256x256i16) (other : Mat256x256i8) : Mat256x256i16 :=
  forLoop 256 (fun i m =>
    forLoop 256 (fun j m =>
      m.set j i (other.d j i)) m) self

/-- The condition `this->d[j][i]==other.d[j][i]` asserted by `copyFrom(const Mat256x256i8&)`
right after the store into cell `(j, i)`. -/
def Mat256x256i16.copyFrom8_assert (other : Mat256x256i8) (j i : Fin 256) : Prop :=
  toI16 (other.d j i) = other.d j i

/-- The method `Mat256x256i16::copyFrom(const Mat256x256i16&)`. -/
def Mat256x256i16.copyFrom (self other : Mat256x256i16) : Mat256x256i16 :=
  forLoop 256 (fun i m =>
    forLoop 256 (fun j m =>
      m.set j i (other.d j i)) m) self

/-- The method `Mat256x256i16::add`:
`int tmp = int(a.d[i][j]) + int(b.d[i][j]); this->d[i][j] = (tmp & 0xFF);`. -/
def Mat256x256i16.add (self a b : Mat256x256i16) : Mat256x256i16 :=
  forLoop 256 (fun i m =>
    forLoop 256 (fun j m =>
      let tmp : Int := a.d i j + b.d i j
      m.set i j (tmp % 256)) m) self

/-- The method `Mat256x256i16::toMatI8(other)`; `other` is the matrix that is written. -/
def Mat256x256i16.toMatI8 (self : Mat256x256i16) (other : Mat256x256i8) : Mat256x256i8 :=
  forLoop 256 (fun i o =>
    forLoop 256 (fun j o =>
      o.set j i (self.d j i % 256)) o) other

/-- The method `Mat256x256i16::topup(other)`: `other.d[j][i] += (this->d[j][i]) & 0xFF`. -/
def Mat256x256i16.topup (self : Mat256x256i16) (other : Mat256x256i8) : Mat256x256i8 :=
  forLoop 256 (fun i o =>
    forLoop 256 (fun j o =>
      o.set j i (o.d j i + self.d j i % 256)) o) other

/-! ### The AVX2 operations used by `mul`

A `__m256i` register is used by `mul` as sixteen 16-bit lanes; a lane is held as its unsigned
bit pattern, an integer in `[0, 65536)`. -/

/-- A `__m256i` register seen as sixteen 16-bit lanes. -/
abbrev M256i := Fin 16 → Int

/-- The intrinsic `_mm256_set1_epi16(a)`: every lane gets the 16-bit pattern of `a`. -/
def mm256_set1_epi16 (a : Int) : M256i := fun _ => a % 65536

/-- The load `*((__m256i*)(&(b.d[k][j])))` of the sixteen cells `b.d[k][j], ..., b.d[k][j+15]`,
for `j = 16 * bj`. -/
def mm256_load_row (b : Mat256x256i16) (k : Fin 256) (bj : Fin 16) : M256i :=
  fun c => b.d k ⟨16 * bj.val + c.val, by omega⟩ % 65536

/-- The intrinsic `_mm256_mullo_epi16`: the low 16 bits of the lane-wise products. -/
def mm256_mullo_epi16 (u s : M256i) : M256i := fun c => (u c * s c) % 65536

/-- The intrinsic `_mm256_add_epi16`: lane-wise addition, wrapping at 16 bits. -/
def mm256_add_epi16 (a b : M256i) : M256i := fun c => (a c + b c) % 65536

/-- The intrinsic `_mm256_slli_epi16(a, n)`: lane-wise left shift, bits shifted out are lost. -/
def mm256_slli_epi16 (a : M256i) (n : Nat) : M256i := fun c => (a c * 2 ^ n) % 65536

/-- The intrinsic `_mm256_extract_epi8(a, idx)`: byte `idx` of the register, that is byte
`idx % 2` of lane `idx / 2`. -/
def mm256_extract_epi8 (a : M256i) (idx : Fin 32) : Int :=
  (a ⟨idx.val / 2, by omega⟩ / 256 ^ (idx.val % 2)) % 256

/-- The accumulation loop `for(int k=0; k<256; k++)` of `mul` for the tile whose rows start at
`ii = 16 * bi + 8 * h` and whose columns start at `j = 16 * bj`: the eight registers
`r[0..7]`. -/
def Mat256x256i16.mul_acc (a b : Mat256x256i16) (bi bj : Fin 16) (h : Fin 2) :
    Fin 8 → M256i :=
  forLoop 256 (fun k r =>
    let s : M256i := mm256_load_row b k bj
    let u : Fin 8 → M256i :=
      fun x => mm256_set1_epi16 (a.d ⟨16 * bi.val + 8 * h.val + x.val, by omega⟩ k)
    let m : Fin 8 → M256i := fun x => mm256_mullo_epi16 (u x) s
    fun x => mm256_add_epi16 (r x) (m x)) (fun _ => mm256_set1_epi16 0)

/-- The registers `t[0..7]` of `mul`: `t = r + (r << 8)` in every lane. -/
def Mat256x256i16.mul_t (a b : Mat256x256i16) (bi bj : Fin 16) (h : Fin 2) : Fin 8 → M256i :=
  let r := Mat256x256i16.mul_acc a b bi bj h
  let t : Fin 8 → M256i := fun x => mm256_slli_epi16 (r x) 8
  fun x => mm256_add_epi16 (r x) (t x)

/-- The method `Mat256x256i16::mul(a, b)`.  The loop counters `bi`, `bj`, `h` stand for
`i = 16 * bi`, `j = 16 * bj` and `ii = i + 8 * h`; the sixteen stores that the source writes
out for every `x` are the loop over `c`. -/
def Mat256x256i16.mul (self a b : Mat256x256i16) : Mat256x256i16 :=
  forLoop 16 (fun bi m =>
    forLoop 16 (fun bj m =>
      forLoop 2 (fun h m =>
        let t := Mat256x256i16.mul_t a b bi bj h
        forLoop 8 (fun x m =>
          forLoop 16 (fun c m =>
            m.set ⟨16 * bi.val + 8 * h.val + x.val, by omega⟩ ⟨16 * bj.val + c.val, by omega⟩
              (toI16 (toI8 (mm256_extract_epi8 (t x) ⟨2 * c.val + 1, by omega⟩)))) m) m) m) m) self

/-- The exact sum `acc = Σ_k A[i][k] * B[k][j]`, without any wrapping. -/
def mul_acc_exact (a b : Mat256x256i16) (i j : Fin 256) : Int :=
  ((List.finRange 256).map (fun k => a.d i k * b.d k j)).sum

/-- Sign extension of an 8-bit pattern in `[0, 256)` to an integer. -/
def sign_extend_i8 (v : Int) : Int := if 128 ≤ v then v - 256 else v

/-- The scalar reference `mul_ref` of the specification:
`out[i][j] = sign_extend_i8(((acc + (acc << 8)) >> 8) & 0xFF)`. -/
def mul_ref (a b : Mat256x256i16) : Mat256x256i16 :=
  ⟨fun i j =>
    let acc := mul_acc_exact a b i j
    sign_extend_i8 (((acc + acc * 256) / 256) % 256)⟩

/-- Every entry of the matrix is in the `int8_t` range. -/
def Mat256x256i16.InI8 (m : Mat256x256i16) : Prop :=
  ∀ i j : Fin 256, -128 ≤ m.d i j ∧ m.d i j ≤ 127

/-- Every entry of the matrix is in the `int8_t` range. -/
def Mat256x256i8.InI8 (m : Mat256x256i8) : Prop :=
  ∀ i j : Fin 256, -128 ≤ m.d i j ∧ m.d i j ≤ 127

/-! ## `scrypt.h` -/

/-- The struct `Words16`: `uint32_t w[16]`. -/
structure Words16 where
  w : Fin 16 → Nat

/-- The struct `Words32`: two `Words16` halves, `lo` and `hi`. -/
structure Words32 where
  lo : Words16
  hi : Words16

/-- The struct `LTCMemory`: the pad `Words32 w32[1024]`. -/
structure LTCMemory where
  w32 : Fin 1024 → Words32

/-- The macro `ROTL(a, b)` on `uint32_t`: `((a) << (b)) | ((a) >> (32 - (b)))`. -/
def ROTL (a b : Nat) : Nat := ((a <<< b) % U32) ||| (a >>> (32 - b))

/-- One statement `xT ^= ROTL(xA + xB, n)` of the round loop of `xor_salsa8`, on the sixteen
locals `x00 .. x15`. -/
def salsa_stmt (x : Fin 16 → Nat) (q : Fin 16 × Fin 16 × Fin 16 × Nat) : Fin 16 → Nat :=
  set1 x q.1 (x q.1 ^^^ ROTL ((x q.2.1 + x q.2.2.1) % U32) q.2.2.2)

/-- The 32 statements of the body of the round loop of `xor_salsa8`, in source order; the entry
`(t, a, b, n)` is the statement `xT ^= ROTL(xA + xB, n)`. -/
def salsa_body : List (Fin 16 × Fin 16 × Fin 16 × Nat) :=
  [ -- Operate on columns.
    (4, 0, 12, 7),   (9, 5, 1, 7),    (14, 10, 6, 7),  (3, 15, 11, 7),
    (8, 4, 0, 9),    (13, 9, 5, 9),   (2, 14, 10, 9),  (7, 3, 15, 9),
    (12, 8, 4, 13),  (1, 13, 9, 13),  (6, 2, 14, 13),  (11, 7, 3, 13),
    (0, 12, 8, 18),  (5, 1, 13, 18),  (10, 6, 2, 18),  (15, 11, 7, 18),
    -- Operate on rows.
    (1, 0, 3, 7),    (6, 5, 4, 7),    (11, 10, 9, 7),  (12, 15, 14, 7),
    (2, 1, 0, 9),    (7, 6, 5, 9),    (8, 11, 10, 9),  (13, 12, 15, 9),
    (3, 2, 1, 13),   (4, 7, 6, 13),   (9, 8, 11, 13),  (14, 13, 12, 13),
    (0, 3, 2, 18),   (5, 4, 7, 18),   (10, 9, 8, 18),  (15, 14, 13, 18) ]

/-- The function `xor_salsa8(B, Bx)`; the result is the new contents of `B` (`Bx` is `const`).
The loop `for (i = 0; i < 8; i += 2)` runs its body four times. -/
def xor_salsa8 (B Bx : Fin 16 → Nat) : Fin 16 → Nat :=
  let B1 : Fin 16 → Nat := fun i => B i ^^^ Bx i
  let x0 : Fin 16 → Nat := B1
  let x := forLoop 4 (fun _ x => salsa_body.foldl salsa_stmt x) x0
  fun i => (B1 i + x i) % U32

/-- The method `Words32::get(i)`; the precondition `h` is what the source asserts. -/
def Words32.get (self : Words32) (i : Nat) (h : i < 32) : Nat :=
  if h16 : i < 16 then self.lo.w ⟨i, h16⟩ else self.hi.w ⟨i - 16, by omega⟩

/-- The method `Words32::xor_other`. -/
def Words32.xor_other (self other : Words32) : Words32 :=
  let lo := forLoop 16 (fun i w => set1 w i (w i ^^^ other.lo.w i)) self.lo.w
  let hi := forLoop 16 (fun i w => set1 w i (w i ^^^ other.hi.w i)) self.hi.w
  ⟨⟨lo⟩, ⟨hi⟩⟩

/-- The method `LTCMemory::get(i)`; the precondition `h` is what the source asserts. -/
def LTCMemory.get (self : LTCMemory) (i : Nat) (h : i < 1024) : Words32 :=
  self.w32 ⟨i, h⟩

/-- The two calls `xor_salsa8(X.lo.w, X.hi.w); xor_salsa8(X.hi.w, X.lo.w);` that end the body
of both loops of `scrypt`; the second call reads the `lo` half that the first has written. -/
def scrypt_mix (X : Words32) : Words32 :=
  let lo : Fin 16 → Nat := xor_salsa8 X.lo.w X.hi.w
  let hi : Fin 16 → Nat := xor_salsa8 X.hi.w lo
  ⟨⟨lo⟩, ⟨hi⟩⟩

/-- The first loop of `LTCMemory::scrypt`, on the pair of the pad and `X`. -/
def LTCMemory.scrypt_fill (self : LTCMemory) (X : Words32) : LTCMemory × Words32 :=
  forLoop 1024 (fun i (s : LTCMemory × Words32) =>
    let mem : LTCMemory := ⟨set1 s.1.w32 i s.2⟩
    (mem, scrypt_mix s.2)) (self, X)

/-- The second loop of `LTCMemory::scrypt`, on the pair of the pad and `X`. -/
def LTCMemory.scrypt_read (s0 : LTCMemory × Words32) : LTCMemory × Words32 :=
  forLoop 1024 (fun _ (s : LTCMemory × Words32) =>
    let j : Nat := s.2.hi.w 0 &&& 1023
    let X : Words32 := s.2.xor_other (s.1.w32 ⟨j, Nat.lt_succ_of_le Nat.and_le_right⟩)
    (s.1, scrypt_mix X)) s0

/-- The method `LTCMemory::scrypt(X)`: the pad and `X` after the call. -/
def LTCMemory.scrypt (self : LTCMemory) (X : Words32) : LTCMemory × Words32 :=
  LTCMemory.scrypt_read (LTCMemory.scrypt_fill self X)

/-! ## `seed.h`

The SHA3-256 of the repository (`rhash_sha3_256_init`, `rhash_sha3_update` on one byte range,
`rhash_sha3_final`, from `sha3-allInOne.h`) is not embedded; every function that hashes takes it
as the parameter `sha3 : List Byte → Fin 32 → Byte`. -/

/-- Conversion of an integer to `int` (32 bits, two's complement wrap). -/
def toI32 (v : Int) : Int := (v + 2147483648) % 4294967296 - 2147483648

/-- Conversion of an integer to `uint32_t`. -/
def toU32 (v : Int) : Nat := (v % 4294967296).toNat

/-- The function `extend(exted, g_seed)`: the contents of `exted` after the call.  The
arguments `seedHash0` and `exted0` are the previous contents of the local `seedHash[4][32]`
and of the caller's `exted[32]`.  The bytes are promoted to `int` before `<<` and `+`. -/
def extend (sha3 : List Byte → Fin 32 → Byte) (seedHash0 : Fin 4 → Fin 32 → Byte)
    (exted0 : Fin 32 → Nat) (g_seed : Fin 32 → Byte) : Fin 32 → Nat :=
  let seedHash : Fin 4 → Fin 32 → Byte := set1 seedHash0 0 g_seed
  let seedHash := forLoop 3 (fun i (sh : Fin 4 → Fin 32 → Byte) =>
    set1 sh ⟨i.val + 1, by omega⟩ (sha3 (List.ofFn (sh ⟨i.val, by omega⟩)))) seedHash
  forLoop 32 (fun i (exted : Fin 32 → Nat) =>
    let row : Fin 32 → Byte := seedHash ⟨i.val / 8, by omega⟩
    let b3 : Int := (row ⟨(i.val * 4 + 3) % 32, Nat.mod_lt _ (by decide)⟩).val
    let b2 : Int := (row ⟨(i.val * 4 + 2) % 32, Nat.mod_lt _ (by decide)⟩).val
    let b1 : Int := (row ⟨(i.val * 4 + 1) % 32, Nat.mod_lt _ (by decide)⟩).val
    let b0 : Int := (row ⟨(i.val * 4) % 32, Nat.mod_lt _ (by decide)⟩).val
    let s3 : Int := toI32 (b3 * 2 ^ 24)
    let s2 : Int := toI32 (b2 * 2 ^ 16)
    let s1 : Int := toI32 (b1 * 2 ^ 8)
    set1 exted i (toU32 (toI32 (toI32 (toI32 (s3 + s2) + s1) + b0)))) exted0

/-- The function `init_seed(seed, _seed)`: the contents of `seed` after the call. -/
def init_seed (seed : Words32) (_seed : Fin 32 → Nat) : Words32 :=
  let lo := forLoop 16 (fun i w => set1 w i (_seed ⟨i.val, by omega⟩)) seed.lo.w
  let hi := forLoop 16 (fun i w => set1 w i (_seed ⟨16 + i.val, by omega⟩)) seed.hi.w
  ⟨⟨lo⟩, ⟨hi⟩⟩

/-! ## `BytomPoW.h`: matrices from the pad, the FNV array, the matrix list -/

/-- The method `Mat256x256i16::copyFrom_helper(ltcMem, offset)` for `offset` 0 or 1. -/
def Mat256x256i16.copyFrom_helper (self : Mat256x256i16) (ltcMem : LTCMemory)
    (offset : Fin 2) : Mat256x256i16 :=
  forLoop 256 (fun i m =>
    let lo : Words32 := ltcMem.get (i.val * 4 + offset.val) (by omega)
    let hi : Words32 := ltcMem.get (i.val * 4 + 2 + offset.val) (by omega)
    forLoop 64 (fun j m =>
      let i32 : Nat :=
        if h : 32 ≤ j.val then hi.get (j.val - 32) (by omega) else lo.get j.val (by omega)
      let m := m.set ⟨j.val * 4 + 0, by omega⟩ i (toI8 (((i32 >>> 0) &&& 0xFF : Nat) : Int))
      let m := m.set ⟨j.val * 4 + 1, by omega⟩ i (toI8 (((i32 >>> 8) &&& 0xFF : Nat) : Int))
      let m := m.set ⟨j.val * 4 + 2, by omega⟩ i (toI8 (((i32 >>> 16) &&& 0xFF : Nat) : Int))
      let m := m.set ⟨j.val * 4 + 3, by omega⟩ i (toI8 (((i32 >>> 24) &&& 0xFF : Nat) : Int))
      m) m) self

/-- The method `Mat256x256i16::copyFromEven`. -/
def Mat256x256i16.copyFromEven (self : Mat256x256i16) (ltcMem : LTCMemory) : Mat256x256i16 :=
  self.copyFrom_helper ltcMem 0

/-- The method `Mat256x256i16::copyFromOdd`. -/
def Mat256x256i16.copyFromOdd (self : Mat256x256i16) (ltcMem : LTCMemory) : Mat256x256i16 :=
  self.copyFrom_helper ltcMem 1

/-- The constant `FNV_PRIME`. -/
def FNV_PRIME : Nat := 0x01000193

/-- The macro `FNV(v1, v2)` on `uint32_t` operands, stored back into a `uint32_t`. -/
def FNV (v1 v2 : Nat) : Nat := ((v1 * FNV_PRIME) % U32) ^^^ v2

/-- The struct `Arr256x64i32`: `uint32_t d[256][64]`. -/
structure Arr256x64i32 where
  d : Fin 256 → Fin 64 → Nat

/-- The constructor `Arr256x64i32(const Mat256x256i8& mat)`; `self` is the storage of the new
object before the constructor runs. -/
def Arr256x64i32.ofMat (self : Arr256x64i32) (mat : Mat256x256i8) : Arr256x64i32 :=
  forLoop 256 (fun j (a : Arr256x64i32) =>
    forLoop 64 (fun i (a : Arr256x64i32) =>
      (⟨set2 a.d j i
        (((((toU8 (mat.d j ⟨i.val + 192, by omega⟩)).val <<< 24) % U32) |||
          (((toU8 (mat.d j ⟨i.val + 128, by omega⟩)).val <<< 16) % U32) |||
          (((toU8 (mat.d j ⟨i.val + 64, by omega⟩)).val <<< 8) % U32) |||
          (((toU8 (mat.d j ⟨i.val, by omega⟩)).val <<< 0) % U32)))⟩ : Arr256x64i32)) a) self

/-- The body `for(int j=0; j<k/2; j++) for(int i=0; i<64; i++) d[j][i] = FNV(d[j][i],
d[j + k/2][i])` of one halving round of `reduceFNV`, for `k = 2 * half`. -/
def Arr256x64i32.reduceRound (self : Arr256x64i32) (half : Nat) (hh : 2 * half ≤ 256) :
    Arr256x64i32 :=
  forLoop half (fun j (a : Arr256x64i32) =>
    forLoop 64 (fun i (a : Arr256x64i32) =>
      (⟨set2 a.d ⟨j.val, by omega⟩ i
        (FNV (a.d ⟨j.val, by omega⟩ i) (a.d ⟨j.val + half, by omega⟩ i))⟩ : Arr256x64i32)) a)
    self

/-- The method `Arr256x64i32::reduceFNV`: the loop `for(int k=256; k>1; k=k/2)` takes the
values 256, 128, 64, 32, 16, 8, 4, 2 for `k`. -/
def Arr256x64i32.reduceFNV (self : Arr256x64i32) : Arr256x64i32 :=
  let a := self.reduceRound 128 (by decide)
  let a := a.reduceRound 64 (by decide)
  let a := a.reduceRound 32 (by decide)
  let a := a.reduceRound 16 (by decide)
  let a := a.reduceRound 8 (by decide)
  let a := a.reduceRound 4 (by decide)
  let a := a.reduceRound 2 (by decide)
  a.reduceRound 1 (by decide)

/-- The 256 bytes at `d0RawPtr()`: the 64 words of row 0, each stored little-endian (the
sources include `x86intrin.h`). -/
def Arr256x64i32.d0RawPtr (self : Arr256x64i32) : List Byte :=
  List.ofFn (fun t : Fin 256 =>
    (⟨(self.d 0 ⟨t.val / 4, by omega⟩ >>> (8 * (t.val % 4))) % 256,
      Nat.mod_lt _ (by decide)⟩ : Byte))

/-- The struct `BytomMatList16`: the 256 matrices that `matVec` points to. -/
structure BytomMatList16 where
  matVec : Fin 256 → Mat256x256i16

/-- The method `BytomMatList16::at(i)`, which returns a copy of `*(matVec[i])`. -/
def BytomMatList16.at_ (self : BytomMatList16) (i : Fin 256) : Mat256x256i16 :=
  self.matVec i

/-- The method `BytomMatList16::init(X_in)`; `ltcMem0` is the storage of the local `ltcMem`
before the first pass.  The state of the loop is the matrix list, the pad and `X`. -/
def BytomMatList16.init (self : BytomMatList16) (ltcMem0 : LTCMemory) (X_in : Words32) :
    BytomMatList16 :=
  (forLoop 128 (fun i (s : BytomMatList16 × LTCMemory × Words32) =>
    let r := s.2.1.scrypt s.2.2
    let ltcMem := r.1
    let X := r.2
    let mv := s.1.matVec
    let mv := set1 mv ⟨2 * i.val, by omega⟩ ((mv ⟨2 * i.val, by omega⟩).copyFromEven ltcMem)
    let mv := set1 mv ⟨2 * i.val + 1, by omega⟩
      ((mv ⟨2 * i.val + 1, by omega⟩).copyFromOdd ltcMem)
    ((⟨mv⟩ : BytomMatList16), ltcMem, X)) (self, ltcMem0, X_in)).1

/-! ## `BytomPoW.h`: the evaluation of one header -/

/-- The body of the `k`-loop of `iter_mineBytom` for lane `k`, up to the store into
`resArr8[k]`: the new contents of `resArr8[k]`.  The arguments `mat16_0`, `tmp16_0` and `resK`
are the contents of the freshly allocated `mat16` and `tmp16` and of `resArr8[k]` before the
lane runs.  The loop counter `i2` stands for `i = 2 * i2`; `len * k / 4` is computed on
`uint32_t`. -/
def iter_mineBytom_lane (sha3 : List Byte → Fin 32 → Byte) (matList_int16 : BytomMatList16)
    (fixedMessage : List Byte) (len : Nat) (k : Fin 4)
    (mat16_0 tmp16_0 : Mat256x256i16) (resK : Mat256x256i8) : Mat256x256i8 :=
  let sequence : Fin 32 → Byte :=
    sha3 ((fixedMessage.drop ((len * k.val) % U32 / 4)).take (len / 4))
  let tmp16 : Mat256x256i16 := tmp16_0.toIdentityMatrix
  let s := forLoop 2 (fun _ (s : Mat256x256i16 × Mat256x256i16) =>
    forLoop 16 (fun i2 (s : Mat256x256i16 × Mat256x256i16) =>
      let mat16 := s.1.mul s.2 (matList_int16.at_ (sequence ⟨2 * i2.val, by omega⟩))
      let tmp16 := s.2.mul mat16 (matList_int16.at_ (sequence ⟨2 * i2.val + 1, by omega⟩))
      (mat16, tmp16)) s) (mat16_0, tmp16)
  s.2.toMatI8 resK

/-- The contents of the storage that one call of `SimdTs` obtains uninitialised: locals
without initialiser and objects from `new`.  Every function below that writes such storage
receives the previous contents from here. -/
structure Uninit where
  /-- The local `seedHash[4][32]` of `extend`. -/
  seedHash : Fin 4 → Fin 32 → Byte
  /-- The local `exted[32]` of `SimdTs`. -/
  exted : Fin 32 → Nat
  /-- The local `extSeed` of `SimdTs`. -/
  extSeed : Words32
  /-- The 256 matrices allocated by the constructor of `BytomMatList16`. -/
  matVec : Fin 256 → Mat256x256i16
  /-- The local `ltcMem` of `BytomMatList16::init`. -/
  ltcMem : LTCMemory
  /-- The matrix `mat16` allocated by lane `k`. -/
  mat16 : Fin 4 → Mat256x256i16
  /-- The matrix `tmp16` allocated by lane `k`. -/
  tmp16 : Fin 4 → Mat256x256i16
  /-- The array `resArr8` of `iter_mineBytom`. -/
  resArr8 : Fin 4 → Mat256x256i8
  /-- The matrix `res8` of `iter_mineBytom`. -/
  res8 : Mat256x256i8
  /-- The local `arr` of `iter_mineBytom` before its constructor runs. -/
  arr : Arr256x64i32

/-- The part of `iter_mineBytom` after the `k`-loop: the three calls of `add`, the
constructor of `arr`, `reduceFNV` and the final hash; `resArr8` is the array that the lanes
have filled. -/
def iter_mineBytom_finish (sha3 : List Byte → Fin 32 → Byte) (u : Uninit)
    (resArr8 : Fin 4 → Mat256x256i8) : Fin 32 → Byte :=
  let res8 : Mat256x256i8 := u.res8.add (resArr8 0) (resArr8 1)
  let res8 : Mat256x256i8 := res8.addInPlace (resArr8 2)
  let res8 : Mat256x256i8 := res8.addInPlace (resArr8 3)
  let arr : Arr256x64i32 := u.arr.ofMat res8
  let arr : Arr256x64i32 := arr.reduceFNV
  sha3 arr.d0RawPtr

/-- The function `iter_mineBytom(fixedMessage, len, result)`: the 32 bytes written to `result`.
The global `matList_int16` that the function reads is the argument `matList_int16`.  The lanes
run in the order `k = 0, 1, 2, 3` (the build without `_USE_OPENMP`). -/
def iter_mineBytom (sha3 : List Byte → Fin 32 → Byte) (u : Uninit)
    (matList_int16 : BytomMatList16) (fixedMessage : List Byte) (len : Nat) : Fin 32 → Byte :=
  let resArr8 : Fin 4 → Mat256x256i8 :=
    forLoop 4 (fun k (resArr8 : Fin 4 → Mat256x256i8) =>
      set1 resArr8 k
        (iter_mineBytom_lane sha3 matList_int16 fixedMessage len k (u.mat16 k) (u.tmp16 k)
          (resArr8 k))) u.resArr8
  iter_mineBytom_finish sha3 u resArr8

/-! ## `cSimdTs.cpp`: the three variants of `SimdTs` -/

/-- The constructor of `BytomMatList16`: 256 matrices from `new`, not initialised. -/
def BytomMatList16.ctor (fresh : Fin 256 → Mat256x256i16) : BytomMatList16 := ⟨fresh⟩

/-- The else-branch of `SimdTs` (and the whole setup of the `dylib` variant): `extend`,
`init_seed`, `new BytomMatList16` and `init`; the value is the object that `matList_int16`
points to afterwards. -/
def buildMatList (sha3 : List Byte → Fin 32 → Byte) (u : Uninit) (seed : Fin 32 → Byte) :
    BytomMatList16 :=
  let exted : Fin 32 → Nat := extend sha3 u.seedHash u.exted seed
  let extSeed : Words32 := init_seed u.extSeed exted
  (BytomMatList16.ctor u.matVec).init u.ltcMem extSeed

/-- The global `seedCache`, a `std::map<vector<uint8_t>, BytomMatList16*>`, as the list of its
entries; `map_insert` keeps the keys pairwise distinct and the size is the length. -/
abbrev SeedCache := List (List Byte × BytomMatList16)

/-- The lookup `seedCache.find(k)` followed by `seedCache[k]`: the mapped value, if any. -/
def map_find (c : SeedCache) (k : List Byte) : Option BytomMatList16 :=
  (c.find? (fun e => decide (e.1 = k))).map Prod.snd

/-- The call `seedCache.insert(make_pair(k, v))`: a map keeps an entry that has the key. -/
def map_insert (c : SeedCache) (k : List Byte) (v : BytomMatList16) : SeedCache :=
  if (map_find c k).isSome then c else c ++ [(k, v)]

/-- One call of `SimdTs` as the history records it: header, seed and the contents of the
uninitialised storage that the call obtains. -/
structure Call where
  blockheader : Fin 32 → Byte
  seed : Fin 32 → Byte
  u : Uninit

namespace cgo_algorithm

/-- The constant `cacheSize` of `cgo_algorithm/lib/cSimdTs.cpp`. -/
def cacheSize : Nat := 42

/-- The globals of `cgo_algorithm/lib/cSimdTs.cpp` that live across calls: the buffer `result`
and `seedCache`.  The global `matList_int16` is assigned on both branches of every call before
its only use, so it carries nothing from one call to the next. -/
structure State where
  result : Fin 32 → Byte
  seedCache : SeedCache

/-- The globals at program start: `result` zeroed, `seedCache` empty. -/
def State.init : State := ⟨fun _ => 0, []⟩

/-- The value of `matList_int16` after the `if`/`else` of `SimdTs`. -/
def SimdTs_matList (sha3 : List Byte → Fin 32 → Byte) (u : Uninit) (st : State)
    (seed : Fin 32 → Byte) : BytomMatList16 :=
  let seedVec : List Byte := List.ofFn seed
  match map_find st.seedCache seedVec with
  | some ml => ml
  | none => buildMatList sha3 u seed

/-- The contents of `seedCache` after the `if`/`else` of `SimdTs`, before the flush test. -/
def SimdTs_cache (sha3 : List Byte → Fin 32 → Byte) (u : Uninit) (st : State)
    (seed : Fin 32 → Byte) : SeedCache :=
  let seedVec : List Byte := List.ofFn seed
  match map_find st.seedCache seedVec with
  | some _ => st.seedCache
  | none => map_insert st.seedCache seedVec (buildMatList sha3 u seed)

/-- The function `SimdTs(blockheader, seed)` of the `cgo_algorithm` variant: the globals after
the call.  The pointer that the call returns is `result`, so the digest returned is the field
`result` of the value. -/
def SimdTs (sha3 : List Byte → Fin 32 → Byte) (u : Uninit) (st : State)
    (blockheader seed : Fin 32 → Byte) : State :=
  let matList_int16 : BytomMatList16 := SimdTs_matList sha3 u st seed
  let seedCache : SeedCache := SimdTs_cache sha3 u st seed
  let result : Fin 32 → Byte :=
    iter_mineBytom sha3 u matList_int16 (List.ofFn blockheader) 32
  let seedCache : SeedCache := if seedCache.length > cacheSize then [] else seedCache
  ⟨result, seedCache⟩

/-- The globals after a history of calls, starting from program start. -/
def run (sha3 : List Byte → Fin 32 → Byte) (calls : List Call) : State :=
  calls.foldl (fun st c => SimdTs sha3 c.u st c.blockheader c.seed) State.init

end cgo_algorithm

namespace stlib

/-- The globals of `stlib/cSimdTs.cpp` that live across calls. -/
structure State where
  result : Fin 32 → Byte
  seedCache : SeedCache

/-- The globals at program start. -/
def State.init : State := ⟨fun _ => 0, []⟩

/-- The function `SimdTs(blockheader, seed)` of the `stlib` variant: the globals after the
call; the digest returned is the field `result`. -/
def SimdTs (sha3 : List Byte → Fin 32 → Byte) (u : Uninit) (st : State)
    (blockheader seed : Fin 32 → Byte) : State :=
  let seedVec : List Byte := List.ofFn seed
  let hit : Option BytomMatList16 := map_find st.seedCache seedVec
  let matList_int16 : BytomMatList16 :=
    match hit with
    | some ml => ml
    | none => buildMatList sha3 u seed
  let seedCache : SeedCache :=
    match hit with
    | some _ => st.seedCache
    | none => map_insert st.seedCache seedVec matList_int16
  let result : Fin 32 → Byte :=
    iter_mineBytom sha3 u matList_int16 (List.ofFn blockheader) 32
  ⟨result, seedCache⟩

/-- The globals after a history of calls, starting from program start. -/
def run (sha3 : List Byte → Fin 32 → Byte) (calls : List Call) : State :=
  calls.foldl (fun st c => SimdTs sha3 c.u st c.blockheader c.seed) State.init

end stlib

namespace dylib

/-- The globals of `dylib/cSimdTs.cpp` that live across calls: `seedCache`, which no statement
of this variant touches.  The pointers `result` and `matList_int16` are assigned at the start
of every call; at the end `result` is `NULL` and the matrix list is deleted. -/
structure State where
  seedCache : SeedCache

/-- The globals at program start. -/
def State.init : State := ⟨[]⟩

/-- The function `SimdTs(blockheader, seed, res)` of the `dylib` variant: the value returned,
the contents of the caller's buffer `res` after the call, and the globals. -/
def SimdTs (sha3 : List Byte → Fin 32 → Byte) (u : Uninit) (st : State)
    (blockheader seed : Fin 32 → Byte) (_res : Fin 32 → Byte) : Int × (Fin 32 → Byte) × State :=
  let matList_int16 : BytomMatList16 := buildMatList sha3 u seed
  let result : Fin 32 → Byte :=
    iter_mineBytom sha3 u matList_int16 (List.ofFn blockheader) 32
  (0, result, st)

/-- The globals after a history of calls, starting from program start; every call gets the
buffer `res` of the entry. -/
def run (sha3 : List Byte → Fin 32 → Byte) (calls : List (Call × (Fin 32 → Byte))) : State :=
  calls.foldl (fun st c => (SimdTs sha3 c.1.u st c.1.blockheader c.1.seed c.2).2.2) State.init

end dylib

/-! ## The SHA3-256 of the specification (original Keccak padding)

The theorems below hold for every function `sha3`; `keccak256` serves where a concrete hash is
needed. -/

/-- Modelled from the spec: the round constants of Keccak-f[1600], which the specification
names as the permutation of its SHA3-256 (file `sha3-allInOne.h` is missing). -/
def keccak_RC : List Nat :=
  [0x1, 0x8082, 0x800000000000808a, 0x8000000080008000,
   0x808b, 0x80000001, 0x8000000080008081, 0x8000000000008009,
   0x8a, 0x88, 0x80008009, 0x8000000a,
   0x8000808b, 0x800000000000008b, 0x8000000000008089, 0x8000000000008003,
   0x8000000000008002, 0x8000000000000080, 0x800a, 0x800000008000000a,
   0x8000000080008081, 0x8000000000008080, 0x80000001, 0x8000000080008008]

/-- Modelled from the spec: the rotation offsets of Keccak-f[1600]; row `y` of the table
holds the offsets of the lanes `(0, y), ..., (4, y)` (file `sha3-allInOne.h` is missing). -/
def keccak_rot : List (List Nat) :=
  [[0, 1, 62, 28, 27],
   [36, 44, 6, 55, 20],
   [3, 10, 43, 25, 39],
   [41, 45, 15, 21, 8],
   [18, 2, 61, 56, 14]]

/-- Rotation of a 64-bit lane to the left. -/
def rotl64 (x n : Nat) : Nat := ((x <<< n) % 2 ^ 64) ||| (x >>> (64 - n))

/-- Modelled from the spec: one round (theta, rho, pi, chi, iota) of Keccak-f[1600] on the 25
lanes, lane `(x, y)` at position `x + 5 * y` (file `sha3-allInOne.h` is missing). -/
def keccak_round (A : List Nat) (rc : Nat) : List Nat :=
  let C : List Nat := (List.range 5).map (fun x =>
    A.getD x 0 ^^^ A.getD (x + 5) 0 ^^^ A.getD (x + 10) 0 ^^^ A.getD (x + 15) 0 ^^^
      A.getD (x + 20) 0)
  let D : List Nat := (List.range 5).map (fun x =>
    C.getD ((x + 4) % 5) 0 ^^^ rotl64 (C.getD ((x + 1) % 5) 0) 1)
  let A1 : List Nat := (List.range 25).map (fun i => A.getD i 0 ^^^ D.getD (i % 5) 0)
  let B : List Nat := (List.range 25).map (fun i =>
    let x := (i % 5 + 3 * (i / 5)) % 5
    let y := i % 5
    rotl64 (A1.getD (x + 5 * y) 0) ((keccak_rot.getD y []).getD x 0))
  let A2 : List Nat := (List.range 25).map (fun i =>
    let x := i % 5
    let y := i / 5
    B.getD i 0 ^^^
      ((B.getD ((x + 1) % 5 + 5 * y) 0 ^^^ (2 ^ 64 - 1)) &&& B.getD ((x + 2) % 5 + 5 * y) 0))
  (List.range 25).map (fun i => if i = 0 then A2.getD 0 0 ^^^ rc else A2.getD i 0)

/-- Modelled from the spec: the permutation Keccak-f[1600], 24 rounds (file
`sha3-allInOne.h` is missing). -/
def keccak_f (A : List Nat) : List Nat := keccak_RC.foldl keccak_round A

/-- Modelled from the spec: the original Keccak multi-rate padding (first pad byte `0x01`,
last pad byte `0x80`) to a multiple of the rate of 136 bytes (file `sha3-allInOne.h` is
missing). -/
def keccak_pad (msg : List Nat) : List Nat :=
  let q := 136 - msg.length % 136
  if q = 1 then msg ++ [0x81] else msg ++ [0x01] ++ List.replicate (q - 2) 0 ++ [0x80]

/-- The little-endian value of a list of bytes. -/
def le64 (bs : List Nat) : Nat := bs.foldr (fun b acc => b + 256 * acc) 0

/-- Modelled from the spec: absorption of `n` blocks of 136 bytes, each XORed into the first
17 lanes and followed by the permutation (file `sha3-allInOne.h` is missing). -/
def keccak_absorb : Nat → List Nat → List Nat → List Nat
  | 0, A, _ => A
  | n + 1, A, bytes =>
    let block := bytes.take 136
    let A1 := (List.range 25).map (fun i =>
      if i < 17 then A.getD i 0 ^^^ le64 ((block.drop (8 * i)).take 8) else A.getD i 0)
    keccak_absorb n (keccak_f A1) (bytes.drop 136)

/-- Modelled from the spec: the 32 output bytes of SHA3-256 with the original Keccak padding,
on byte values (file `sha3-allInOne.h` is missing). -/
def keccak256_bytes (msg : List Nat) : List Nat :=
  let p := keccak_pad msg
  let A := keccak_absorb (p.length / 136) (List.replicate 25 0) p
  (List.range 32).map (fun t => (A.getD (t / 8) 0 >>> (8 * (t % 8))) % 256)

/-- Modelled from the spec: SHA3-256 as the specification fixes it, Keccak-f[1600] with rate
136 and the original Keccak padding: initialise, absorb one byte range, finalise to 32 bytes
(the functions `rhash_sha3_256_init`, `rhash_sha3_update`, `rhash_sha3_final` of the missing
file `sha3-allInOne.h`). -/
def keccak256 (msg : List Byte) : Fin 32 → Byte :=
  fun t => ⟨(keccak256_bytes (msg.map Fin.val)).getD t.val 0 % 256, Nat.mod_lt _ (by decide)⟩

/-! ## Expressions that the statements below refer to -/

/-- The word `i32` that `copyFrom_helper` reads for column `i` and word index `j`. -/
def pad_word (ltcMem : LTCMemory) (offset : Fin 2) (i : Fin 256) (j : Fin 64) : Nat :=
  if h : 32 ≤ j.val then
    (ltcMem.get (i.val * 4 + 2 + offset.val) (by omega)).get (j.val - 32) (by omega)
  else (ltcMem.get (i.val * 4 + offset.val) (by omega)).get j.val (by omega)

/-- The pad and `X` before pass `n` of the loop of `BytomMatList16::init` (passes are counted
from 0): pass `n` runs `scrypt` on the pad and the `X` that the passes before have left. -/
def init_state (ltcMem0 : LTCMemory) (X_in : Words32) : Nat → LTCMemory × Words32
  | 0 => (ltcMem0, X_in)
  | n + 1 => (init_state ltcMem0 X_in n).1.scrypt (init_state ltcMem0 X_in n).2

/-- The hashes `h[0] = seed`, `h[k+1] = SHA3_256(h[k])` of the seed expansion. -/
def seed_chain (sha3 : List Byte → Fin 32 → Byte) (seed : Fin 32 → Byte) : Nat → Fin 32 → Byte
  | 0 => seed
  | k + 1 => sha3 (List.ofFn (seed_chain sha3 seed k))

/-- The `k`-loop of `iter_mineBytom` with the lanes taken in the order of the list `order`
instead of `0, 1, 2, 3`: the array `resArr8` after the lanes of the list have run one after the
other. -/
def iter_mineBytom_lanes (sha3 : List Byte → Fin 32 → Byte) (u : Uninit)
    (matList_int16 : BytomMatList16) (fixedMessage : List Byte) (len : Nat)
    (order : List (Fin 4)) : Fin 4 → Mat256x256i8 :=
  order.foldl (fun (resArr8 : Fin 4 → Mat256x256i8) k =>
    set1 resArr8 k
      (iter_mineBytom_lane sha3 matList_int16 fixedMessage len k (u.mat16 k) (u.tmp16 k)
        (resArr8 k))) u.resArr8

/-- The lanes evaluated independently of each other (as under `omp parallel for`): entry `k`
is the result of lane `k` run on the storage that the call obtained, and no lane sees what
another lane has written. -/
def iter_mineBytom_parallel (sha3 : List Byte → Fin 32 → Byte) (u : Uninit)
    (matList_int16 : BytomMatList16) (fixedMessage : List Byte) (len : Nat) :
    Fin 4 → Mat256x256i8 :=
  fun k => iter_mineBytom_lane sha3 matList_int16 fixedMessage len k (u.mat16 k) (u.tmp16 k)
    (u.resArr8 k)

/-- The all-zero array of 32 bytes. -/
def zero32 : Fin 32 → Byte := fun _ => 0

/-- The 32-byte array whose byte 0 is `n % 256` and whose other bytes are zero. -/
def seed_of_nat (n : Nat) : Fin 32 → Byte :=
  fun i => if i.val = 0 then ⟨n % 256, Nat.mod_lt _ (by decide)⟩ else 0

/-- The all-zero matrix of 16-bit entries. -/
def Mat256x256i16.zero : Mat256x256i16 := ⟨fun _ _ => 0⟩

/-- The all-zero matrix of 8-bit entries. -/
def Mat256x256i8.zero : Mat256x256i8 := ⟨fun _ _ => 0⟩

/-- Uninitialised storage that happens to hold zeros everywhere. -/
def Uninit.zero : Uninit where
  seedHash := fun _ _ => 0
  exted := fun _ => 0
  extSeed := ⟨⟨fun _ => 0⟩, ⟨fun _ => 0⟩⟩
  matVec := fun _ => Mat256x256i16.zero
  ltcMem := ⟨fun _ => ⟨⟨fun _ => 0⟩, ⟨fun _ => 0⟩⟩⟩
  mat16 := fun _ => Mat256x256i16.zero
  tmp16 := fun _ => Mat256x256i16.zero
  resArr8 := fun _ => Mat256x256i8.zero
  res8 := Mat256x256i8.zero
  arr := ⟨fun _ _ => 0⟩

/-- The little-endian 32-bit word `i` of a 32-byte digest: bytes `4 i .. 4 i + 3`. -/
def le_word32 (d : Fin 32 → Byte) (i : Fin 8) : Nat :=
  (d ⟨4 * i.val, by omega⟩).val + 256 * (d ⟨4 * i.val + 1, by omega⟩).val
    + 65536 * (d ⟨4 * i.val + 2, by omega⟩).val + 16777216 * (d ⟨4 * i.val + 3, by omega⟩).val

/-- The invariant of `seedCache`: every entry is keyed by the 32 bytes of a seed and holds
the matrix list that `buildMatList` yields for that seed. -/
def CacheInv (sha3 : List Byte → Fin 32 → Byte) (c : SeedCache) : Prop :=
  ∀ e ∈ c, ∃ seed : Fin 32 → Byte,
    e.1 = List.ofFn seed ∧ ∀ u : Uninit, e.2 = buildMatList sha3 u seed

/-- A history of 43 calls with pairwise distinct seeds: call `n` has the zero header and the
seed `seed_of_nat n`. -/
def calls43 : List Call :=
  (List.range 43).map (fun n => (⟨zero32, seed_of_nat n, Uninit.zero⟩ : Call))

/-- The history of `N` consecutive calls `SimdTs(h, s)`; call `n` obtains the uninitialised
storage `us n`. -/
def repeat_calls (h s : Fin 32 → Byte) (us : Nat → Uninit) (N : Nat) : List Call :=
  (List.range N).map (fun n => (⟨h, s, us n⟩ : Call))

/-- The matrix of 16-bit entries whose cells all hold `v`. -/
def Mat256x256i16.const (v : Int) : Mat256x256i16 := ⟨fun _ _ => v⟩

/-! ## Expressions of the statements on the pad, the lanes and the reduction -/

/-- The 32 words of a `Words32` in the order of `Words32::get`: the 16 words of `lo`, then the
16 words of `hi`. -/
def Words32.toList (w : Words32) : List Nat := List.ofFn w.lo.w ++ List.ofFn w.hi.w

/-- The matrices `T_n` of one lane of `iter_mineBytom`: `T_0` is what `toIdentityMatrix` leaves,
and `T_(n+1)` is what `mul(T_n, matList_int16->at(sequence[n % 32]))` leaves; `scratch` is the
previous contents of the matrix that is written. -/
def lane_chain (scratch : Mat256x256i16) (matList_int16 : BytomMatList16)
    (sequence : Fin 32 → Byte) : Nat → Mat256x256i16
  | 0 => scratch.toIdentityMatrix
  | n + 1 =>
    scratch.mul (lane_chain scratch matList_int16 sequence n)
      (matList_int16.at_ (sequence ⟨n % 32, Nat.mod_lt _ (by decide)⟩))

/-- The first `n` entries of column `c` of the array, as a vector: `d[0][c] .. d[n-1][c]`. -/
def Arr256x64i32.column (a : Arr256x64i32) (n : Nat) (hn : n ≤ 256) (c : Fin 64) : List Nat :=
  List.ofFn (fun r : Fin n => a.d ⟨r.val, by omega⟩ c)

/-- The array with column `c` taken from `a` and every other column taken from `b`. -/
def Arr256x64i32.withColumnOf (b a : Arr256x64i32) (c : Fin 64) : Arr256x64i32 :=
  ⟨fun r c1 => if c1 = c then a.d r c1 else b.d r c1⟩

/-- One halving step of the specification on a vector: `zipWith FNV` of the first half and the
second half. -/
def fnv_halve (v : List Nat) : List Nat :=
  List.zipWith FNV (v.take (v.length / 2)) (v.drop (v.length / 2))

/-- The reduction `red` of the specification: `red` of a vector of at most one element is that
element (0 for the empty vector), and `red v = red (fnv_halve v)` otherwise. -/
def fnv_red (v : List Nat) : Nat :=
  if _h : v.length ≤ 1 then v.headD 0 else fnv_red (fnv_halve v)
termination_by v.length
decreasing_by
  simp only [fnv_halve, List.length_zipWith, List.length_take, List.length_drop]
  omega

/-- The XOR of two `Words32`, word by word on both halves. -/
def Words32.xor (x y : Words32) : Words32 :=
  ⟨⟨fun i => x.lo.w i ^^^ y.lo.w i⟩, ⟨fun i => x.hi.w i ^^^ y.hi.w i⟩⟩

/-- The step `G` of the second phase of `scrypt` on the pad `w`:
`G(x) = mix(x XOR w[x.hi.w[0] & 1023])`. -/
def scrypt_G (w : Fin 1024 → Words32) (x : Words32) : Words32 :=
  scrypt_mix (x.xor (w ⟨x.hi.w 0 &&& 1023, Nat.lt_succ_of_le Nat.and_le_right⟩))

/-- The quarterround function of the Salsa20 specification on `(y0, y1, y2, y3)`:
`z1 = y1 ⊕ ((y0 + y3) <<< 7)`, `z2 = y2 ⊕ ((z1 + y0) <<< 9)`, `z3 = y3 ⊕ ((z2 + z1) <<< 13)`,
`z0 = y0 ⊕ ((z3 + z2) <<< 18)`; the value is `(z0, z1, z2, z3)`. -/
def salsa20_quarterround (y0 y1 y2 y3 : Nat) : Nat × Nat × Nat × Nat :=
  let z1 := y1 ^^^ ROTL ((y0 + y3) % U32) 7
  let z2 := y2 ^^^ ROTL ((z1 + y0) % U32) 9
  let z3 := y3 ^^^ ROTL ((z2 + z1) % U32) 13
  let z0 := y0 ^^^ ROTL ((z3 + z2) % U32) 18
  (z0, z1, z2, z3)

/-- The columnround function of the Salsa20 specification:
`(y0, y4, y8, y12) = quarterround(x0, x4, x8, x12)`,
`(y5, y9, y13, y1) = quarterround(x5, x9, x13, x1)`,
`(y10, y14, y2, y6) = quarterround(x10, x14, x2, x6)`,
`(y15, y3, y7, y11) = quarterround(x15, x3, x7, x11)`. -/
def salsa20_columnround (x : Fin 16 → Nat) : Fin 16 → Nat :=
  let a := salsa20_quarterround (x 0) (x 4) (x 8) (x 12)
  let b := salsa20_quarterround (x 5) (x 9) (x 13) (x 1)
  let c := salsa20_quarterround (x 10) (x 14) (x 2) (x 6)
  let d := salsa20_quarterround (x 15) (x 3) (x 7) (x 11)
  fun i =>
    [a.1, b.2.2.2, c.2.2.1, d.2.1,
     a.2.1, b.1, c.2.2.2, d.2.2.1,
     a.2.2.1, b.2.1, c.1, d.2.2.2,
     a.2.2.2, b.2.2.1, c.2.1, d.1].getD i.val 0

/-- The rowround function of the Salsa20 specification:
`(z0, z1, z2, z3) = quarterround(y0, y1, y2, y3)`,
`(z5, z6, z7, z4) = quarterround(y5, y6, y7, y4)`,
`(z10, z11, z8, z9) = quarterround(y10, y11, y8, y9)`,
`(z15, z12, z13, z14) = quarterround(y15, y12, y13, y14)`. -/
def salsa20_rowround (y : Fin 16 → Nat) : Fin 16 → Nat :=
  let a := salsa20_quarterround (y 0) (y 1) (y 2) (y 3)
  let b := salsa20_quarterround (y 5) (y 6) (y 7) (y 4)
  let c := salsa20_quarterround (y 10) (y 11) (y 8) (y 9)
  let d := salsa20_quarterround (y 15) (y 12) (y 13) (y 14)
  fun i =>
    [a.1, a.2.1, a.2.2.1, a.2.2.2,
     b.2.2.2, b.1, b.2.1, b.2.2.1,
     c.2.2.1, c.2.2.2, c.1, c.2.1,
     d.2.1, d.2.2.1, d.2.2.2, d.1].getD i.val 0

/-- The doubleround function of the Salsa20 specification: a columnround followed by a
rowround. -/
def salsa20_doubleround (x : Fin 16 → Nat) : Fin 16 → Nat :=
  salsa20_rowround (salsa20_columnround x)

/-- The matrix `res8` of `iter_mineBytom` after the three calls `res8->add(resArr8[0],
resArr8[1])`, `res8->add(*res8, resArr8[2])`, `res8->add(*res8, resArr8[3])`; `res8_0` is the
contents of `res8` before the first call. -/
def iter_mineBytom_sum (res8_0 : Mat256x256i8) (resArr8 : Fin 4 → Mat256x256i8) :
    Mat256x256i8 :=
  let res8 : Mat256x256i8 := res8_0.add (resArr8 0) (resArr8 1)
  let res8 : Mat256x256i8 := res8.addInPlace (resArr8 2)
  res8.addInPlace (resArr8 3)

/-! ## The accessors with their assertions -/

/-- The loop `for (i = 0; i < n; i++)` over a body that can fail: the first failure ends the
run. -/
def forLoopM {σ : Type} (n : Nat) (body : Fin n → σ → Option σ) (s : σ) : Option σ :=
  (List.finRange n).foldlM (fun acc i => body i acc) s

/-- The method `Words32::get(i)` called with an `int` argument, which the parameter
`uint32_t i` converts: `none` stands for the `assert(false)` of the last branch. -/
def Words32.get_assert (self : Words32) (i : Int) : Option Nat :=
  let u : Nat := toU32 i
  if h16 : u < 16 then some (self.lo.w ⟨u, h16⟩)
  else if h32 : u < 32 then some (self.hi.w ⟨u - 16, by omega⟩)
  else none

/-- The method `LTCMemory::get(i)` called with an `int` argument, which the parameter
`uint32_t i` converts: `none` stands for a failed `assert(i<1024)`. -/
def LTCMemory.get_assert (self : LTCMemory) (i : Int) : Option Words32 :=
  let u : Nat := toU32 i
  if h : u < 1024 then some (self.w32 ⟨u, h⟩) else none

/-- The method `Mat256x256i16::copyFrom_helper(ltcMem, offset)` for any `int offset` (the sums
`i*4+offset` and `i*4+2+offset` are taken without overflow), with the assertions of the two
accessors: `none` stands for a failed assertion. -/
def Mat256x256i16.copyFrom_helper_assert (self : Mat256x256i16) (ltcMem : LTCMemory)
    (offset : Int) : Option Mat256x256i16 :=
  forLoopM 256 (fun i m =>
    (ltcMem.get_assert ((i.val : Int) * 4 + offset)).bind (fun lo =>
    (ltcMem.get_assert ((i.val : Int) * 4 + 2 + offset)).bind (fun hi =>
    forLoopM 64 (fun j m =>
      (if 32 ≤ j.val then hi.get_assert ((j.val : Int) - 32)
        else lo.get_assert (j.val : Int)).bind (fun i32 =>
      let m := m.set ⟨j.val * 4 + 0, by omega⟩ i (toI8 (((i32 >>> 0) &&& 0xFF : Nat) : Int))
      let m := m.set ⟨j.val * 4 + 1, by omega⟩ i (toI8 (((i32 >>> 8) &&& 0xFF : Nat) : Int))
      let m := m.set ⟨j.val * 4 + 2, by omega⟩ i (toI8 (((i32 >>> 16) &&& 0xFF : Nat) : Int))
      let m := m.set ⟨j.val * 4 + 3, by omega⟩ i (toI8 (((i32 >>> 24) &&& 0xFF : Nat) : Int))
      some m)) m))) self

/-! ## `BytomPoW.h`: the nonce and the leading zeros -/

/-- The body of the loop of `incrNonce`, on the array and the flag that tells whether `break`
has been executed; `nonce[i]++` is the increment of a `uint8_t`. -/
def incrNonce_body (i : Fin 8) (s : (Fin 8 → Byte) × Bool) : (Fin 8 → Byte) × Bool :=
  if s.2 then s
  else if s.1 i ≠ 255 then
    (set1 s.1 i ⟨((s.1 i).val + 1) % 256, Nat.mod_lt _ (by decide)⟩, true)
  else (set1 s.1 i 0, false)

/-- The function `incrNonce(nonce)`: the contents of `nonce` after the call. -/
def incrNonce (nonce : Fin 8 → Byte) : Fin 8 → Byte :=
  (forLoop 8 incrNonce_body (nonce, false)).1

/-- The body of the loop of `countLeadingZero` for the byte `b = result[i]`, on `count` and
the flag that tells whether `break` has been executed.  A byte of 128 or more matches none of
the branches of the source, so neither `count` nor the flag changes and the loop goes on to
the next byte. -/
def countLeadingZero_body (b : Byte) (s : Int × Bool) : Int × Bool :=
  if s.2 then s
  else if b.val < 1 then (s.1 + 8, false)
  else if b.val < 2 then (s.1 + 7, true)
  else if b.val < 4 then (s.1 + 6, true)
  else if b.val < 8 then (s.1 + 5, true)
  else if b.val < 16 then (s.1 + 4, true)
  else if b.val < 32 then (s.1 + 3, true)
  else if b.val < 64 then (s.1 + 2, true)
  else if b.val < 128 then (s.1 + 1, true)
  else s

/-- The function `countLeadingZero(result)`.  The loop `for (int i=31; i>=0; i--)` is run
with the counter `t = 31 - i`. -/
def countLeadingZero (result : Fin 32 → Byte) : Int :=
  (forLoop 32 (fun t (s : Int × Bool) =>
    countLeadingZero_body (result ⟨31 - t.val, by omega⟩) s) (0, false)).1

/-! ## Expressions of the statements on truncation, chunks, nonces and pads -/

/-- The matrix of 8-bit entries whose cells all hold `v`. -/
def Mat256x256i8.const (v : Int) : Mat256x256i8 := ⟨fun _ _ => v⟩

/-- The header whose 8-byte chunk `k` is chunk `p k` of `header`, for a permutation `p` of the
four chunk numbers. -/
def permute_chunks (p : Equiv.Perm (Fin 4)) (header : Fin 32 → Byte) : Fin 32 → Byte :=
  fun i => header ⟨8 * (p ⟨i.val / 8, by omega⟩).val + i.val % 8,
    by have := (p ⟨i.val / 8, by omega⟩).is_lt; omega⟩

/-- The 64-bit unsigned integer that the eight bytes of a nonce encode in little-endian
order. -/
def le_value64 (nonce : Fin 8 → Byte) : Nat :=
  (nonce 0).val + 256 * (nonce 1).val + 256 ^ 2 * (nonce 2).val + 256 ^ 3 * (nonce 3).val
    + 256 ^ 4 * (nonce 4).val + 256 ^ 5 * (nonce 5).val + 256 ^ 6 * (nonce 6).val
    + 256 ^ 7 * (nonce 7).val

/-- The 256-bit integer whose least significant byte is `result[0]` and whose most significant
byte is `result[31]`. -/
def le_value256 (result : Fin 32 → Byte) : Nat :=
  ((List.finRange 32).map (fun i => (result i).val * 256 ^ i.val)).sum

/-- The number of leading zero bits of `v` written with `n` bits: the zero bits above the
highest set bit among bits `0 .. n-1` (all `n` bits when none is set). -/
def leading_zero_bits (v : Nat) : Nat → Nat
  | 0 => 0
  | n + 1 => if v.testBit n then 0 else leading_zero_bits v n + 1

/-- The 32-byte array whose byte 31 is `b` and whose other bytes are zero. -/
def top_byte (b : Byte) : Fin 32 → Byte := fun i => if i.val = 31 then b else 0

/-- Every word of the pad is a value of `uint32_t`. -/
def LTCMemory.Valid (m : LTCMemory) : Prop :=
  ∀ (s : Fin 1024) (i : Fin 16), (m.w32 s).lo.w i < U32 ∧ (m.w32 s).hi.w i < U32

/-- The pad whose words all hold `v`. -/
def LTCMemory.const (v : Nat) : LTCMemory := ⟨fun _ => ⟨⟨fun _ => v⟩, ⟨fun _ => v⟩⟩⟩

/-- The row of the cell into which `copyFrom_helper` reads byte `q` of word `w` of slot `s` of
the pad. -/
def slot_row (s : Fin 1024) (w : Fin 32) (q : Fin 4) : Fin 256 :=
  ⟨4 * (32 * (s.val % 4 / 2) + w.val) + q.val, by omega⟩

/-- The column of the cells into which `copyFrom_helper` reads slot `s` of the pad. -/
def slot_column (s : Fin 1024) : Fin 256 := ⟨s.val / 4, by omega⟩

/-- The offset of the call of `copyFrom_helper` that reads slot `s` of the pad: 0 for
`copyFromEven`, 1 for `copyFromOdd`. -/
def slot_offset (s : Fin 1024) : Fin 2 := ⟨s.val % 2, Nat.mod_lt _ (by decide)⟩

/-! ## Loop lemmas -/


theorem forLoop_preserve {σ : Type} {n : Nat} (Q : σ → Prop) (body : Fin n → σ → σ)
    (hpres : ∀ i s, Q s → Q (body i s)) (s : σ) (hs : Q s) : Q (forLoop n body s) := by
  unfold forLoop
  generalize List.finRange n = L
  induction L generalizing s with
  | nil => simpa using hs
  | cons x xs ih => exact ih _ (hpres x s hs)

theorem foldl_establish {σ ι : Type} (Q : σ → Prop) (step : σ → ι → σ) (L : List ι) (t : ι)
    (ht : t ∈ L) (hpres : ∀ i s, Q s → Q (step s i)) (hest : ∀ s, Q (step s t)) (s : σ) :
    Q (L.foldl step s) := by
  induction L generalizing s with
  | nil => cases ht
  | cons x xs ih =>
    rcases List.mem_cons.mp ht with h | h
    · subst h
      have aux : ∀ (ys : List ι) (u : σ), Q u → Q (ys.foldl step u) := by
        intro ys
        induction ys with
        | nil => intro u hu; simpa using hu
        | cons y ys ihy => intro u hu; exact ihy _ (hpres y u hu)
      exact aux xs _ (hest s)
    · exact ih h _

theorem forLoop_establish {σ : Type} {n : Nat} (Q : σ → Prop) (body : Fin n → σ → σ)
    (t : Fin n) (hpres : ∀ i s, Q s → Q (body i s)) (hest : ∀ s, Q (body t s)) (s : σ) :
    Q (forLoop n body s) := by
  unfold forLoop
  exact foldl_establish Q (fun acc i => body i acc) (List.finRange n) t (List.mem_finRange t)
    (fun i s hq => hpres i s hq) hest s

theorem forLoop2_establish {σ : Type} {r c : Nat} (Q : σ → Prop) (wr : Fin r → Fin c → σ → σ)
    (I : Fin r) (J : Fin c) (hpres : ∀ i j s, Q s → Q (wr i j s)) (hest : ∀ s, Q (wr I J s))
    (s : σ) : Q (forLoop r (fun i s => forLoop c (fun j s => wr i j s) s) s) :=
  forLoop_establish Q _ I
    (fun i s hs => forLoop_preserve Q _ (fun j s hs => hpres i j s hs) s hs)
    (fun s => forLoop_establish Q _ J (fun j s hs => hpres I j s hs) hest s) s

theorem forLoop_succ_last {σ : Type} (n : Nat) (body : Fin (n + 1) → σ → σ) (s : σ) :
    forLoop (n + 1) body s = body (Fin.last n) (forLoop n (fun i => body i.castSucc) s) := by
  unfold forLoop
  rw [List.finRange_succ_last, List.foldl_append, List.foldl_map]
  rfl

theorem forLoop_zero {σ : Type} (body : Fin 0 → σ → σ) (s : σ) : forLoop 0 body s = s := by
  simp [forLoop]

/-- Invariant indexed by the number of iterations done. -/
theorem forLoop_count {σ : Type} (n : Nat) (P : Nat → σ → Prop) (body : Fin n → σ → σ) (s : σ)
    (h0 : P 0 s) (hstep : ∀ (i : Fin n) (s : σ), P i.val s → P (i.val + 1) (body i s)) :
    P n (forLoop n body s) := by
  induction n with
  | zero => rw [forLoop_zero]; exact h0
  | succ n ih =>
    rw [forLoop_succ_last]
    exact hstep (Fin.last n) _ (ih (fun i => body i.castSucc) (fun i s hs => hstep i.castSucc s hs))

theorem toI16_of_range (v : Int) (h1 : -32768 ≤ v) (h2 : v ≤ 32767) : toI16 v = v := by
  unfold toI16; omega

theorem toI8_range (v : Int) : -128 ≤ toI8 v ∧ toI8 v ≤ 127 := by
  unfold toI8; omega

theorem toI16_toI8 (v : Int) : toI16 (toI8 v) = toI8 v := by
  have := toI8_range v
  exact toI16_of_range _ (by omega) (by omega)

@[simp] theorem Mat256x256i16.set_d (m : Mat256x256i16) (i j a b : Fin 256) (v : Int) :
    (m.set i j v).d a b = if a = i ∧ b = j then toI16 v else m.d a b := rfl

@[simp] theorem Mat256x256i8.set_d8 (m : Mat256x256i8) (i j a b : Fin 256) (v : Int) :
    (m.set i j v).d a b = if a = i ∧ b = j then toI8 v else m.d a b := rfl

theorem Mat256x256i16.set_keeps (m : Mat256x256i16) (a b i j : Fin 256) (v w : Int)
    (hm : m.d a b = v) (hw : a = i → b = j → toI16 w = v) : (m.set i j w).d a b = v := by
  rw [Mat256x256i16.set_d]
  split_ifs with h
  · exact hw h.1 h.2
  · exact hm

theorem Mat256x256i16.set_hits (m : Mat256x256i16) (a b : Fin 256) (w : Int) :
    (m.set a b w).d a b = toI16 w := by
  simp

theorem Mat256x256i8.set_keeps8 (m : Mat256x256i8) (a b i j : Fin 256) (v w : Int)
    (hm : m.d a b = v) (hw : a = i → b = j → toI8 w = v) : (m.set i j w).d a b = v := by
  rw [Mat256x256i8.set_d8]
  split_ifs with h
  · exact hw h.1 h.2
  · exact hm

theorem Mat256x256i8.set_hits8 (m : Mat256x256i8) (a b : Fin 256) (w : Int) :
    (m.set a b w).d a b = toI8 w := by
  simp

theorem Mat256x256i16.toIdentityMatrix_d (self : Mat256x256i16) (a b : Fin 256) :
    (self.toIdentityMatrix).d a b = if a = b then 1 else 0 := by
  unfold Mat256x256i16.toIdentityMatrix
  refine forLoop2_establish (fun m : Mat256x256i16 => m.d a b = if a = b then 1 else 0)
    (fun i j m => m.set i j (if i = j then 1 else 0)) a b ?_ ?_ self
  · intro i j s hs
    refine Mat256x256i16.set_keeps _ _ _ _ _ _ _ hs ?_
    rintro rfl rfl
    split_ifs <;> rfl
  · intro s
    rw [Mat256x256i16.set_hits]
    split_ifs <;> rfl

theorem Mat256x256i16.copyFrom8_d (self : Mat256x256i16) (other : Mat256x256i8)
    (a b : Fin 256) : (self.copyFrom8 other).d a b = toI16 (other.d a b) := by
  unfold Mat256x256i16.copyFrom8
  refine forLoop2_establish (fun m : Mat256x256i16 => m.d a b = toI16 (other.d a b))
    (fun i j m => m.set j i (other.d j i)) b a ?_ ?_ self
  · intro i j s hs
    refine Mat256x256i16.set_keeps _ _ _ _ _ _ _ hs ?_
    rintro rfl rfl
    rfl
  · intro s
    rw [Mat256x256i16.set_hits]

theorem Mat256x256i16.copyFrom_d (self other : Mat256x256i16)
    (a b : Fin 256) : (self.copyFrom other).d a b = toI16 (other.d a b) := by
  unfold Mat256x256i16.copyFrom
  refine forLoop2_establish (fun m : Mat256x256i16 => m.d a b = toI16 (other.d a b))
    (fun i j m => m.set j i (other.d j i)) b a ?_ ?_ self
  · intro i j s hs
    refine Mat256x256i16.set_keeps _ _ _ _ _ _ _ hs ?_
    rintro rfl rfl
    rfl
  · intro s
    rw [Mat256x256i16.set_hits]

theorem Mat256x256i16.add_d (self x y : Mat256x256i16) (a b : Fin 256) :
    (self.add x y).d a b = (x.d a b + y.d a b) % 256 := by
  have hv : toI16 ((x.d a b + y.d a b) % 256) = (x.d a b + y.d a b) % 256 :=
    toI16_of_range _ (by omega) (by omega)
  unfold Mat256x256i16.add
  dsimp only
  refine forLoop2_establish (fun m : Mat256x256i16 => m.d a b = (x.d a b + y.d a b) % 256)
    (fun i j m => m.set i j ((x.d i j + y.d i j) % 256)) a b ?_ ?_ self
  · intro i j s hs
    refine Mat256x256i16.set_keeps _ _ _ _ _ _ _ hs ?_
    rintro rfl rfl
    exact hv
  · intro s
    rw [Mat256x256i16.set_hits, hv]

theorem Mat256x256i16.toMatI8_d (self : Mat256x256i16) (other : Mat256x256i8)
    (a b : Fin 256) : (self.toMatI8 other).d a b = toI8 (self.d a b % 256) := by
  unfold Mat256x256i16.toMatI8
  refine forLoop2_establish (fun m : Mat256x256i8 => m.d a b = toI8 (self.d a b % 256))
    (fun i j m => m.set j i (self.d j i % 256)) b a ?_ ?_ other
  · intro i j s hs
    refine Mat256x256i8.set_keeps8 _ _ _ _ _ _ _ hs ?_
    rintro rfl rfl
    rfl
  · intro s
    rw [Mat256x256i8.set_hits8]

theorem Mat256x256i8.add_d8 (self x y : Mat256x256i8) (a b : Fin 256) :
    (self.add x y).d a b = toI8 ((x.d a b + y.d a b) % 256) := by
  unfold Mat256x256i8.add
  dsimp only
  refine forLoop2_establish (fun m : Mat256x256i8 => m.d a b = toI8 ((x.d a b + y.d a b) % 256))
    (fun i j m => m.set i j ((x.d i j + y.d i j) % 256)) a b ?_ ?_ self
  · intro i j s hs
    refine Mat256x256i8.set_keeps8 _ _ _ _ _ _ _ hs ?_
    rintro rfl rfl
    rfl
  · intro s
    rw [Mat256x256i8.set_hits8]

/-! ## The multiplication kernel -/

theorem mul_acc_fold (a b : Mat256x256i16) (bi bj : Fin 16) (h : Fin 2) (x : Fin 8)
    (c : Fin 16) (L : List (Fin 256)) (r0 : Fin 8 → M256i)
    (hr : r0 x c % 65536 = r0 x c) :
    (L.foldl (fun (r : Fin 8 → M256i) k =>
      (fun x => mm256_add_epi16 (r x)
        (mm256_mullo_epi16
          (mm256_set1_epi16 (a.d ⟨16 * bi.val + 8 * h.val + x.val, by omega⟩ k))
          (mm256_load_row b k bj)))) r0) x c
      = (r0 x c + (L.map (fun k => a.d ⟨16 * bi.val + 8 * h.val + x.val, by omega⟩ k *
          b.d k ⟨16 * bj.val + c.val, by omega⟩)).sum) % 65536 := by
  induction L generalizing r0 with
  | nil => simp [hr]
  | cons k ks ih =>
    rw [List.foldl_cons, ih]
    · simp only [mm256_add_epi16, mm256_mullo_epi16, mm256_set1_epi16, mm256_load_row,
        List.map_cons, List.sum_cons]
      generalize a.d ⟨16 * bi.val + 8 * h.val + x.val, by omega⟩ k = p
      generalize b.d k ⟨16 * bj.val + c.val, by omega⟩ = q
      have hp : (p % 65536 * (q % 65536)) % 65536 = (p * q) % 65536 :=
        (Int.mul_emod p q 65536).symm
      rw [hp]
      generalize p * q = pq
      omega
    · simp only [mm256_add_epi16]
      omega

theorem mul_acc_eq (a b : Mat256x256i16) (bi bj : Fin 16) (h : Fin 2) (x : Fin 8)
    (c : Fin 16) :
    Mat256x256i16.mul_acc a b bi bj h x c
      = mul_acc_exact a b ⟨16 * bi.val + 8 * h.val + x.val, by omega⟩
          ⟨16 * bj.val + c.val, by omega⟩ % 65536 := by
  unfold Mat256x256i16.mul_acc forLoop mul_acc_exact
  dsimp only
  rw [mul_acc_fold a b bi bj h x c (List.finRange 256) _ (by simp [mm256_set1_epi16])]
  simp [mm256_set1_epi16]

theorem mul_cell (a b : Mat256x256i16) (bi bj : Fin 16) (h : Fin 2) (x : Fin 8) (c : Fin 16) :
    toI16 (toI8 (mm256_extract_epi8 (Mat256x256i16.mul_t a b bi bj h x)
        ⟨2 * c.val + 1, by omega⟩))
      = (mul_ref a b).d ⟨16 * bi.val + 8 * h.val + x.val, by omega⟩
          ⟨16 * bj.val + c.val, by omega⟩ := by
  rw [toI16_toI8]
  have hidx : (⟨(2 * c.val + 1) / 2, by omega⟩ : Fin 16) = c := Fin.ext (by simp; omega)
  have hmod : (2 * c.val + 1) % 2 = 1 := by omega
  simp only [mm256_extract_epi8, Mat256x256i16.mul_t, mm256_add_epi16, mm256_slli_epi16,
    mul_ref, hidx, hmod, mul_acc_eq]
  generalize mul_acc_exact a b ⟨16 * bi.val + 8 * h.val + x.val, by omega⟩
    ⟨16 * bj.val + c.val, by omega⟩ = acc
  have h1 : (acc % 65536 + acc % 65536 * 2 ^ 8 % 65536) % 65536 = (acc * 257) % 65536 := by
    omega
  have h2 : acc + acc * 256 = acc * 257 := by ring
  rw [h1, h2]
  generalize acc * 257 = X
  have h3 : X % 65536 / 256 ^ 1 % 256 = X / 256 % 256 := by omega
  rw [h3]
  unfold toI8 sign_extend_i8
  split_ifs <;> omega

/-- The loop nest of `mul`: a property that every store keeps and that the store into cell
`(i, j)` establishes holds of the result. -/
theorem Mat256x256i16.mul_loop (Q : Mat256x256i16 → Prop) (a b : Mat256x256i16)
    (i j : Fin 256)
    (hpres2 : ∀ (bi bj : Fin 16) (h : Fin 2) (x : Fin 8) (c : Fin 16) (m : Mat256x256i16),
      Q m → Q (m.set ⟨16 * bi.val + 8 * h.val + x.val, by omega⟩
        ⟨16 * bj.val + c.val, by omega⟩
        (toI16 (toI8 (mm256_extract_epi8 (Mat256x256i16.mul_t a b bi bj h x)
          ⟨2 * c.val + 1, by omega⟩)))))
    (hest : ∀ m : Mat256x256i16,
      Q (m.set ⟨16 * (i.val / 16) + 8 * (i.val % 16 / 8) + i.val % 8, by omega⟩
        ⟨16 * (j.val / 16) + j.val % 16, by omega⟩
        (toI16 (toI8 (mm256_extract_epi8 (Mat256x256i16.mul_t a b
          (⟨i.val / 16, by omega⟩ : Fin 16) (⟨j.val / 16, by omega⟩ : Fin 16)
          (⟨i.val % 16 / 8, by omega⟩ : Fin 2) (⟨i.val % 8, by omega⟩ : Fin 8))
          ⟨2 * (j.val % 16) + 1, by omega⟩)))))
    (self : Mat256x256i16) : Q (self.mul a b) := by
  unfold Mat256x256i16.mul
  dsimp only
  refine forLoop_establish Q _ (⟨i.val / 16, by omega⟩ : Fin 16) ?_ ?_ self
  · intro bi s hs
    exact forLoop_preserve Q _ (fun bj s hs => forLoop_preserve Q _ (fun h s hs =>
      forLoop_preserve Q _ (fun x s hs => forLoop_preserve Q _ (fun c s hs =>
        hpres2 bi bj h x c s hs) s hs) s hs) s hs) s hs
  · intro s
    refine forLoop_establish Q _ (⟨j.val / 16, by omega⟩ : Fin 16) ?_ ?_ s
    · intro bj s hs
      exact forLoop_preserve Q _ (fun h s hs =>
        forLoop_preserve Q _ (fun x s hs => forLoop_preserve Q _ (fun c s hs =>
          hpres2 _ bj h x c s hs) s hs) s hs) s hs
    · intro s
      refine forLoop_establish Q _ (⟨i.val % 16 / 8, by omega⟩ : Fin 2) ?_ ?_ s
      · intro h s hs
        exact forLoop_preserve Q _ (fun x s hs => forLoop_preserve Q _ (fun c s hs =>
          hpres2 _ _ h x c s hs) s hs) s hs
      · intro s
        refine forLoop_establish Q _ (⟨i.val % 8, by omega⟩ : Fin 8) ?_ ?_ s
        · intro x s hs
          exact forLoop_preserve Q _ (fun c s hs => hpres2 _ _ _ x c s hs) s hs
        · intro s
          refine forLoop_establish Q _ (⟨j.val % 16, by omega⟩ : Fin 16) ?_ ?_ s
          · intro c s hs
            exact hpres2 _ _ _ _ c s hs
          · intro s
            exact hest s

/-- Closed form of `Mat256x256i16::mul`: every cell of the written matrix holds the value of
the scalar reference, whatever the matrix held before. -/
theorem Mat256x256i16.mul_d (self a b : Mat256x256i16) (i j : Fin 256) :
    (self.mul a b).d i j = (mul_ref a b).d i j := by
  refine Mat256x256i16.mul_loop (fun m => m.d i j = (mul_ref a b).d i j) a b i j ?_ ?_ self
  · intro bi bj h x c m hm
    refine Mat256x256i16.set_keeps _ _ _ _ _ _ _ hm ?_
    rintro rfl rfl
    rw [mul_cell, toI16_of_range]
    all_goals (simp only [mul_ref, sign_extend_i8]; split_ifs <;> omega)
  · intro m
    have hi : (⟨16 * (i.val / 16) + 8 * (i.val % 16 / 8) + i.val % 8, by omega⟩ :
        Fin 256) = i := Fin.ext (by simp; omega)
    have hj : (⟨16 * (j.val / 16) + j.val % 16, by omega⟩ : Fin 256) = j :=
      Fin.ext (by simp; omega)
    have hc := mul_cell a b ⟨i.val / 16, by omega⟩ ⟨j.val / 16, by omega⟩
      ⟨i.val % 16 / 8, by omega⟩ ⟨i.val % 8, by omega⟩ ⟨j.val % 16, by omega⟩
    simp only [hi, hj] at hc ⊢
    rw [Mat256x256i16.set_hits, toI16_toI8, ← hc, toI16_toI8]

/-! ## Matrices from the pad -/

theorem Mat256x256i16.set4_d (m : Mat256x256i16) (a b i0 i1 i2 i3 col : Fin 256)
    (V w0 w1 w2 w3 : Int)
    (h0 : a = i0 → b = col → toI16 w0 = V) (h1 : a = i1 → b = col → toI16 w1 = V)
    (h2 : a = i2 → b = col → toI16 w2 = V) (h3 : a = i3 → b = col → toI16 w3 = V)
    (hq : m.d a b = V ∨ ((a = i0 ∨ a = i1 ∨ a = i2 ∨ a = i3) ∧ b = col)) :
    ((((m.set i0 col w0).set i1 col w1).set i2 col w2).set i3 col w3).d a b = V := by
  simp only [Mat256x256i16.set_d]
  split_ifs with c3 c2 c1 c0
  · exact h3 c3.1 c3.2
  · exact h2 c2.1 c2.2
  · exact h1 c1.1 c1.2
  · exact h0 c0.1 c0.2
  · rcases hq with hq | ⟨hq, hb⟩
    · exact hq
    · exfalso
      rcases hq with hq | hq | hq | hq
      · exact c0 ⟨hq, hb⟩
      · exact c1 ⟨hq, hb⟩
      · exact c2 ⟨hq, hb⟩
      · exact c3 ⟨hq, hb⟩

theorem Mat256x256i16.copyFrom_helper_d (self : Mat256x256i16) (ltcMem : LTCMemory)
    (offset : Fin 2) (a b : Fin 256) :
    (self.copyFrom_helper ltcMem offset).d a b
      = toI8 (((pad_word ltcMem offset b ⟨a.val / 4, by omega⟩ >>> (8 * (a.val % 4)))
          &&& 0xFF : Nat) : Int) := by
  unfold Mat256x256i16.copyFrom_helper
  dsimp only
  have key : ∀ (i : Fin 256) (j : Fin 64) (q : Nat) (hq : q < 4),
      a = (⟨j.val * 4 + q, by omega⟩ : Fin 256) → b = i →
      toI16 (toI8 (((pad_word ltcMem offset i j >>> (8 * q)) &&& 0xFF : Nat) : Int))
        = toI8 (((pad_word ltcMem offset b ⟨a.val / 4, by omega⟩ >>> (8 * (a.val % 4)))
          &&& 0xFF : Nat) : Int) := by
    intro i j q hq ha hb
    subst hb
    have hv : a.val = j.val * 4 + q := congrArg Fin.val ha
    have e1 : (⟨a.val / 4, by omega⟩ : Fin 64) = j := Fin.ext (by simp only; omega)
    have e2 : a.val % 4 = q := by omega
    rw [e1, e2, toI16_toI8]
  refine forLoop2_establish
    (fun m : Mat256x256i16 => m.d a b
      = toI8 (((pad_word ltcMem offset b ⟨a.val / 4, by omega⟩ >>> (8 * (a.val % 4)))
          &&& 0xFF : Nat) : Int)) _ b (⟨a.val / 4, by omega⟩ : Fin 64) ?_ ?_ self
  · intro i j s hs
    exact Mat256x256i16.set4_d s a b _ _ _ _ i _ _ _ _ _
      (key i j 0 (by omega)) (key i j 1 (by omega)) (key i j 2 (by omega))
      (key i j 3 (by omega)) (Or.inl hs)
  · intro s
    refine Mat256x256i16.set4_d s a b _ _ _ _ b _ _ _ _ _
      (key b _ 0 (by omega)) (key b _ 1 (by omega)) (key b _ 2 (by omega))
      (key b _ 3 (by omega)) (Or.inr ⟨?_, rfl⟩)
    have h4 : a.val % 4 = 0 ∨ a.val % 4 = 1 ∨ a.val % 4 = 2 ∨ a.val % 4 = 3 := by omega
    rcases h4 with h | h | h | h
    · exact Or.inl (Fin.ext (by simp only; omega))
    · exact Or.inr (Or.inl (Fin.ext (by simp only; omega)))
    · exact Or.inr (Or.inr (Or.inl (Fin.ext (by simp only; omega))))
    · exact Or.inr (Or.inr (Or.inr (Fin.ext (by simp only; omega))))

/-! ## The pad, the seed expansion and the matrix list -/

theorem forLoop_fill1 {α : Type} {n : Nat} (f : Fin n → α) (w0 : Fin n → α) :
    forLoop n (fun i w => set1 w i (f i)) w0 = f := by
  funext t
  refine forLoop_establish (fun w : Fin n → α => w t = f t) _ t ?_ ?_ w0
  · intro i s hs
    simp only [set1]
    split_ifs with h
    · rw [h]
    · exact hs
  · intro s
    simp [set1]

/-- Closed form of the first loop of `scrypt`: slot `t` of the pad holds `X` mixed `t` times,
whatever the pad held before. -/
theorem LTCMemory.scrypt_fill_eq (self : LTCMemory) (X : Words32) :
    self.scrypt_fill X
      = ((⟨fun t => scrypt_mix^[t.val] X⟩ : LTCMemory), scrypt_mix^[1024] X) := by
  unfold LTCMemory.scrypt_fill
  refine Eq.trans (forLoop_count 1024
    (fun k (s : LTCMemory × Words32) => s =
      ((⟨fun t => if t.val < k then scrypt_mix^[t.val] X else self.w32 t⟩ : LTCMemory),
        scrypt_mix^[k] X)) _ (self, X) ?_ ?_) ?_
  · simp
  · intro i s hs
    subst hs
    refine Prod.ext ?_ ?_
    · dsimp only
      congr 1
      funext t
      simp only [set1]
      by_cases hti : t = i
      · subst hti
        simp
      · have hne : t.val ≠ i.val := fun h => hti (Fin.ext h)
        rw [if_neg hti]
        by_cases hlt : t.val < i.val
        · rw [if_pos hlt, if_pos (by omega)]
        · rw [if_neg hlt, if_neg (by omega)]
    · simp only [Function.iterate_succ_apply']
  · congr 2
    funext t
    rw [if_pos t.isLt]

/-- The method `scrypt` overwrites the whole pad before it reads it: the pad and `X` after the
call do not depend on the pad before the call. -/
theorem LTCMemory.scrypt_indep (self other : LTCMemory) (X : Words32) :
    self.scrypt X = other.scrypt X := by
  unfold LTCMemory.scrypt
  rw [LTCMemory.scrypt_fill_eq, LTCMemory.scrypt_fill_eq]

theorem init_state_succ (m : LTCMemory) (X : Words32) (n : Nat) :
    init_state m X (n + 1) = (init_state m X n).1.scrypt (init_state m X n).2 := by
  rw [init_state]

theorem init_state_indep (m1 m2 : LTCMemory) (X : Words32) (n : Nat) :
    init_state m1 X (n + 1) = init_state m2 X (n + 1) := by
  induction n with
  | zero =>
    rw [init_state_succ, init_state_succ]
    exact LTCMemory.scrypt_indep m1 m2 X
  | succ n ih =>
    rw [init_state_succ m1 X (n + 1), init_state_succ m2 X (n + 1), ih]

theorem Mat256x256i16.ext_d (m1 m2 : Mat256x256i16) (h : ∀ a b, m1.d a b = m2.d a b) :
    m1 = m2 := by
  cases m1; cases m2
  congr
  funext a b
  exact h a b

theorem Mat256x256i8.ext_d8 (m1 m2 : Mat256x256i8) (h : ∀ a b, m1.d a b = m2.d a b) :
    m1 = m2 := by
  cases m1; cases m2
  congr
  funext a b
  exact h a b

theorem Mat256x256i16.copyFrom_helper_indep (m1 m2 : Mat256x256i16) (ltcMem : LTCMemory)
    (offset : Fin 2) : m1.copyFrom_helper ltcMem offset = m2.copyFrom_helper ltcMem offset :=
  Mat256x256i16.ext_d _ _ (fun a b => by
    rw [Mat256x256i16.copyFrom_helper_d, Mat256x256i16.copyFrom_helper_d])

theorem triple_eta {α β γ : Type} (a b : α) (p : β × γ) (h : a = b) :
    (a, p.1, p.2) = (b, p) := by
  subst h
  rfl

/-- The state of the loop of `BytomMatList16::init` after all passes. -/
theorem BytomMatList16.init_loop (self : BytomMatList16) (ltcMem0 : LTCMemory)
    (X_in : Words32) (body : Fin 128 → BytomMatList16 × LTCMemory × Words32 →
      BytomMatList16 × LTCMemory × Words32)
    (hbody : ∀ i s, body i s =
      ((⟨set1 (set1 s.1.matVec ⟨2 * i.val, by omega⟩
          ((s.1.matVec ⟨2 * i.val, by omega⟩).copyFromEven (s.2.1.scrypt s.2.2).1))
          ⟨2 * i.val + 1, by omega⟩
          ((set1 s.1.matVec ⟨2 * i.val, by omega⟩
            ((s.1.matVec ⟨2 * i.val, by omega⟩).copyFromEven (s.2.1.scrypt s.2.2).1)
            ⟨2 * i.val + 1, by omega⟩).copyFromOdd (s.2.1.scrypt s.2.2).1)⟩ : BytomMatList16),
        (s.2.1.scrypt s.2.2).1, (s.2.1.scrypt s.2.2).2)) :
    forLoop 128 body (self, ltcMem0, X_in)
      = ((⟨fun t => (self.matVec t).copyFrom_helper
            (init_state ltcMem0 X_in (t.val / 2 + 1)).1
            ⟨t.val % 2, Nat.mod_lt _ (by decide)⟩⟩ : BytomMatList16),
          init_state ltcMem0 X_in 128) := by
  refine Eq.trans (forLoop_count 128
    (fun n (s : BytomMatList16 × LTCMemory × Words32) => s =
      ((⟨fun t => if t.val < 2 * n then
          (self.matVec t).copyFrom_helper (init_state ltcMem0 X_in (t.val / 2 + 1)).1
            ⟨t.val % 2, Nat.mod_lt _ (by decide)⟩ else self.matVec t⟩ : BytomMatList16),
        init_state ltcMem0 X_in n)) body (self, ltcMem0, X_in) ?_ ?_) ?_
  · simp [init_state]
  · intro i s hs
    subst hs
    rw [hbody]
    dsimp only
    rw [← init_state_succ]
    refine triple_eta _ _ (init_state ltcMem0 X_in (i.val + 1))
      (congrArg BytomMatList16.mk (funext fun t => ?_))
    simp only [set1]
    by_cases h1 : t = (⟨2 * i.val + 1, by omega⟩ : Fin 256)
    · subst h1
      have hne : (⟨2 * i.val + 1, by omega⟩ : Fin 256) ≠ ⟨2 * i.val, by omega⟩ := by
        intro h
        have := congrArg Fin.val h
        simp only at this
        omega
      have e1 : (2 * i.val + 1) / 2 + 1 = i.val + 1 := by omega
      have e2 : (⟨(2 * i.val + 1) % 2, Nat.mod_lt _ (by decide)⟩ : Fin 2) = 1 :=
        Fin.ext (by simp only; omega)
      have c1 : ¬ (2 * i.val + 1 < 2 * i.val) := by omega
      have c2 : 2 * i.val + 1 < 2 * (i.val + 1) := by omega
      simp only [if_true, if_neg hne, if_neg c1, if_pos c2, e1, e2]
      rfl
    · rw [if_neg h1]
      by_cases h0 : t = (⟨2 * i.val, by omega⟩ : Fin 256)
      · subst h0
        have e1 : (2 * i.val) / 2 + 1 = i.val + 1 := by omega
        have e2 : (⟨(2 * i.val) % 2, Nat.mod_lt _ (by decide)⟩ : Fin 2) = 0 :=
          Fin.ext (by simp only; omega)
        have c1 : ¬ (2 * i.val < 2 * i.val) := by omega
        have c2 : 2 * i.val < 2 * (i.val + 1) := by omega
        simp only [if_true, if_neg c1, if_pos c2, e1, e2]
        rfl
      · have hv0 : t.val ≠ 2 * i.val := fun h => h0 (Fin.ext h)
        have hv1 : t.val ≠ 2 * i.val + 1 := fun h => h1 (Fin.ext h)
        rw [if_neg h0]
        by_cases hlt : t.val < 2 * i.val
        · rw [if_pos hlt, if_pos (by omega)]
        · rw [if_neg hlt, if_neg (by omega)]
  · have hf : (fun t : Fin 256 => if t.val < 2 * 128 then
          (self.matVec t).copyFrom_helper (init_state ltcMem0 X_in (t.val / 2 + 1)).1
            ⟨t.val % 2, Nat.mod_lt _ (by decide)⟩ else self.matVec t)
        = fun t => (self.matVec t).copyFrom_helper (init_state ltcMem0 X_in (t.val / 2 + 1)).1
            ⟨t.val % 2, Nat.mod_lt _ (by decide)⟩ := by
      funext t
      rw [if_pos (by omega)]
    rw [hf]

theorem BytomMatList16.init_loop_matVec (self : BytomMatList16) (ltcMem0 : LTCMemory)
    (X_in : Words32) (body : Fin 128 → BytomMatList16 × LTCMemory × Words32 →
      BytomMatList16 × LTCMemory × Words32)
    (hbody : ∀ i s, body i s =
      ((⟨set1 (set1 s.1.matVec ⟨2 * i.val, by omega⟩
          ((s.1.matVec ⟨2 * i.val, by omega⟩).copyFromEven (s.2.1.scrypt s.2.2).1))
          ⟨2 * i.val + 1, by omega⟩
          ((set1 s.1.matVec ⟨2 * i.val, by omega⟩
            ((s.1.matVec ⟨2 * i.val, by omega⟩).copyFromEven (s.2.1.scrypt s.2.2).1)
            ⟨2 * i.val + 1, by omega⟩).copyFromOdd (s.2.1.scrypt s.2.2).1)⟩ : BytomMatList16),
        (s.2.1.scrypt s.2.2).1, (s.2.1.scrypt s.2.2).2)) (k : Fin 256) :
    (forLoop 128 body (self, ltcMem0, X_in)).1.matVec k
      = (self.matVec k).copyFrom_helper (init_state ltcMem0 X_in (k.val / 2 + 1)).1
          ⟨k.val % 2, Nat.mod_lt _ (by decide)⟩ := by
  rw [BytomMatList16.init_loop self ltcMem0 X_in body hbody]

/-- Closed form of `BytomMatList16::init`: matrix `k` is filled from the pad that pass `k / 2`
leaves, with offset `k % 2`. -/
theorem BytomMatList16.init_matVec (self : BytomMatList16) (ltcMem0 : LTCMemory)
    (X_in : Words32) (k : Fin 256) :
    (self.init ltcMem0 X_in).matVec k
      = (self.matVec k).copyFrom_helper (init_state ltcMem0 X_in (k.val / 2 + 1)).1
          ⟨k.val % 2, Nat.mod_lt _ (by decide)⟩ := by
  unfold BytomMatList16.init
  exact BytomMatList16.init_loop_matVec self ltcMem0 X_in _ (by intro i s; rfl) k

/-- The matrix list that `init` builds depends neither on the matrices that the list held
before nor on the pad before the first pass. -/
theorem BytomMatList16.init_indep (l1 l2 : BytomMatList16) (m1 m2 : LTCMemory) (X : Words32) :
    l1.init m1 X = l2.init m2 X := by
  have h : (l1.init m1 X).matVec = (l2.init m2 X).matVec := by
    funext k
    rw [BytomMatList16.init_matVec, BytomMatList16.init_matVec, init_state_indep m1 m2]
    exact Mat256x256i16.copyFrom_helper_indep _ _ _ _
  cases h1 : l1.init m1 X
  cases h2 : l2.init m2 X
  rw [h1, h2] at h
  simp only at h
  rw [h]

/-! ## The seed expansion -/

theorem forLoop_fill1_of {α : Type} {n : Nat} (body : Fin n → (Fin n → α) → Fin n → α)
    (f : Fin n → α) (hbody : ∀ i w, body i w = set1 w i (f i)) (w0 : Fin n → α) :
    forLoop n body w0 = f := by
  have hb : body = fun i w => set1 w i (f i) := by
    funext i w
    exact hbody i w
  rw [hb]
  exact forLoop_fill1 f w0

theorem forLoop_three {σ : Type} (body : Fin 3 → σ → σ) (s : σ) :
    forLoop 3 body s = body 2 (body 1 (body 0 s)) := by
  rfl

/-- The rows of `seedHash` after the hashing loop of `extend`: row `r` is `h[r]`. -/
theorem extend_seedHash (sha3 : List Byte → Fin 32 → Byte) (seedHash0 : Fin 4 → Fin 32 → Byte)
    (g_seed : Fin 32 → Byte) (r : Fin 4) :
    forLoop 3 (fun i (sh : Fin 4 → Fin 32 → Byte) =>
      set1 sh ⟨i.val + 1, by omega⟩ (sha3 (List.ofFn (sh ⟨i.val, by omega⟩))))
      (set1 seedHash0 0 g_seed) r = seed_chain sha3 g_seed r.val := by
  rw [forLoop_three]
  fin_cases r <;> simp [set1, seed_chain]

theorem toI32_of_range (v : Int) (h1 : -2147483648 ≤ v) (h2 : v < 2147483648) :
    toI32 v = v := by
  unfold toI32
  omega

theorem toI32_wrap (v : Int) (h1 : 2147483648 ≤ v) (h2 : v < 4294967296) :
    toI32 v = v - 4294967296 := by
  unfold toI32
  omega

theorem toU32_of_nonneg (v : Int) (h1 : 0 ≤ v) (h2 : v < 4294967296) :
    toU32 v = v.toNat := by
  unfold toU32
  rw [Int.emod_eq_of_lt h1 h2]

theorem toU32_of_neg (v : Int) (h1 : -4294967296 ≤ v) (h2 : v < 0) :
    toU32 v = (v + 4294967296).toNat := by
  unfold toU32
  congr 1
  omega

/-- The value that the C++ expression `(b3<<24) + (b2<<16) + (b1<<8) + b0` of `extend`
stores, for bytes promoted to `int`: read back as `uint32_t` it is the little-endian word of
the four bytes. -/
theorem extend_word (b0 b1 b2 b3 : Nat) (h0 : b0 < 256) (h1 : b1 < 256) (h2 : b2 < 256)
    (h3 : b3 < 256) :
    toU32 (toI32 (toI32 (toI32 (toI32 ((b3 : Int) * 2 ^ 24) + toI32 ((b2 : Int) * 2 ^ 16))
      + toI32 ((b1 : Int) * 2 ^ 8)) + (b0 : Int)))
      = b0 + 256 * b1 + 65536 * b2 + 16777216 * b3 := by
  have e2 : toI32 ((b2 : Int) * 2 ^ 16) = (b2 : Int) * 65536 :=
    (toI32_of_range _ (by omega) (by omega)).trans (by norm_num)
  have e1 : toI32 ((b1 : Int) * 2 ^ 8) = (b1 : Int) * 256 :=
    (toI32_of_range _ (by omega) (by omega)).trans (by norm_num)
  rw [e2, e1]
  by_cases hb : b3 < 128
  · have e3 : toI32 ((b3 : Int) * 2 ^ 24) = (b3 : Int) * 16777216 :=
      (toI32_of_range _ (by omega) (by omega)).trans (by norm_num)
    have a1 : toI32 ((b3 : Int) * 16777216 + (b2 : Int) * 65536)
        = (b3 : Int) * 16777216 + (b2 : Int) * 65536 :=
      toI32_of_range _ (by omega) (by omega)
    have a2 : toI32 ((b3 : Int) * 16777216 + (b2 : Int) * 65536 + (b1 : Int) * 256)
        = (b3 : Int) * 16777216 + (b2 : Int) * 65536 + (b1 : Int) * 256 :=
      toI32_of_range _ (by omega) (by omega)
    have a3 : toI32 ((b3 : Int) * 16777216 + (b2 : Int) * 65536 + (b1 : Int) * 256 + (b0 : Int))
        = (b3 : Int) * 16777216 + (b2 : Int) * 65536 + (b1 : Int) * 256 + (b0 : Int) :=
      toI32_of_range _ (by omega) (by omega)
    have a4 : toU32 ((b3 : Int) * 16777216 + (b2 : Int) * 65536 + (b1 : Int) * 256 + (b0 : Int))
        = ((b3 : Int) * 16777216 + (b2 : Int) * 65536 + (b1 : Int) * 256 + (b0 : Int)).toNat :=
      toU32_of_nonneg _ (by omega) (by omega)
    rw [e3, a1, a2, a3, a4]
    omega
  · have e3 : toI32 ((b3 : Int) * 2 ^ 24) = (b3 : Int) * 16777216 - 4294967296 :=
      (toI32_wrap _ (by omega) (by omega)).trans (by norm_num)
    have a1 : toI32 ((b3 : Int) * 16777216 - 4294967296 + (b2 : Int) * 65536)
        = (b3 : Int) * 16777216 - 4294967296 + (b2 : Int) * 65536 :=
      toI32_of_range _ (by omega) (by omega)
    have a2 : toI32 ((b3 : Int) * 16777216 - 4294967296 + (b2 : Int) * 65536
          + (b1 : Int) * 256)
        = (b3 : Int) * 16777216 - 4294967296 + (b2 : Int) * 65536 + (b1 : Int) * 256 :=
      toI32_of_range _ (by omega) (by omega)
    have a3 : toI32 ((b3 : Int) * 16777216 - 4294967296 + (b2 : Int) * 65536
          + (b1 : Int) * 256 + (b0 : Int))
        = (b3 : Int) * 16777216 - 4294967296 + (b2 : Int) * 65536 + (b1 : Int) * 256
          + (b0 : Int) :=
      toI32_of_range _ (by omega) (by omega)
    have a4 : toU32 ((b3 : Int) * 16777216 - 4294967296 + (b2 : Int) * 65536
          + (b1 : Int) * 256 + (b0 : Int))
        = ((b3 : Int) * 16777216 - 4294967296 + (b2 : Int) * 65536 + (b1 : Int) * 256
          + (b0 : Int) + 4294967296).toNat :=
      toU32_of_neg _ (by omega) (by omega)
    rw [e3, a1, a2, a3, a4]
    omega

/-- Closed form of `extend`: word `i` of `exted`, whatever `seedHash` and `exted` held
before. -/
theorem extend_eq (sha3 : List Byte → Fin 32 → Byte) (seedHash0 : Fin 4 → Fin 32 → Byte)
    (exted0 : Fin 32 → Nat) (g_seed : Fin 32 → Byte) (i : Fin 32) :
    extend sha3 seedHash0 exted0 g_seed i
      = (seed_chain sha3 g_seed (i.val / 8) ⟨(i.val * 4) % 32, Nat.mod_lt _ (by decide)⟩).val
        + 256 * (seed_chain sha3 g_seed (i.val / 8)
            ⟨(i.val * 4 + 1) % 32, Nat.mod_lt _ (by decide)⟩).val
        + 65536 * (seed_chain sha3 g_seed (i.val / 8)
            ⟨(i.val * 4 + 2) % 32, Nat.mod_lt _ (by decide)⟩).val
        + 16777216 * (seed_chain sha3 g_seed (i.val / 8)
            ⟨(i.val * 4 + 3) % 32, Nat.mod_lt _ (by decide)⟩).val := by
  rw [extend, forLoop_fill1_of _ _ (by intro i w; rfl) exted0]
  simp only [extend_seedHash]
  exact extend_word _ _ _ _ (Fin.isLt _) (Fin.isLt _) (Fin.isLt _) (Fin.isLt _)

theorem extend_indep (sha3 : List Byte → Fin 32 → Byte) (s1 s2 : Fin 4 → Fin 32 → Byte)
    (e1 e2 : Fin 32 → Nat) (g_seed : Fin 32 → Byte) :
    extend sha3 s1 e1 g_seed = extend sha3 s2 e2 g_seed := by
  funext i
  rw [extend_eq, extend_eq]

/-- Closed form of `init_seed`. -/
theorem init_seed_eq (seed : Words32) (_seed : Fin 32 → Nat) :
    init_seed seed _seed
      = ⟨⟨fun i => _seed ⟨i.val, by omega⟩⟩, ⟨fun i => _seed ⟨16 + i.val, by omega⟩⟩⟩ := by
  unfold init_seed
  dsimp only
  rw [forLoop_fill1, forLoop_fill1]

/-- The matrix list built for a seed does not depend on the contents of the uninitialised
storage. -/
theorem buildMatList_indep (sha3 : List Byte → Fin 32 → Byte) (u1 u2 : Uninit)
    (seed : Fin 32 → Byte) : buildMatList sha3 u1 seed = buildMatList sha3 u2 seed := by
  unfold buildMatList
  dsimp only
  rw [init_seed_eq, init_seed_eq, extend_indep sha3 u1.seedHash u2.seedHash u1.exted u2.exted]
  exact BytomMatList16.init_indep _ _ _ _ _

/-! ## The evaluation of one header -/

theorem forLoop_rel {σ τ : Type} {n : Nat} (R : σ → τ → Prop) (body1 : Fin n → σ → σ)
    (body2 : Fin n → τ → τ) (h : ∀ i s t, R s t → R (body1 i s) (body2 i t)) (s : σ) (t : τ)
    (hs : R s t) : R (forLoop n body1 s) (forLoop n body2 t) := by
  unfold forLoop
  generalize List.finRange n = L
  induction L generalizing s t with
  | nil => simpa using hs
  | cons x xs ih => exact ih _ _ (h x s t hs)

/-- The method `mul` as a function: the written matrix is the scalar reference. -/
theorem Mat256x256i16.mul_eq (self a b : Mat256x256i16) : self.mul a b = mul_ref a b :=
  Mat256x256i16.ext_d _ _ (fun i j => Mat256x256i16.mul_d self a b i j)

theorem Mat256x256i16.toIdentityMatrix_indep (m1 m2 : Mat256x256i16) :
    m1.toIdentityMatrix = m2.toIdentityMatrix :=
  Mat256x256i16.ext_d _ _ (fun i j => by
    rw [Mat256x256i16.toIdentityMatrix_d, Mat256x256i16.toIdentityMatrix_d])

theorem Mat256x256i16.toMatI8_indep (self : Mat256x256i16) (o1 o2 : Mat256x256i8) :
    self.toMatI8 o1 = self.toMatI8 o2 :=
  Mat256x256i8.ext_d8 _ _ (fun i j => by
    rw [Mat256x256i16.toMatI8_d, Mat256x256i16.toMatI8_d])

theorem Mat256x256i8.add_indep (s1 s2 x y : Mat256x256i8) : s1.add x y = s2.add x y :=
  Mat256x256i8.ext_d8 _ _ (fun i j => by rw [Mat256x256i8.add_d8, Mat256x256i8.add_d8])

/-- The result of a lane does not depend on what `mat16`, `tmp16` and `resArr8[k]` held
before the lane ran. -/
theorem iter_mineBytom_lane_indep (sha3 : List Byte → Fin 32 → Byte)
    (matList_int16 : BytomMatList16) (fixedMessage : List Byte) (len : Nat) (k : Fin 4)
    (m1 m2 t1 t2 : Mat256x256i16) (r1 r2 : Mat256x256i8) :
    iter_mineBytom_lane sha3 matList_int16 fixedMessage len k m1 t1 r1
      = iter_mineBytom_lane sha3 matList_int16 fixedMessage len k m2 t2 r2 := by
  unfold iter_mineBytom_lane
  dsimp only
  rw [Mat256x256i16.toMatI8_indep _ r1 r2]
  refine congrArg (fun x : Mat256x256i16 => x.toMatI8 r2) ?_
  refine forLoop_rel (fun (s t : Mat256x256i16 × Mat256x256i16) => s.2 = t.2) _ _ ?_ _ _ ?_
  · intro _ s t hst
    refine forLoop_rel (fun (s t : Mat256x256i16 × Mat256x256i16) => s.2 = t.2) _ _ ?_ _ _ hst
    intro i2 s t hst
    dsimp only
    generalize matList_int16.at_ (sha3 (List.take (len / 4)
      (List.drop (len * k.val % U32 / 4) fixedMessage)) ⟨2 * i2.val, by omega⟩) = A
    generalize matList_int16.at_ (sha3 (List.take (len / 4)
      (List.drop (len * k.val % U32 / 4) fixedMessage)) ⟨2 * i2.val + 1, by omega⟩) = B
    have e1 : s.1.mul s.2 A = mul_ref s.2 A := Mat256x256i16.mul_eq _ _ _
    have e2 : t.1.mul t.2 A = mul_ref t.2 A := Mat256x256i16.mul_eq _ _ _
    have e3 : s.2.mul (mul_ref s.2 A) B = mul_ref (mul_ref s.2 A) B :=
      Mat256x256i16.mul_eq _ _ _
    have e4 : t.2.mul (mul_ref t.2 A) B = mul_ref (mul_ref t.2 A) B :=
      Mat256x256i16.mul_eq _ _ _
    rw [e1, e2, e3, e4, hst]
  · dsimp only
    exact Mat256x256i16.toIdentityMatrix_indep t1 t2

/-- The lanes of `iter_mineBytom` in any order: after every lane has run at least once, entry
`k` of `resArr8` is the result of lane `k` on its own, so the array does not depend on the
order. -/
theorem iter_mineBytom_lanes_eq (sha3 : List Byte → Fin 32 → Byte) (u : Uninit)
    (matList_int16 : BytomMatList16) (fixedMessage : List Byte) (len : Nat)
    (order : List (Fin 4)) (hall : ∀ k : Fin 4, k ∈ order) :
    iter_mineBytom_lanes sha3 u matList_int16 fixedMessage len order
      = iter_mineBytom_parallel sha3 u matList_int16 fixedMessage len := by
  funext k
  unfold iter_mineBytom_lanes iter_mineBytom_parallel
  refine foldl_establish
    (fun (r : Fin 4 → Mat256x256i8) => r k
      = iter_mineBytom_lane sha3 matList_int16 fixedMessage len k (u.mat16 k) (u.tmp16 k)
          (u.resArr8 k)) _ order k (hall k) ?_ ?_ u.resArr8
  · intro i s hs
    simp only [set1]
    split_ifs with h
    · subst h
      exact iter_mineBytom_lane_indep _ _ _ _ _ _ _ _ _ _ _
    · exact hs
  · intro s
    simp only [set1, if_true]
    exact iter_mineBytom_lane_indep _ _ _ _ _ _ _ _ _ _ _

theorem iter_mineBytom_eq_lanes (sha3 : List Byte → Fin 32 → Byte) (u : Uninit)
    (matList_int16 : BytomMatList16) (fixedMessage : List Byte) (len : Nat) :
    iter_mineBytom sha3 u matList_int16 fixedMessage len
      = iter_mineBytom_finish sha3 u
          (iter_mineBytom_lanes sha3 u matList_int16 fixedMessage len (List.finRange 4)) := by
  rfl

/-- Closed form of the constructor of `Arr256x64i32`. -/
theorem Arr256x64i32.ofMat_d (self : Arr256x64i32) (mat : Mat256x256i8) (r : Fin 256)
    (c : Fin 64) :
    (self.ofMat mat).d r c
      = ((((toU8 (mat.d r ⟨c.val + 192, by omega⟩)).val <<< 24) % U32) |||
          (((toU8 (mat.d r ⟨c.val + 128, by omega⟩)).val <<< 16) % U32) |||
          (((toU8 (mat.d r ⟨c.val + 64, by omega⟩)).val <<< 8) % U32) |||
          (((toU8 (mat.d r ⟨c.val, by omega⟩)).val <<< 0) % U32)) := by
  unfold Arr256x64i32.ofMat
  refine forLoop2_establish
    (fun a : Arr256x64i32 => a.d r c
      = ((((toU8 (mat.d r ⟨c.val + 192, by omega⟩)).val <<< 24) % U32) |||
          (((toU8 (mat.d r ⟨c.val + 128, by omega⟩)).val <<< 16) % U32) |||
          (((toU8 (mat.d r ⟨c.val + 64, by omega⟩)).val <<< 8) % U32) |||
          (((toU8 (mat.d r ⟨c.val, by omega⟩)).val <<< 0) % U32))) _ r c ?_ ?_ self
  · intro j i s hs
    simp only [set2]
    split_ifs with h
    · obtain ⟨rfl, rfl⟩ := h
      rfl
    · exact hs
  · intro s
    simp only [set2, and_self, if_true]

theorem Arr256x64i32.ofMat_indep (a1 a2 : Arr256x64i32) (mat : Mat256x256i8) :
    a1.ofMat mat = a2.ofMat mat := by
  have h : (a1.ofMat mat).d = (a2.ofMat mat).d := by
    funext r c
    rw [Arr256x64i32.ofMat_d, Arr256x64i32.ofMat_d]
  cases h1 : a1.ofMat mat
  cases h2 : a2.ofMat mat
  rw [h1, h2] at h
  simp only at h
  rw [h]

theorem iter_mineBytom_finish_indep (sha3 : List Byte → Fin 32 → Byte) (u1 u2 : Uninit)
    (resArr8 : Fin 4 → Mat256x256i8) :
    iter_mineBytom_finish sha3 u1 resArr8 = iter_mineBytom_finish sha3 u2 resArr8 := by
  unfold iter_mineBytom_finish
  dsimp only
  rw [Mat256x256i8.add_indep u1.res8 u2.res8, Arr256x64i32.ofMat_indep u1.arr u2.arr]

theorem iter_mineBytom_parallel_indep (sha3 : List Byte → Fin 32 → Byte) (u1 u2 : Uninit)
    (matList_int16 : BytomMatList16) (fixedMessage : List Byte) (len : Nat) :
    iter_mineBytom_parallel sha3 u1 matList_int16 fixedMessage len
      = iter_mineBytom_parallel sha3 u2 matList_int16 fixedMessage len := by
  funext k
  exact iter_mineBytom_lane_indep _ _ _ _ _ _ _ _ _ _ _

/-- The digest that `iter_mineBytom` writes does not depend on the contents of the
uninitialised storage. -/
theorem iter_mineBytom_indep (sha3 : List Byte → Fin 32 → Byte) (u1 u2 : Uninit)
    (matList_int16 : BytomMatList16) (fixedMessage : List Byte) (len : Nat) :
    iter_mineBytom sha3 u1 matList_int16 fixedMessage len
      = iter_mineBytom sha3 u2 matList_int16 fixedMessage len := by
  rw [iter_mineBytom_eq_lanes, iter_mineBytom_eq_lanes,
    iter_mineBytom_lanes_eq _ _ _ _ _ _ (fun k => List.mem_finRange k),
    iter_mineBytom_lanes_eq _ _ _ _ _ _ (fun k => List.mem_finRange k),
    iter_mineBytom_parallel_indep sha3 u1 u2, iter_mineBytom_finish_indep sha3 u1 u2]

/-- The digest of a header and a seed: `eval(header, build(seed))`, with `build` the
composition of `extend`, `init_seed` and `BytomMatList16::init` and `eval` the function
`iter_mineBytom`; the choice of `u` and `v` is immaterial. -/
theorem digest_indep (sha3 : List Byte → Fin 32 → Byte) (u v u2 v2 : Uninit)
    (blockheader seed : Fin 32 → Byte) :
    iter_mineBytom sha3 u (buildMatList sha3 v seed) (List.ofFn blockheader) 32
      = iter_mineBytom sha3 u2 (buildMatList sha3 v2 seed) (List.ofFn blockheader) 32 := by
  rw [buildMatList_indep sha3 v v2, iter_mineBytom_indep sha3 u u2]

/-! ## The seed cache -/

theorem map_find_some (c : SeedCache) (k : List Byte) (ml : BytomMatList16)
    (h : map_find c k = some ml) : (k, ml) ∈ c := by
  unfold map_find at h
  cases hf : c.find? (fun e => decide (e.1 = k)) with
  | none => rw [hf] at h; cases h
  | some e =>
    rw [hf] at h
    have hk := List.find?_some hf
    have hm := List.mem_of_find?_eq_some hf
    simp only [Option.map_some', Option.some.injEq] at h
    simp only [decide_eq_true_eq] at hk
    rw [← hk, ← h]
    exact hm

theorem map_find_none (c : SeedCache) (k : List Byte) (h : map_find c k = none) :
    k ∉ c.map Prod.fst := by
  unfold map_find at h
  cases hf : c.find? (fun e => decide (e.1 = k)) with
  | some e => rw [hf] at h; cases h
  | none =>
    intro hk
    obtain ⟨e, he, hek⟩ := List.mem_map.mp hk
    have := List.find?_eq_none.mp hf e he
    simp only [decide_eq_true_eq] at this
    exact this hek

theorem map_find_of_not_mem (c : SeedCache) (k : List Byte) (h : k ∉ c.map Prod.fst) :
    map_find c k = none := by
  cases hf : map_find c k with
  | none => rfl
  | some ml =>
    exfalso
    exact h (List.mem_map.mpr ⟨(k, ml), map_find_some c k ml hf, rfl⟩)

theorem map_insert_of_none (c : SeedCache) (k : List Byte) (v : BytomMatList16)
    (h : map_find c k = none) : map_insert c k v = c ++ [(k, v)] := by
  unfold map_insert
  rw [h]
  rfl

theorem map_insert_length_le (c : SeedCache) (k : List Byte) (v : BytomMatList16) :
    (map_insert c k v).length ≤ c.length + 1 := by
  unfold map_insert
  split_ifs <;> simp

theorem CacheInv_nil (sha3 : List Byte → Fin 32 → Byte) : CacheInv sha3 [] := by
  intro e he
  cases he

theorem CacheInv_insert (sha3 : List Byte → Fin 32 → Byte) (c : SeedCache) (u : Uninit)
    (seed : Fin 32 → Byte) (hc : CacheInv sha3 c) :
    CacheInv sha3 (map_insert c (List.ofFn seed) (buildMatList sha3 u seed)) := by
  unfold map_insert
  split_ifs
  · exact hc
  · intro e he
    rcases List.mem_append.mp he with h | h
    · exact hc e h
    · rw [List.mem_singleton] at h
      subst h
      exact ⟨seed, rfl, fun u2 => buildMatList_indep sha3 u u2 seed⟩

/-- A hit of the cache yields the matrix list of the seed that is looked up. -/
theorem CacheInv_find (sha3 : List Byte → Fin 32 → Byte) (c : SeedCache) (u : Uninit)
    (seed : Fin 32 → Byte) (ml : BytomMatList16) (hc : CacheInv sha3 c)
    (h : map_find c (List.ofFn seed) = some ml) : ml = buildMatList sha3 u seed := by
  obtain ⟨seed2, hk, hv⟩ := hc _ (map_find_some c _ ml h)
  have hs : seed = seed2 := List.ofFn_injective hk
  subst hs
  exact hv u

namespace cgo_algorithm

theorem SimdTs_matList_eq (sha3 : List Byte → Fin 32 → Byte) (u : Uninit) (st : State)
    (seed : Fin 32 → Byte) (hc : CacheInv sha3 st.seedCache) :
    SimdTs_matList sha3 u st seed = buildMatList sha3 u seed := by
  unfold SimdTs_matList
  dsimp only
  cases hf : map_find st.seedCache (List.ofFn seed) with
  | none => rfl
  | some ml => exact CacheInv_find sha3 _ u seed ml hc hf

theorem SimdTs_cache_inv (sha3 : List Byte → Fin 32 → Byte) (u : Uninit) (st : State)
    (seed : Fin 32 → Byte) (hc : CacheInv sha3 st.seedCache) :
    CacheInv sha3 (SimdTs_cache sha3 u st seed) := by
  unfold SimdTs_cache
  dsimp only
  cases hf : map_find st.seedCache (List.ofFn seed) with
  | none => exact CacheInv_insert sha3 _ u seed hc
  | some ml => exact hc

theorem SimdTs_cache_length_le (sha3 : List Byte → Fin 32 → Byte) (u : Uninit) (st : State)
    (seed : Fin 32 → Byte) :
    (SimdTs_cache sha3 u st seed).length ≤ st.seedCache.length + 1 := by
  unfold SimdTs_cache
  dsimp only
  cases hf : map_find st.seedCache (List.ofFn seed) with
  | none => exact map_insert_length_le _ _ _
  | some ml => exact Nat.le_succ _

theorem SimdTs_seedCache (sha3 : List Byte → Fin 32 → Byte) (u : Uninit) (st : State)
    (blockheader seed : Fin 32 → Byte) :
    (SimdTs sha3 u st blockheader seed).seedCache
      = if (SimdTs_cache sha3 u st seed).length > cacheSize then []
        else SimdTs_cache sha3 u st seed := rfl

theorem SimdTs_result (sha3 : List Byte → Fin 32 → Byte) (u : Uninit) (st : State)
    (blockheader seed : Fin 32 → Byte) :
    (SimdTs sha3 u st blockheader seed).result
      = iter_mineBytom sha3 u (SimdTs_matList sha3 u st seed) (List.ofFn blockheader) 32 := rfl

theorem SimdTs_inv (sha3 : List Byte → Fin 32 → Byte) (u : Uninit) (st : State)
    (blockheader seed : Fin 32 → Byte) (hc : CacheInv sha3 st.seedCache) :
    CacheInv sha3 (SimdTs sha3 u st blockheader seed).seedCache := by
  rw [SimdTs_seedCache]
  split_ifs
  · exact CacheInv_nil sha3
  · exact SimdTs_cache_inv sha3 u st seed hc

theorem SimdTs_length_le (sha3 : List Byte → Fin 32 → Byte) (u : Uninit) (st : State)
    (blockheader seed : Fin 32 → Byte) :
    (SimdTs sha3 u st blockheader seed).seedCache.length ≤ 42 := by
  rw [SimdTs_seedCache]
  split_ifs with h
  · simp
  · unfold cacheSize at h
    omega

theorem foldl_inv (sha3 : List Byte → Fin 32 → Byte) (calls : List Call) (st : State)
    (hc : CacheInv sha3 st.seedCache) :
    CacheInv sha3
      (calls.foldl (fun st c => SimdTs sha3 c.u st c.blockheader c.seed) st).seedCache := by
  induction calls generalizing st with
  | nil => exact hc
  | cons c cs ih => exact ih _ (SimdTs_inv sha3 c.u st c.blockheader c.seed hc)

theorem run_inv (sha3 : List Byte → Fin 32 → Byte) (calls : List Call) :
    CacheInv sha3 (run sha3 calls).seedCache :=
  foldl_inv sha3 calls State.init (CacheInv_nil sha3)

theorem run_append (sha3 : List Byte → Fin 32 → Byte) (calls : List Call) (c : Call) :
    run sha3 (calls ++ [c]) = SimdTs sha3 c.u (run sha3 calls) c.blockheader c.seed := by
  unfold run
  rw [List.foldl_append]
  rfl

theorem run_length_le (sha3 : List Byte → Fin 32 → Byte) (calls : List Call) :
    (run sha3 calls).seedCache.length ≤ 42 := by
  rcases List.eq_nil_or_concat calls with h | ⟨l, c, h⟩
  · subst h
    simp [run, State.init]
  · subst h
    rw [List.concat_eq_append, run_append]
    exact SimdTs_length_le _ _ _ _ _

/-- The digest that a call returns in a state that satisfies the invariant of the cache. -/
theorem SimdTs_digest (sha3 : List Byte → Fin 32 → Byte) (u u0 : Uninit) (st : State)
    (blockheader seed : Fin 32 → Byte) (hc : CacheInv sha3 st.seedCache) :
    (SimdTs sha3 u st blockheader seed).result
      = iter_mineBytom sha3 u0 (buildMatList sha3 u0 seed) (List.ofFn blockheader) 32 := by
  rw [SimdTs_result, SimdTs_matList_eq sha3 u st seed hc]
  exact digest_indep sha3 u u u0 u0 blockheader seed

/-- The keys of the cache after a history of calls with pairwise distinct seeds that fits
below the capacity: one entry for each call, in the order of the calls. -/
theorem foldl_keys (sha3 : List Byte → Fin 32 → Byte) (calls : List Call) (st : State)
    (hnd : (st.seedCache.map Prod.fst ++ calls.map (fun c => List.ofFn c.seed)).Nodup)
    (hlen : st.seedCache.length + calls.length ≤ 42) :
    ((calls.foldl (fun st c => SimdTs sha3 c.u st c.blockheader c.seed) st).seedCache).map
        Prod.fst
      = st.seedCache.map Prod.fst ++ calls.map (fun c => List.ofFn c.seed) := by
  induction calls generalizing st with
  | nil => simp
  | cons c cs ih =>
    have hk : List.ofFn c.seed ∉ st.seedCache.map Prod.fst := by
      intro hmem
      have := List.nodup_append.mp hnd
      exact this.2.2 hmem (by simp)
    have hfind := map_find_of_not_mem _ _ hk
    have hcache : SimdTs_cache sha3 c.u st c.seed
        = st.seedCache ++ [(List.ofFn c.seed, buildMatList sha3 c.u c.seed)] := by
      unfold SimdTs_cache
      dsimp only
      rw [hfind]
      exact map_insert_of_none _ _ _ hfind
    have hst : (SimdTs sha3 c.u st c.blockheader c.seed).seedCache
        = st.seedCache ++ [(List.ofFn c.seed, buildMatList sha3 c.u c.seed)] := by
      rw [SimdTs_seedCache, hcache, if_neg]
      simp only [List.length_append, List.length_singleton, cacheSize]
      simp only [List.length_cons] at hlen
      omega
    rw [List.foldl_cons, ih]
    · rw [hst]
      simp
    · rw [hst]
      simpa using hnd
    · rw [hst]
      simp only [List.length_append, List.length_singleton]
      simp only [List.length_cons] at hlen
      omega

theorem run_keys (sha3 : List Byte → Fin 32 → Byte) (calls : List Call)
    (hnd : (calls.map Call.seed).Nodup) (hlen : calls.length ≤ 42) :
    (run sha3 calls).seedCache.map Prod.fst = calls.map (fun c => List.ofFn c.seed) := by
  have h := foldl_keys sha3 calls State.init
    (by
      simp only [State.init, List.map_nil, List.nil_append]
      have := List.Nodup.map List.ofFn_injective hnd
      simpa [List.map_map] using this)
    (by simpa [State.init] using hlen)
  simpa [run, State.init] using h

/-- After 43 calls with pairwise distinct seeds the cache is empty: the last call brings the
size to 43 and then flushes every entry, its own included. -/
theorem run_43_distinct (sha3 : List Byte → Fin 32 → Byte) (calls : List Call)
    (hlen : calls.length = 43) (hnd : (calls.map Call.seed).Nodup) :
    (run sha3 calls).seedCache = [] := by
  rcases List.eq_nil_or_concat calls with h | ⟨l, c, h⟩
  · subst h
    simp at hlen
  · subst h
    rw [List.concat_eq_append] at hlen hnd ⊢
    have hl : l.length = 42 := by
      simp only [List.length_append, List.length_singleton] at hlen
      omega
    rw [List.map_append] at hnd
    have hnd2 := List.nodup_append.mp hnd
    have hkeys := run_keys sha3 l hnd2.1 (by omega)
    have hk : List.ofFn c.seed ∉ (run sha3 l).seedCache.map Prod.fst := by
      rw [hkeys]
      intro hmem
      obtain ⟨c2, hc2, he⟩ := List.mem_map.mp hmem
      have hs : c2.seed = c.seed := List.ofFn_injective he
      exact hnd2.2.2 (List.mem_map.mpr ⟨c2, hc2, hs⟩) (by simp)
    have hfind := map_find_of_not_mem _ _ hk
    have hcache : SimdTs_cache sha3 c.u (run sha3 l) c.seed
        = (run sha3 l).seedCache ++ [(List.ofFn c.seed, buildMatList sha3 c.u c.seed)] := by
      unfold SimdTs_cache
      dsimp only
      rw [hfind]
      exact map_insert_of_none _ _ _ hfind
    have hlen2 : (run sha3 l).seedCache.length = 42 := by
      have := congrArg List.length hkeys
      simpa [hl] using this
    rw [run_append, SimdTs_seedCache, hcache, if_pos]
    simp only [List.length_append, List.length_singleton, cacheSize, hlen2]
    omega

end cgo_algorithm

namespace stlib

theorem stlib_SimdTs_inv (sha3 : List Byte → Fin 32 → Byte) (u : Uninit) (st : State)
    (blockheader seed : Fin 32 → Byte) (hc : CacheInv sha3 st.seedCache) :
    CacheInv sha3 (SimdTs sha3 u st blockheader seed).seedCache := by
  unfold SimdTs
  dsimp only
  cases hf : map_find st.seedCache (List.ofFn seed) with
  | none => exact CacheInv_insert sha3 _ u seed hc
  | some ml => exact hc

theorem stlib_foldl_inv (sha3 : List Byte → Fin 32 → Byte) (calls : List Call) (st : State)
    (hc : CacheInv sha3 st.seedCache) :
    CacheInv sha3
      (calls.foldl (fun st c => SimdTs sha3 c.u st c.blockheader c.seed) st).seedCache := by
  induction calls generalizing st with
  | nil => exact hc
  | cons c cs ih => exact ih _ (stlib_SimdTs_inv sha3 c.u st c.blockheader c.seed hc)

theorem stlib_run_inv (sha3 : List Byte → Fin 32 → Byte) (calls : List Call) :
    CacheInv sha3 (run sha3 calls).seedCache :=
  stlib_foldl_inv sha3 calls State.init (CacheInv_nil sha3)

/-- The digest that a call of the `stlib` variant returns in a state that satisfies the
invariant of the cache. -/
theorem stlib_SimdTs_digest (sha3 : List Byte → Fin 32 → Byte) (u u0 : Uninit) (st : State)
    (blockheader seed : Fin 32 → Byte) (hc : CacheInv sha3 st.seedCache) :
    (SimdTs sha3 u st blockheader seed).result
      = iter_mineBytom sha3 u0 (buildMatList sha3 u0 seed) (List.ofFn blockheader) 32 := by
  unfold SimdTs
  dsimp only
  cases hf : map_find st.seedCache (List.ofFn seed) with
  | none => exact digest_indep sha3 u u u0 u0 blockheader seed
  | some ml =>
    dsimp only
    rw [CacheInv_find sha3 _ u seed ml hc hf]
    exact digest_indep sha3 u u u0 u0 blockheader seed

end stlib

namespace dylib

/-- The digest that a call of the `dylib` variant writes to the buffer of the caller. -/
theorem dylib_SimdTs_digest (sha3 : List Byte → Fin 32 → Byte) (u u0 : Uninit) (st : State)
    (blockheader seed res : Fin 32 → Byte) :
    (SimdTs sha3 u st blockheader seed res).2.1
      = iter_mineBytom sha3 u0 (buildMatList sha3 u0 seed) (List.ofFn blockheader) 32 :=
  digest_indep sha3 u u u0 u0 blockheader seed

end dylib

/-! ## The header chunks of the lanes -/

/-- The bytes that lane `k` hashes when `iter_mineBytom` is called with `len = 32`: bytes
`8 k .. 8 k + 7` of the header. -/
theorem header_chunk (blockheader : Fin 32 → Byte) (k : Fin 4) :
    ((List.ofFn blockheader).drop ((32 * k.val) % U32 / 4)).take (32 / 4)
      = List.ofFn (fun t : Fin 8 => blockheader ⟨8 * k.val + t.val, by omega⟩) := by
  have hd : (32 * k.val) % U32 / 4 = 8 * k.val := by
    unfold U32
    omega
  rw [hd]
  apply List.ext_getElem
  · simp only [List.length_take, List.length_drop, List.length_ofFn]
    omega
  · intro n h1 h2
    simp only [List.getElem_take, List.getElem_drop, List.getElem_ofFn]

/-- The result of lane `k` for `len = 32` is a function of bytes `8 k .. 8 k + 7` of the
header (and of the matrix list) alone. -/
theorem lane_of_chunk (sha3 : List Byte → Fin 32 → Byte) (matList_int16 : BytomMatList16)
    (k : Fin 4) (h1 h2 : Fin 32 → Byte)
    (hagree : ∀ t : Fin 8, h1 ⟨8 * k.val + t.val, by omega⟩ = h2 ⟨8 * k.val + t.val, by omega⟩)
    (m1 m2 t1 t2 : Mat256x256i16) (r1 r2 : Mat256x256i8) :
    iter_mineBytom_lane sha3 matList_int16 (List.ofFn h1) 32 k m1 t1 r1
      = iter_mineBytom_lane sha3 matList_int16 (List.ofFn h2) 32 k m2 t2 r2 := by
  rw [iter_mineBytom_lane_indep sha3 matList_int16 (List.ofFn h1) 32 k m1 m2 t1 t2 r1 r2]
  unfold iter_mineBytom_lane
  rw [header_chunk h1 k, header_chunk h2 k]
  have : (fun t : Fin 8 => h1 ⟨8 * k.val + t.val, by omega⟩)
      = fun t : Fin 8 => h2 ⟨8 * k.val + t.val, by omega⟩ := funext hagree
  rw [this]

/-! ## Range of the entries after the writers of `Mat256x256i16` -/

theorem sign_extend_i8_range (v : Int) (h0 : 0 ≤ v) (h1 : v < 256) :
    -128 ≤ sign_extend_i8 v ∧ sign_extend_i8 v ≤ 127 := by
  unfold sign_extend_i8
  split_ifs <;> omega

theorem mul_ref_InI8 (a b : Mat256x256i16) : (mul_ref a b).InI8 := by
  intro i j
  simp only [mul_ref]
  exact sign_extend_i8_range _ (by omega) (by omega)

/-- The writers of `Mat256x256i16` other than `add` leave every entry in the `int8_t` range
when the operands are in that range. -/
theorem Mat256x256i16.writers_keep_int8 (self a b : Mat256x256i16) (m8 : Mat256x256i8)
    (ltcMem : LTCMemory) (ha : a.InI8) (h8 : m8.InI8) :
    self.toIdentityMatrix.InI8 ∧ (self.copyFrom8 m8).InI8 ∧ (self.copyFrom a).InI8 ∧
      (self.copyFromEven ltcMem).InI8 ∧ (self.copyFromOdd ltcMem).InI8 ∧
      (self.mul a b).InI8 := by
  refine ⟨?_, ?_, ?_, ?_, ?_, ?_⟩
  · intro i j
    rw [Mat256x256i16.toIdentityMatrix_d]
    split_ifs <;> omega
  · intro i j
    rw [Mat256x256i16.copyFrom8_d, toI16_of_range _ (by have := h8 i j; omega)
      (by have := h8 i j; omega)]
    exact h8 i j
  · intro i j
    rw [Mat256x256i16.copyFrom_d, toI16_of_range _ (by have := ha i j; omega)
      (by have := ha i j; omega)]
    exact ha i j
  · intro i j
    unfold Mat256x256i16.copyFromEven
    rw [Mat256x256i16.copyFrom_helper_d]
    exact toI8_range _
  · intro i j
    unfold Mat256x256i16.copyFromOdd
    rw [Mat256x256i16.copyFrom_helper_d]
    exact toI8_range _
  · rw [Mat256x256i16.mul_eq]
    exact mul_ref_InI8 a b

/-! ## Little-endian words -/

theorem le_word_or (b0 b1 b2 b3 : Nat) (h0 : b0 < 256) (h1 : b1 < 256) (h2 : b2 < 256) :
    b0 + 256 * b1 + 65536 * b2 + 16777216 * b3
      = (b3 <<< 24) ||| (b2 <<< 16) ||| (b1 <<< 8) ||| b0 := by
  have e1 : 2 ^ 8 * b1 + b0 = 2 ^ 8 * b1 ||| b0 := Nat.mul_add_lt_is_or (by omega) b1
  have e2 : 2 ^ 16 * b2 + (2 ^ 8 * b1 + b0) = 2 ^ 16 * b2 ||| (2 ^ 8 * b1 + b0) :=
    Nat.mul_add_lt_is_or (by omega) b2
  have e3 : 2 ^ 24 * b3 + (2 ^ 16 * b2 + (2 ^ 8 * b1 + b0))
      = 2 ^ 24 * b3 ||| (2 ^ 16 * b2 + (2 ^ 8 * b1 + b0)) :=
    Nat.mul_add_lt_is_or (by omega) b3
  rw [Nat.shiftLeft_eq, Nat.shiftLeft_eq, Nat.shiftLeft_eq, Nat.or_assoc, Nat.or_assoc,
    Nat.mul_comm b3, Nat.mul_comm b2, Nat.mul_comm b1, ← e1, ← e2, ← e3]
  omega

theorem le_word_byte (b0 b1 b2 b3 q : Nat) (h0 : b0 < 256) (h1 : b1 < 256) (h2 : b2 < 256)
    (h3 : b3 < 256) (hq : q < 4) :
    ((b0 + 256 * b1 + 65536 * b2 + 16777216 * b3) >>> (8 * q)) % 256
      = if q = 0 then b0 else if q = 1 then b1 else if q = 2 then b2 else b3 := by
  rw [Nat.shiftRight_eq_div_pow]
  have hq4 : q = 0 ∨ q = 1 ∨ q = 2 ∨ q = 3 := by omega
  rcases hq4 with rfl | rfl | rfl | rfl <;> norm_num <;> omega

/-! ## Helper facts for the concrete histories -/

theorem seed_of_nat_inj (a b : Nat) (ha : a < 256) (hb : b < 256)
    (h : seed_of_nat a = seed_of_nat b) : a = b := by
  have h0 := congrArg (fun f : Fin 32 → Byte => (f 0).val) h
  simp only [seed_of_nat] at h0
  simp only [Fin.val_zero, if_true] at h0
  omega

theorem calls43_length : calls43.length = 43 := by
  simp [calls43]

theorem calls43_nodup : (calls43.map Call.seed).Nodup := by
  unfold calls43
  rw [List.map_map]
  refine List.Nodup.map_on ?_ (List.nodup_range 43)
  intro a ha b hb hab
  rw [List.mem_range] at ha hb
  exact seed_of_nat_inj a b (by omega) (by omega) hab

theorem repeat_calls_succ (h s : Fin 32 → Byte) (us : Nat → Uninit) (N : Nat) :
    repeat_calls h s us (N + 1) = repeat_calls h s us N ++ [(⟨h, s, us N⟩ : Call)] := by
  unfold repeat_calls
  rw [List.range_succ, List.map_append]
  rfl

/-- The cache and the digest after `N + 1` consecutive calls with one header and one seed. -/
theorem cgo_algorithm.run_repeat (sha3 : List Byte → Fin 32 → Byte) (h s : Fin 32 → Byte)
    (us : Nat → Uninit) (u0 : Uninit) (N : Nat) :
    (cgo_algorithm.run sha3 (repeat_calls h s us (N + 1))).result
        = iter_mineBytom sha3 u0 (buildMatList sha3 u0 s) (List.ofFn h) 32 ∧
      (cgo_algorithm.run sha3 (repeat_calls h s us (N + 1))).seedCache
        = [(List.ofFn s, buildMatList sha3 u0 s)] := by
  refine ⟨?_, ?_⟩
  · rw [repeat_calls_succ, cgo_algorithm.run_append]
    exact cgo_algorithm.SimdTs_digest sha3 _ u0 _ h s (cgo_algorithm.run_inv sha3 _)
  · induction N with
    | zero =>
      rw [repeat_calls_succ, cgo_algorithm.run_append]
      have hfind : map_find (cgo_algorithm.run sha3 (repeat_calls h s us 0)).seedCache
          (List.ofFn s) = none := by
        simp [repeat_calls, cgo_algorithm.run, cgo_algorithm.State.init, map_find]
      have hcache : cgo_algorithm.SimdTs_cache sha3 (us 0)
          (cgo_algorithm.run sha3 (repeat_calls h s us 0)) s
          = [(List.ofFn s, buildMatList sha3 u0 s)] := by
        unfold cgo_algorithm.SimdTs_cache
        dsimp only
        rw [hfind]
        dsimp only
        rw [map_insert_of_none _ _ _ hfind, buildMatList_indep sha3 (us 0) u0]
        simp [repeat_calls, cgo_algorithm.run, cgo_algorithm.State.init]
      rw [cgo_algorithm.SimdTs_seedCache]
      dsimp only
      rw [hcache, if_neg]
      simp [cgo_algorithm.cacheSize]
    | succ n ih =>
      rw [repeat_calls_succ, cgo_algorithm.run_append]
      have hfind : map_find (cgo_algorithm.run sha3 (repeat_calls h s us (n + 1))).seedCache
          (List.ofFn s) = some (buildMatList sha3 u0 s) := by
        rw [ih]
        simp [map_find]
      have hcache : cgo_algorithm.SimdTs_cache sha3 (us (n + 1))
          (cgo_algorithm.run sha3 (repeat_calls h s us (n + 1))) s
          = [(List.ofFn s, buildMatList sha3 u0 s)] := by
        unfold cgo_algorithm.SimdTs_cache
        dsimp only
        rw [hfind]
        exact ih
      rw [cgo_algorithm.SimdTs_seedCache]
      dsimp only
      rw [hcache, if_neg]
      simp [cgo_algorithm.cacheSize]

/-! ## The claims -/

/-- C1: on the caching variant, after any history of calls that starts from the empty cache,
the call `SimdTs(header, seed)` returns `eval(header, build(seed))` (`iter_mineBytom` on the
matrix list that `extend`, `init_seed` and `BytomMatList16::init` build for the seed); so the
digest on a warm cache is the digest on a fresh cache, and the calls `(h1, s)`, `(h2, s)`,
`(h1, s)` in a row return `D1`, `D2`, `D1`, the digests of `(h1, s)` and `(h2, s)` on a fresh
cache. -/
theorem C1_SimdTs_returns_eval_of_build (sha3 : List Byte → Fin 32 → Byte)
    (calls : List Call) (u u0 : Uninit) (blockheader seed : Fin 32 → Byte) :
    (cgo_algorithm.SimdTs sha3 u (cgo_algorithm.run sha3 calls) blockheader seed).result
        = iter_mineBytom sha3 u0 (buildMatList sha3 u0 seed) (List.ofFn blockheader) 32 ∧
      (cgo_algorithm.SimdTs sha3 u (cgo_algorithm.run sha3 calls) blockheader seed).result
        = (cgo_algorithm.SimdTs sha3 u0 cgo_algorithm.State.init blockheader seed).result ∧
      ∀ (h1 h2 : Fin 32 → Byte) (ua ub uc : Uninit),
        (cgo_algorithm.run sha3 (calls ++ [⟨h1, seed, ua⟩])).result
            = (cgo_algorithm.SimdTs sha3 u0 cgo_algorithm.State.init h1 seed).result ∧
          (cgo_algorithm.run sha3 (calls ++ [⟨h1, seed, ua⟩, ⟨h2, seed, ub⟩])).result
            = (cgo_algorithm.SimdTs sha3 u0 cgo_algorithm.State.init h2 seed).result ∧
          (cgo_algorithm.run sha3
              (calls ++ [⟨h1, seed, ua⟩, ⟨h2, seed, ub⟩, ⟨h1, seed, uc⟩])).result
            = (cgo_algorithm.SimdTs sha3 u0 cgo_algorithm.State.init h1 seed).result := by
  have hfresh : ∀ (hd sd : Fin 32 → Byte),
      (cgo_algorithm.SimdTs sha3 u0 cgo_algorithm.State.init hd sd).result
        = iter_mineBytom sha3 u0 (buildMatList sha3 u0 sd) (List.ofFn hd) 32 :=
    fun hd sd => cgo_algorithm.SimdTs_digest sha3 u0 u0 _ hd sd (CacheInv_nil sha3)
  have hlast : ∀ (l : List Call) (c : Call),
      (cgo_algorithm.run sha3 (l ++ [c])).result
        = iter_mineBytom sha3 u0 (buildMatList sha3 u0 c.seed) (List.ofFn c.blockheader) 32 := by
    intro l c
    rw [cgo_algorithm.run_append]
    exact cgo_algorithm.SimdTs_digest sha3 c.u u0 _ _ _ (cgo_algorithm.run_inv sha3 l)
  refine ⟨?_, ?_, ?_⟩
  · exact cgo_algorithm.SimdTs_digest sha3 u u0 _ _ _ (cgo_algorithm.run_inv sha3 calls)
  · rw [hfresh]
    exact cgo_algorithm.SimdTs_digest sha3 u u0 _ _ _ (cgo_algorithm.run_inv sha3 calls)
  · intro h1 h2 ua ub uc
    refine ⟨?_, ?_, ?_⟩
    · rw [hfresh, hlast]
    · have e : calls ++ [(⟨h1, seed, ua⟩ : Call), ⟨h2, seed, ub⟩]
          = (calls ++ [(⟨h1, seed, ua⟩ : Call)]) ++ [⟨h2, seed, ub⟩] := by simp
      rw [hfresh, e, hlast]
    · have e : calls ++ [(⟨h1, seed, ua⟩ : Call), ⟨h2, seed, ub⟩, ⟨h1, seed, uc⟩]
          = (calls ++ [(⟨h1, seed, ua⟩ : Call), ⟨h2, seed, ub⟩]) ++ [⟨h1, seed, uc⟩] := by simp
      rw [hfresh, e, hlast]

/-- C2: for operands with entries in the `int8_t` range, the tiled 16-bit computation of
`Mat256x256i16::mul` stores in every cell `(i, j)` the value
`sign_extend_i8(((acc + (acc << 8)) >> 8) & 0xFF)` for the exact sum `acc` of the products
`A[i][k] * B[k][j]`: the written matrix is the matrix of the scalar reference `mul_ref`,
whatever the destination held before. -/
theorem C2_mul_agrees_with_mul_ref (self a b : Mat256x256i16) (_ha : a.InI8) (_hb : b.InI8) :
    self.mul a b = mul_ref a b ∧
      ∀ i j : Fin 256, (self.mul a b).d i j
        = sign_extend_i8
            (((mul_acc_exact a b i j + mul_acc_exact a b i j * 256) / 256) % 256) := by
  refine ⟨Mat256x256i16.mul_eq self a b, fun i j => ?_⟩
  rw [Mat256x256i16.mul_d]
  simp only [mul_ref]

/-- Witness of C2: the zero matrices are in the `int8_t` range. -/
theorem C2_mul_agrees_with_mul_ref_witness :
    Mat256x256i16.zero.InI8 ∧
      Mat256x256i16.zero.mul Mat256x256i16.zero Mat256x256i16.zero
        = mul_ref Mat256x256i16.zero Mat256x256i16.zero :=
  ⟨fun _ _ => by simp [Mat256x256i16.zero],
    (C2_mul_agrees_with_mul_ref Mat256x256i16.zero Mat256x256i16.zero Mat256x256i16.zero
      (fun _ _ => by simp [Mat256x256i16.zero]) (fun _ _ => by simp [Mat256x256i16.zero])).1⟩

/-- C3, counterexample: after the 43 calls of `calls43`, whose seeds are pairwise distinct,
the cache is empty; it does not hold exactly one entry. -/
theorem C3_counterexample :
    calls43.length = 43 ∧ (calls43.map Call.seed).Nodup ∧
      (cgo_algorithm.run keccak256 calls43).seedCache.length = 0 ∧
      (cgo_algorithm.run keccak256 calls43).seedCache.length ≠ 1 := by
  have h := cgo_algorithm.run_43_distinct keccak256 calls43 calls43_length calls43_nodup
  refine ⟨calls43_length, calls43_nodup, ?_, ?_⟩
  · rw [h]
    rfl
  · rw [h]
    decide

/-- C3, amended: starting from the empty cache, after 43 calls of `SimdTs` with pairwise
distinct seeds the cache contains no entry: the 43rd call inserts the entry of its seed, which
makes 43 entries, and the flush at the end of that call removes all of them, the entry of the
last seed included. -/
theorem C3_cache_empty_after_43_distinct_seeds (sha3 : List Byte → Fin 32 → Byte)
    (calls : List Call) (hlen : calls.length = 43) (hnd : (calls.map Call.seed).Nodup) :
    (cgo_algorithm.run sha3 calls).seedCache = [] :=
  cgo_algorithm.run_43_distinct sha3 calls hlen hnd

/-- Witness of C3 (amended): the history `calls43`. -/
theorem C3_cache_empty_after_43_distinct_seeds_witness :
    calls43.length = 43 ∧ (calls43.map Call.seed).Nodup ∧
      (cgo_algorithm.run keccak256 calls43).seedCache = [] :=
  ⟨calls43_length, calls43_nodup,
    C3_cache_empty_after_43_distinct_seeds keccak256 calls43 calls43_length calls43_nodup⟩

/-- C4: in every state reachable from the empty cache the cache holds at most 42 entries
between calls; during a call it holds at most 43 entries (the contents on entry, after the
`if`/`else` that may insert, and after the flush test), and at most 42 when the call
returns. -/
theorem C4_cache_size_bounds (sha3 : List Byte → Fin 32 → Byte) (calls : List Call)
    (u : Uninit) (blockheader seed : Fin 32 → Byte) :
    (cgo_algorithm.run sha3 calls).seedCache.length ≤ 42 ∧
      (cgo_algorithm.SimdTs_cache sha3 u (cgo_algorithm.run sha3 calls) seed).length ≤ 43 ∧
      (cgo_algorithm.SimdTs sha3 u (cgo_algorithm.run sha3 calls) blockheader
        seed).seedCache.length ≤ 42 := by
  refine ⟨cgo_algorithm.run_length_le sha3 calls, ?_, cgo_algorithm.SimdTs_length_le _ _ _ _ _⟩
  have h1 := cgo_algorithm.SimdTs_cache_length_le sha3 u (cgo_algorithm.run sha3 calls) seed
  have h2 := cgo_algorithm.run_length_le sha3 calls
  omega

/-- C5, the code at the failing input: with every entry of `a` equal to `-1` and `b` the zero
matrix, both in the `int8_t` range, `Mat256x256i16::add` stores `255` in every cell, which is
outside the `int8_t` range. -/
theorem C5_add_leaves_int8_range :
    (Mat256x256i16.const (-1)).InI8 ∧ Mat256x256i16.zero.InI8 ∧
      (∀ i j : Fin 256,
        (Mat256x256i16.zero.add (Mat256x256i16.const (-1)) Mat256x256i16.zero).d i j = 255) ∧
      ¬ (Mat256x256i16.zero.add (Mat256x256i16.const (-1)) Mat256x256i16.zero).InI8 := by
  have hv : ∀ i j : Fin 256,
      (Mat256x256i16.zero.add (Mat256x256i16.const (-1)) Mat256x256i16.zero).d i j = 255 := by
    intro i j
    rw [Mat256x256i16.add_d]
    simp [Mat256x256i16.const, Mat256x256i16.zero]
  refine ⟨?_, ?_, hv, ?_⟩
  · intro i j
    simp [Mat256x256i16.const]
  · intro i j
    simp [Mat256x256i16.zero]
  · intro h
    have := h 0 0
    rw [hv] at this
    omega

/-- C6: for every seed, with `h[0] = seed` and `h[k+1] = SHA3_256(h[k])`, the function
`extend` sets `exted[i]` to the little-endian word of the four bytes of `h[i / 8]` at offsets
`(4 i mod 32) .. (4 i mod 32) + 3`; the sum of the shifted bytes is their bitwise OR; and byte
`t` of the 128 bytes of `exted`, written little-endian, is byte `t mod 32` of `h[t / 32]`,
that is the bytes are `h[0] || h[1] || h[2] || h[3]`. -/
theorem C6_extend_words (sha3 : List Byte → Fin 32 → Byte)
    (seedHash0 : Fin 4 → Fin 32 → Byte) (exted0 : Fin 32 → Nat) (seed : Fin 32 → Byte) :
    (∀ i : Fin 32, extend sha3 seedHash0 exted0 seed i
        = (seed_chain sha3 seed (i.val / 8) ⟨(4 * i.val) % 32, by omega⟩).val
          + 256 * (seed_chain sha3 seed (i.val / 8) ⟨(4 * i.val) % 32 + 1, by omega⟩).val
          + 65536 * (seed_chain sha3 seed (i.val / 8) ⟨(4 * i.val) % 32 + 2, by omega⟩).val
          + 16777216 *
            (seed_chain sha3 seed (i.val / 8) ⟨(4 * i.val) % 32 + 3, by omega⟩).val) ∧
      (∀ i : Fin 32, extend sha3 seedHash0 exted0 seed i
        = ((seed_chain sha3 seed (i.val / 8) ⟨(4 * i.val) % 32 + 3, by omega⟩).val <<< 24) |||
          ((seed_chain sha3 seed (i.val / 8) ⟨(4 * i.val) % 32 + 2, by omega⟩).val <<< 16) |||
          ((seed_chain sha3 seed (i.val / 8) ⟨(4 * i.val) % 32 + 1, by omega⟩).val <<< 8) |||
          (seed_chain sha3 seed (i.val / 8) ⟨(4 * i.val) % 32, by omega⟩).val) ∧
      (∀ t : Fin 128,
        (extend sha3 seedHash0 exted0 seed ⟨t.val / 4, by omega⟩ >>> (8 * (t.val % 4))) % 256
          = (seed_chain sha3 seed (t.val / 32) ⟨t.val % 32, Nat.mod_lt _ (by decide)⟩).val) := by
  have hword : ∀ i : Fin 32, extend sha3 seedHash0 exted0 seed i
      = (seed_chain sha3 seed (i.val / 8) ⟨(4 * i.val) % 32, by omega⟩).val
        + 256 * (seed_chain sha3 seed (i.val / 8) ⟨(4 * i.val) % 32 + 1, by omega⟩).val
        + 65536 * (seed_chain sha3 seed (i.val / 8) ⟨(4 * i.val) % 32 + 2, by omega⟩).val
        + 16777216 *
          (seed_chain sha3 seed (i.val / 8) ⟨(4 * i.val) % 32 + 3, by omega⟩).val := by
    intro i
    rw [extend_eq]
    have e0 : (⟨(i.val * 4) % 32, Nat.mod_lt _ (by decide)⟩ : Fin 32)
        = ⟨(4 * i.val) % 32, by omega⟩ := Fin.ext (by simp only; omega)
    have e1 : (⟨(i.val * 4 + 1) % 32, Nat.mod_lt _ (by decide)⟩ : Fin 32)
        = ⟨(4 * i.val) % 32 + 1, by omega⟩ := Fin.ext (by simp only; omega)
    have e2 : (⟨(i.val * 4 + 2) % 32, Nat.mod_lt _ (by decide)⟩ : Fin 32)
        = ⟨(4 * i.val) % 32 + 2, by omega⟩ := Fin.ext (by simp only; omega)
    have e3 : (⟨(i.val * 4 + 3) % 32, Nat.mod_lt _ (by decide)⟩ : Fin 32)
        = ⟨(4 * i.val) % 32 + 3, by omega⟩ := Fin.ext (by simp only; omega)
    simp only [e0, e1, e2, e3]
  refine ⟨hword, ?_, ?_⟩
  · intro i
    rw [hword, le_word_or _ _ _ _ (Fin.isLt _) (Fin.isLt _) (Fin.isLt _)]
  · intro t
    rw [hword, le_word_byte _ _ _ _ (t.val % 4) (Fin.isLt _) (Fin.isLt _) (Fin.isLt _)
      (Fin.isLt _) (Nat.mod_lt _ (by decide))]
    have hrow : (t.val / 4) / 8 = t.val / 32 := by omega
    simp only [hrow]
    have hq4 : t.val % 4 = 0 ∨ t.val % 4 = 1 ∨ t.val % 4 = 2 ∨ t.val % 4 = 3 := by omega
    rcases hq4 with hq | hq | hq | hq
    · rw [if_pos hq]
      congr 2
      exact Fin.ext (by simp only; omega)
    · rw [if_neg (by omega), if_pos hq]
      congr 2
      exact Fin.ext (by simp only; omega)
    · rw [if_neg (by omega), if_neg (by omega), if_pos hq]
      congr 2
      exact Fin.ext (by simp only; omega)
    · rw [if_neg (by omega), if_neg (by omega), if_neg (by omega)]
      congr 2
      exact Fin.ext (by simp only; omega)

/-- C7, counterexample: for the all-zero seed and the SHA3-256 of the specification, `extend`
sets `exted[0]` to `0`, while the first little-endian word of `SHA3_256(0^32)` is
`0xD9EC0D29`; so `exted[0..7]` is not the little-endian reading of that digest. -/
theorem C7_counterexample :
    extend keccak256 Uninit.zero.seedHash Uninit.zero.exted zero32 0 = 0 ∧
      le_word32 (keccak256 (List.ofFn zero32)) 0 = 0xD9EC0D29 ∧
      ¬ (∀ i : Fin 8,
        extend keccak256 Uninit.zero.seedHash Uninit.zero.exted zero32 ⟨i.val, by omega⟩
          = le_word32 (keccak256 (List.ofFn zero32)) i) := by
  have h0 : extend keccak256 Uninit.zero.seedHash Uninit.zero.exted zero32 0 = 0 := by
    rw [extend_eq]
    simp [seed_chain, zero32]
  have h1 : le_word32 (keccak256 (List.ofFn zero32)) 0 = 0xD9EC0D29 := by
    decide!
  refine ⟨h0, h1, ?_⟩
  intro h
  have h2 := h 0
  have h3 : (⟨(0 : Fin 8).val, by omega⟩ : Fin 32) = 0 := rfl
  rw [h3, h0, h1] at h2
  exact absurd h2 (by decide)

/-- C7, amended: for the all-zero seed the words `exted[0..7]` that `extend` produces are all
zero (they are the little-endian reading of the seed itself), and the words `exted[8..15]` are
the little-endian reading of `SHA3_256(0^32)`, the digest of the seed. -/
theorem C7_extend_zero_seed (sha3 : List Byte → Fin 32 → Byte)
    (seedHash0 : Fin 4 → Fin 32 → Byte) (exted0 : Fin 32 → Nat) :
    (∀ i : Fin 8, extend sha3 seedHash0 exted0 zero32 ⟨i.val, by omega⟩ = 0) ∧
      (∀ i : Fin 8, extend sha3 seedHash0 exted0 zero32 ⟨8 + i.val, by omega⟩
        = le_word32 (sha3 (List.ofFn zero32)) i) := by
  refine ⟨?_, ?_⟩
  · intro i
    rw [extend_eq]
    have hrow : i.val / 8 = 0 := by omega
    simp only [hrow, seed_chain, zero32]
    rfl
  · intro i
    rw [extend_eq]
    have hrow : (8 + i.val) / 8 = 1 := by omega
    have e0 : (⟨((8 + i.val) * 4) % 32, Nat.mod_lt _ (by decide)⟩ : Fin 32)
        = ⟨4 * i.val, by omega⟩ := Fin.ext (by simp only; omega)
    have e1 : (⟨((8 + i.val) * 4 + 1) % 32, Nat.mod_lt _ (by decide)⟩ : Fin 32)
        = ⟨4 * i.val + 1, by omega⟩ := Fin.ext (by simp only; omega)
    have e2 : (⟨((8 + i.val) * 4 + 2) % 32, Nat.mod_lt _ (by decide)⟩ : Fin 32)
        = ⟨4 * i.val + 2, by omega⟩ := Fin.ext (by simp only; omega)
    have e3 : (⟨((8 + i.val) * 4 + 3) % 32, Nat.mod_lt _ (by decide)⟩ : Fin 32)
        = ⟨4 * i.val + 3, by omega⟩ := Fin.ext (by simp only; omega)
    simp only [hrow, e0, e1, e2, e3, seed_chain, le_word32]

/-- C8: for every matrix list, every lane `k` and every two headers that agree on bytes
`8 k .. 8 k + 7`, the `Mat256x256i8` result of lane `k` is the same for both headers, whatever
the freshly allocated matrices and `resArr8[k]` held before; and when every lane is run at
least once, in any order, one after the other, or when the lanes are evaluated independently
of each other (in parallel), `resArr8` and hence the digest are those of `iter_mineBytom`. -/
theorem C8_lanes_independent (sha3 : List Byte → Fin 32 → Byte) (u : Uninit)
    (matList_int16 : BytomMatList16) (k : Fin 4) (h1 h2 : Fin 32 → Byte)
    (m1 m2 t1 t2 : Mat256x256i16) (r1 r2 : Mat256x256i8) (order : List (Fin 4))
    (hagree : ∀ t : Fin 8, h1 ⟨8 * k.val + t.val, by omega⟩ = h2 ⟨8 * k.val + t.val, by omega⟩)
    (hall : ∀ l : Fin 4, l ∈ order) :
    iter_mineBytom_lane sha3 matList_int16 (List.ofFn h1) 32 k m1 t1 r1
        = iter_mineBytom_lane sha3 matList_int16 (List.ofFn h2) 32 k m2 t2 r2 ∧
      iter_mineBytom_lanes sha3 u matList_int16 (List.ofFn h1) 32 order
        = iter_mineBytom_parallel sha3 u matList_int16 (List.ofFn h1) 32 ∧
      iter_mineBytom_finish sha3 u
          (iter_mineBytom_lanes sha3 u matList_int16 (List.ofFn h1) 32 order)
        = iter_mineBytom sha3 u matList_int16 (List.ofFn h1) 32 ∧
      iter_mineBytom_finish sha3 u
          (iter_mineBytom_parallel sha3 u matList_int16 (List.ofFn h1) 32)
        = iter_mineBytom sha3 u matList_int16 (List.ofFn h1) 32 := by
  have hpar : iter_mineBytom sha3 u matList_int16 (List.ofFn h1) 32
      = iter_mineBytom_finish sha3 u
          (iter_mineBytom_parallel sha3 u matList_int16 (List.ofFn h1) 32) := by
    rw [iter_mineBytom_eq_lanes,
      iter_mineBytom_lanes_eq _ _ _ _ _ _ (fun l => List.mem_finRange l)]
  refine ⟨lane_of_chunk sha3 matList_int16 k h1 h2 hagree m1 m2 t1 t2 r1 r2,
    iter_mineBytom_lanes_eq _ _ _ _ _ order hall, ?_, hpar.symm⟩
  rw [iter_mineBytom_lanes_eq _ _ _ _ _ order hall, hpar]

/-- Witness of C8: the zero header against itself, lane 0, and the lanes in the order
3, 2, 1, 0. -/
theorem C8_lanes_independent_witness :
    (∀ l : Fin 4, l ∈ [(3 : Fin 4), 2, 1, 0]) ∧
      iter_mineBytom_finish keccak256 Uninit.zero
          (iter_mineBytom_lanes keccak256 Uninit.zero (buildMatList keccak256 Uninit.zero zero32)
            (List.ofFn zero32) 32 [3, 2, 1, 0])
        = iter_mineBytom keccak256 Uninit.zero (buildMatList keccak256 Uninit.zero zero32)
            (List.ofFn zero32) 32 :=
  ⟨by decide,
    (C8_lanes_independent keccak256 Uninit.zero (buildMatList keccak256 Uninit.zero zero32) 0
      zero32 zero32 Mat256x256i16.zero Mat256x256i16.zero Mat256x256i16.zero
      Mat256x256i16.zero Mat256x256i8.zero Mat256x256i8.zero [3, 2, 1, 0]
      (fun _ => rfl) (by decide)).2.2.1⟩

/-- C9: for every header and seed, after any history of earlier calls of each variant, the
three variants of `SimdTs` produce the same digest: `cgo_algorithm` (cache flushed above 42
entries), `stlib` (cache never flushed) and `dylib` (no cache; the digest is written to the
buffer of the caller and the call returns 0). -/
theorem C9_variants_agree (sha3 : List Byte → Fin 32 → Byte)
    (hist_cgo hist_stlib : List Call) (hist_dylib : List (Call × (Fin 32 → Byte)))
    (u1 u2 u3 : Uninit) (blockheader seed res : Fin 32 → Byte) :
    (cgo_algorithm.SimdTs sha3 u1 (cgo_algorithm.run sha3 hist_cgo) blockheader seed).result
        = (stlib.SimdTs sha3 u2 (stlib.run sha3 hist_stlib) blockheader seed).result ∧
      (stlib.SimdTs sha3 u2 (stlib.run sha3 hist_stlib) blockheader seed).result
        = (dylib.SimdTs sha3 u3 (dylib.run sha3 hist_dylib) blockheader seed res).2.1 ∧
      (dylib.SimdTs sha3 u3 (dylib.run sha3 hist_dylib) blockheader seed res).1 = 0 := by
  refine ⟨?_, ?_, rfl⟩
  · rw [cgo_algorithm.SimdTs_digest sha3 u1 u3 _ _ _ (cgo_algorithm.run_inv sha3 hist_cgo),
      stlib.stlib_SimdTs_digest sha3 u2 u3 _ _ _ (stlib.stlib_run_inv sha3 hist_stlib)]
  · rw [stlib.stlib_SimdTs_digest sha3 u2 u3 _ _ _ (stlib.stlib_run_inv sha3 hist_stlib),
      dylib.dylib_SimdTs_digest sha3 u3 u3]

/-- C10: for every header `h`, seed `s` and `N >= 1`, after `N` consecutive calls
`SimdTs(h, s)` on an initially empty cache the digest returned by the last call is the digest
of `(h, s)` on a fresh cache, the same for every `N`, and the cache contains exactly one
entry, keyed by the bytes of `s`, which holds the matrix list built for `s`. -/
theorem C10_repeated_calls (sha3 : List Byte → Fin 32 → Byte) (h s : Fin 32 → Byte)
    (us : Nat → Uninit) (u0 : Uninit) (N : Nat) (hN : 1 ≤ N) :
    (cgo_algorithm.run sha3 (repeat_calls h s us N)).result
        = (cgo_algorithm.SimdTs sha3 u0 cgo_algorithm.State.init h s).result ∧
      (cgo_algorithm.run sha3 (repeat_calls h s us N)).seedCache.length = 1 ∧
      (cgo_algorithm.run sha3 (repeat_calls h s us N)).seedCache
        = [(List.ofFn s, buildMatList sha3 u0 s)] := by
  obtain ⟨n, rfl⟩ : ∃ n, N = n + 1 := ⟨N - 1, by omega⟩
  have hr := cgo_algorithm.run_repeat sha3 h s us u0 n
  refine ⟨?_, ?_, hr.2⟩
  · rw [hr.1]
    exact (cgo_algorithm.SimdTs_digest sha3 u0 u0 _ h s (CacheInv_nil sha3)).symm
  · rw [hr.2]
    rfl

/-- Witness of C10: three consecutive calls with the zero header and the zero seed. -/
theorem C10_repeated_calls_witness :
    1 ≤ 3 ∧
      (cgo_algorithm.run keccak256
          (repeat_calls zero32 zero32 (fun _ => Uninit.zero) 3)).seedCache.length = 1 :=
  ⟨by decide,
    (C10_repeated_calls keccak256 zero32 zero32 (fun _ => Uninit.zero) Uninit.zero 3
      (by decide)).2.1⟩

/-! ## Loops that read what they write -/

/-- Invariant of two nested loops, indexed by the row and the column reached. -/
theorem forLoop2_count {σ : Type} (r c : Nat) (P : Nat → Nat → σ → Prop)
    (wr : Fin r → Fin c → σ → σ) (s : σ) (h0 : P 0 0 s)
    (hrow : ∀ (i : Fin r) (s : σ), P i.val c s → P (i.val + 1) 0 s)
    (hstep : ∀ (i : Fin r) (j : Fin c) (s : σ), P i.val j.val s → P i.val (j.val + 1) (wr i j s)) :
    P r 0 (forLoop r (fun i s => forLoop c (fun j s => wr i j s) s) s) :=
  forLoop_count r (fun k s => P k 0 s) _ s h0
    (fun i s hs => hrow i _
      (forLoop_count c (fun k s => P i.val k s) _ s hs (fun j s hs => hstep i j s hs)))

/-- A loop that updates entry `i` of an array from its current value in iteration `i`. -/
theorem forLoop_map1 {α : Type} {n : Nat} (f : Fin n → α → α) (w0 : Fin n → α) :
    forLoop n (fun i w => set1 w i (f i (w i))) w0 = fun t => f t (w0 t) := by
  have key := forLoop_count n
    (fun k (w : Fin n → α) => w = fun t => if t.val < k then f t (w0 t) else w0 t)
    (fun i w => set1 w i (f i (w i))) w0 ?_ ?_
  · rw [key]
    funext t
    rw [if_pos t.is_lt]
  · funext t
    rw [if_neg (by omega)]
  · intro i s hs
    funext t
    rw [hs]
    simp only [set1]
    by_cases h : t = i
    · rw [if_pos h, if_neg (by omega), if_pos (by rw [h]; omega), h]
    · have hne : t.val ≠ i.val := fun e => h (Fin.ext e)
      rw [if_neg h]
      by_cases h2 : t.val < i.val
      · rw [if_pos h2, if_pos (by omega)]
      · rw [if_neg h2, if_neg (by omega)]

/-! ## The bytes that `copyFrom_helper` stores -/

theorem Words32.toList_length (w : Words32) : w.toList.length = 32 := by
  simp [Words32.toList]

theorem Words32.toList_getD (w : Words32) (i : Nat) (h : i < 32) :
    w.toList.getD i 0 = w.get i h := by
  unfold Words32.toList Words32.get
  by_cases h16 : i < 16
  · rw [dif_pos h16, List.getD_append _ _ _ _ (by simpa using h16),
      List.getD_eq_getElem _ _ (by simpa using h16), List.getElem_ofFn]
  · rw [dif_neg h16, List.getD_append_right _ _ _ _ (by simpa using h16),
      List.getD_eq_getElem _ _ (by simp; omega), List.getElem_ofFn]
    simp

theorem toI8_byte (x : Nat) (h : x < 256) : toI8 (x : Int) = sign_extend_i8 (x : Int) := by
  unfold toI8 sign_extend_i8
  split_ifs <;> omega

/-- C11: for every pad, offset 0 or 1, column r, word index j below 64 and byte index b below 4,
copyFrom_helper leaves in d[4j+b][r] byte b (little-endian) of the word W_j, read as a signed
8-bit value, where W_0 .. W_63 are the 32 words (lo then hi) of pad[4r + off] followed by the
32 words of pad[4r + 2 + off]; the previous contents of the matrix play no part. -/
theorem C11_copyFrom_helper_bytes (self : Mat256x256i16) (pad : LTCMemory) (off : Fin 2)
    (r : Fin 256) (j : Fin 64) (b : Fin 4) :
    (self.copyFrom_helper pad off).d ⟨4 * j.val + b.val, by omega⟩ r
      = sign_extend_i8 ((((((pad.w32 ⟨4 * r.val + off.val, by omega⟩).toList
            ++ (pad.w32 ⟨4 * r.val + 2 + off.val, by omega⟩).toList).getD j.val 0)
          >>> (8 * b.val)) % 256 : Nat) : Int) := by
  rw [Mat256x256i16.copyFrom_helper_d]
  have hj : (4 * j.val + b.val) / 4 = j.val := by omega
  have hb : (4 * j.val + b.val) % 4 = b.val := by omega
  have hw : pad_word pad off r ⟨(4 * j.val + b.val) / 4, by omega⟩
      = ((pad.w32 ⟨4 * r.val + off.val, by omega⟩).toList
            ++ (pad.w32 ⟨4 * r.val + 2 + off.val, by omega⟩).toList).getD j.val 0 := by
    unfold pad_word LTCMemory.get
    simp only [hj]
    by_cases h32 : 32 ≤ j.val
    · rw [dif_pos h32, List.getD_append_right _ _ _ _ (by rw [Words32.toList_length]; exact h32),
        Words32.toList_length, Words32.toList_getD _ _ (by omega)]
      congr 3
      omega
    · rw [dif_neg h32, List.getD_append _ _ _ _ (by rw [Words32.toList_length]; omega),
        Words32.toList_getD _ _ (by omega)]
      congr 3
      omega
  simp only [hb]
  rw [hw]
  have hand : ∀ x : Nat, x &&& 0xFF = x % 256 := fun x => Nat.and_pow_two_sub_one_eq_mod x 8
  rw [hand]
  exact toI8_byte _ (Nat.mod_lt _ (by decide))

/-! ## The chain of multiplications of one lane -/

theorem lane_chain_succ (sc : Mat256x256i16) (M : BytomMatList16) (seq : Fin 32 → Byte)
    (n : Nat) :
    lane_chain sc M seq (n + 1)
      = mul_ref (lane_chain sc M seq n) (M.at_ (seq ⟨n % 32, Nat.mod_lt _ (by decide)⟩)) := by
  rw [lane_chain]
  exact Mat256x256i16.mul_eq _ _ _

theorem lane_chain_zero (sc sc1 : Mat256x256i16) (M : BytomMatList16) (seq : Fin 32 → Byte) :
    lane_chain sc M seq 0 = sc1.toIdentityMatrix := by
  rw [lane_chain]
  exact Mat256x256i16.toIdentityMatrix_indep sc sc1

theorem lane_chain_indep (sc1 sc2 : Mat256x256i16) (M : BytomMatList16) (seq : Fin 32 → Byte)
    (n : Nat) : lane_chain sc1 M seq n = lane_chain sc2 M seq n := by
  induction n with
  | zero => exact (lane_chain_zero sc1 sc1 M seq).trans (lane_chain_zero sc2 sc1 M seq).symm
  | succ n ih =>
    exact (lane_chain_succ sc1 M seq n).trans
      ((congrArg (fun T => mul_ref T (M.at_ (seq ⟨n % 32, Nat.mod_lt _ (by decide)⟩))) ih).trans
        (lane_chain_succ sc2 M seq n).symm)

/-- One pass of the body of the inner loop of a lane: two multiplications, which take the
chain from `T_n` to `T_(n+2)` when `n % 32 = 2 * i2`. -/
theorem lane_step (sc : Mat256x256i16) (M : BytomMatList16) (seq : Fin 32 → Byte)
    (n : Nat) (i2 : Fin 16) (hn : n % 32 = 2 * i2.val) (p : Mat256x256i16) :
    (p.mul (lane_chain sc M seq n) (M.at_ (seq ⟨2 * i2.val, by omega⟩)),
      (lane_chain sc M seq n).mul
        (p.mul (lane_chain sc M seq n) (M.at_ (seq ⟨2 * i2.val, by omega⟩)))
        (M.at_ (seq ⟨2 * i2.val + 1, by omega⟩)))
      = (lane_chain sc M seq (n + 1), lane_chain sc M seq (n + 2)) := by
  have i1 : (⟨n % 32, Nat.mod_lt _ (by decide)⟩ : Fin 32) = ⟨2 * i2.val, by omega⟩ :=
    Fin.ext hn
  have i3 : (⟨(n + 1) % 32, Nat.mod_lt _ (by decide)⟩ : Fin 32) = ⟨2 * i2.val + 1, by omega⟩ :=
    Fin.ext (by show (n + 1) % 32 = 2 * i2.val + 1; omega)
  have c1 : lane_chain sc M seq (n + 1)
      = mul_ref (lane_chain sc M seq n) (M.at_ (seq ⟨2 * i2.val, by omega⟩)) :=
    (lane_chain_succ sc M seq n).trans
      (congrArg (fun t => mul_ref (lane_chain sc M seq n) (M.at_ (seq t))) i1)
  have c2 : lane_chain sc M seq (n + 2)
      = mul_ref (lane_chain sc M seq (n + 1)) (M.at_ (seq ⟨2 * i2.val + 1, by omega⟩)) :=
    (lane_chain_succ sc M seq (n + 1)).trans
      (congrArg (fun t => mul_ref (lane_chain sc M seq (n + 1)) (M.at_ (seq t))) i3)
  have e1 : p.mul (lane_chain sc M seq n) (M.at_ (seq ⟨2 * i2.val, by omega⟩))
      = lane_chain sc M seq (n + 1) := (Mat256x256i16.mul_eq _ _ _).trans c1.symm
  have e2 : (lane_chain sc M seq n).mul (lane_chain sc M seq (n + 1))
        (M.at_ (seq ⟨2 * i2.val + 1, by omega⟩))
      = lane_chain sc M seq (n + 2) := (Mat256x256i16.mul_eq _ _ _).trans c2.symm
  exact congrArg₂ Prod.mk e1
    ((congrArg (fun T => (lane_chain sc M seq n).mul T
      (M.at_ (seq ⟨2 * i2.val + 1, by omega⟩))) e1).trans e2)

theorem lane_loop_eq (sc : Mat256x256i16) (M : BytomMatList16) (seq : Fin 32 → Byte)
    (mat16_0 tmp16_0 : Mat256x256i16) :
    forLoop 2 (fun _ (s : Mat256x256i16 × Mat256x256i16) =>
      forLoop 16 (fun i2 (s : Mat256x256i16 × Mat256x256i16) =>
        (s.1.mul s.2 (M.at_ (seq ⟨2 * i2.val, by omega⟩)),
          s.2.mul (s.1.mul s.2 (M.at_ (seq ⟨2 * i2.val, by omega⟩)))
            (M.at_ (seq ⟨2 * i2.val + 1, by omega⟩)))) s)
      (mat16_0, tmp16_0.toIdentityMatrix)
      = (lane_chain sc M seq 63, lane_chain sc M seq 64) := by
  refine Eq.trans (forLoop2_count 2 16
    (fun j i2 (s : Mat256x256i16 × Mat256x256i16) => s =
      (if 32 * j + 2 * i2 = 0 then mat16_0 else lane_chain sc M seq (32 * j + 2 * i2 - 1),
        lane_chain sc M seq (32 * j + 2 * i2))) _ (mat16_0, tmp16_0.toIdentityMatrix) ?_ ?_ ?_)
    (congrArg₂ Prod.mk (if_neg (by decide)) (congrArg (lane_chain sc M seq) (by decide)))
  · exact congrArg₂ Prod.mk (if_pos (by omega)).symm
      (lane_chain_zero sc tmp16_0 M seq).symm
  · intro j s hs
    have e : 32 * j.val + 2 * 16 = 32 * (j.val + 1) + 2 * 0 := by omega
    exact hs.trans (congrArg (fun n => (if n = 0 then mat16_0 else lane_chain sc M seq (n - 1),
      lane_chain sc M seq n)) e)
  · intro j i2 s hs
    have hn : (32 * j.val + 2 * i2.val) % 32 = 2 * i2.val := by omega
    have e1 : 32 * j.val + 2 * i2.val + 2 = 32 * j.val + 2 * (i2.val + 1) := by omega
    have e3 : lane_chain sc M seq (32 * j.val + 2 * i2.val + 1)
        = if 32 * j.val + 2 * (i2.val + 1) = 0 then mat16_0
          else lane_chain sc M seq (32 * j.val + 2 * (i2.val + 1) - 1) :=
      (congrArg (lane_chain sc M seq)
        (show 32 * j.val + 2 * i2.val + 1 = 32 * j.val + 2 * (i2.val + 1) - 1 by omega)).trans
        (if_neg (by omega)).symm
    have e4 : lane_chain sc M seq (32 * j.val + 2 * i2.val + 2)
        = lane_chain sc M seq (32 * j.val + 2 * (i2.val + 1)) :=
      congrArg (lane_chain sc M seq) e1
    subst hs
    exact (lane_step sc M seq (32 * j.val + 2 * i2.val) i2 hn _).trans (congrArg₂ Prod.mk e3 e4)

theorem lane_loop_snd (sc : Mat256x256i16) (M : BytomMatList16) (seq : Fin 32 → Byte)
    (mat16_0 tmp16_0 : Mat256x256i16) :
    (forLoop 2 (fun _ (s : Mat256x256i16 × Mat256x256i16) =>
      forLoop 16 (fun i2 (s : Mat256x256i16 × Mat256x256i16) =>
        (s.1.mul s.2 (M.at_ (seq ⟨2 * i2.val, by omega⟩)),
          s.2.mul (s.1.mul s.2 (M.at_ (seq ⟨2 * i2.val, by omega⟩)))
            (M.at_ (seq ⟨2 * i2.val + 1, by omega⟩)))) s)
      (mat16_0, tmp16_0.toIdentityMatrix)).2
      = lane_chain sc M seq 64 := by
  rw [lane_loop_eq sc M seq mat16_0 tmp16_0]

/-- C12: for every 32-byte header, lane k and matrix list, the result of the lane is
toMatI8(T_64), where T_0 is the identity matrix, T_(n+1) is what
mul(T_n, matrices[seq[n mod 32]]) leaves for n from 0 to 63, and seq is the SHA3-256 of bytes
8k .. 8k+7 of the header: 64 multiplications, the 32 bytes of seq as right factors in order,
each used twice.  The previous contents of mat16, tmp16 and resArr8[k] and of the destination
of mul play no part. -/
theorem C12_lane_is_chain_of_64 (sha3 : List Byte → Fin 32 → Byte) (M : BytomMatList16)
    (header : Fin 32 → Byte) (k : Fin 4) (mat16_0 tmp16_0 scratch : Mat256x256i16)
    (resK : Mat256x256i8) :
    iter_mineBytom_lane sha3 M (List.ofFn header) 32 k mat16_0 tmp16_0 resK
        = (lane_chain scratch M
            (sha3 (List.ofFn (fun t : Fin 8 => header ⟨8 * k.val + t.val, by omega⟩)))
            64).toMatI8 resK
      ∧ (∀ (seq : Fin 32 → Byte) (a b : Fin 256),
          (lane_chain scratch M seq 0).d a b = if a = b then 1 else 0)
      ∧ (∀ (seq : Fin 32 → Byte) (n : Nat) (self : Mat256x256i16),
          lane_chain scratch M seq (n + 1)
            = self.mul (lane_chain scratch M seq n)
                (M.at_ (seq ⟨n % 32, Nat.mod_lt _ (by decide)⟩))) := by
  refine ⟨?_, ?_, ?_⟩
  · unfold iter_mineBytom_lane
    dsimp only
    rw [header_chunk header k]
    rw [lane_loop_snd scratch M _ mat16_0 tmp16_0]
  · intro seq a b
    rw [lane_chain_zero scratch scratch M seq, Mat256x256i16.toIdentityMatrix_d]
  · intro seq n self
    exact (lane_chain_succ scratch M seq n).trans (Mat256x256i16.mul_eq _ _ _).symm

/-! ## The halving rounds of `reduceFNV` -/

theorem set2_apply {α : Type} {r c : Nat} (m : Fin r → Fin c → α) (i : Fin r) (j : Fin c)
    (v : α) (x : Fin r) (y : Fin c) :
    set2 m i j v x y = if x = i ∧ y = j then v else m x y := rfl

/-- Closed form of one halving round: row `r` below `half` receives
`FNV(d[r][c], d[r + half][c])` computed from the array before the round, the other rows are
kept. -/
theorem Arr256x64i32.reduceRound_eq (a : Arr256x64i32) (half : Nat) (hh : 2 * half ≤ 256) :
    a.reduceRound half hh
      = (⟨fun r c => if r.val < half ∨ (r.val = half ∧ c.val < 0)
          then FNV (a.d r c) (a.d ⟨(r.val + half) % 256, Nat.mod_lt _ (by decide)⟩ c)
          else a.d r c⟩ : Arr256x64i32) := by
  unfold Arr256x64i32.reduceRound
  refine forLoop2_count half 64
    (fun j i (s : Arr256x64i32) => s =
      (⟨fun r c => if r.val < j ∨ (r.val = j ∧ c.val < i)
        then FNV (a.d r c) (a.d ⟨(r.val + half) % 256, Nat.mod_lt _ (by decide)⟩ c)
        else a.d r c⟩ : Arr256x64i32)) _ a ?_ ?_ ?_
  · cases a with
    | mk d =>
      congr
      funext r c
      rw [if_neg (by omega)]
  · intro j s hs
    rw [hs]
    congr
    funext r c
    have hc := c.is_lt
    by_cases h : r.val < j.val ∨ (r.val = j.val ∧ c.val < 64)
    · rw [if_pos h, if_pos (by omega)]
    · rw [if_neg h, if_neg (by omega)]
  · intro j i s hs
    have hj := j.is_lt
    rw [hs]
    congr
    funext r c
    rw [set2_apply]
    dsimp only
    by_cases hrc : r = ⟨j.val, by omega⟩ ∧ c = i
    · have hr : r.val = j.val := congrArg Fin.val hrc.1
      have hm : (⟨(r.val + half) % 256, Nat.mod_lt _ (by decide)⟩ : Fin 256)
          = ⟨j.val + half, by omega⟩ := Fin.ext (by
        show (r.val + half) % 256 = j.val + half
        omega)
      rw [if_pos hrc,
        if_neg (show ¬ (j.val < j.val ∨ (j.val = j.val ∧ i.val < i.val)) by omega),
        if_neg (show ¬ (j.val + half < j.val ∨ (j.val + half = j.val ∧ i.val < i.val)) by omega),
        if_pos (show r.val < j.val ∨ (r.val = j.val ∧ c.val < i.val + 1) by
          rw [hr, hrc.2]; omega), hm]
      exact congrArg₂ (fun t u => FNV (a.d t u) (a.d ⟨j.val + half, by omega⟩ u))
        hrc.1.symm hrc.2.symm
    · have hne : ¬ (r.val = j.val ∧ c.val = i.val) := fun h =>
        hrc ⟨Fin.ext h.1, Fin.ext h.2⟩
      rw [if_neg hrc]
      by_cases h : r.val < j.val ∨ (r.val = j.val ∧ c.val < i.val)
      · rw [if_pos h, if_pos (by omega)]
      · rw [if_neg h, if_neg (by omega)]

theorem Arr256x64i32.reduceRound_d (a : Arr256x64i32) (half : Nat) (hh : 2 * half ≤ 256)
    (r : Fin 256) (c : Fin 64) :
    (a.reduceRound half hh).d r c
      = if h : r.val < half then FNV (a.d r c) (a.d ⟨r.val + half, by omega⟩ c)
        else a.d r c := by
  rw [Arr256x64i32.reduceRound_eq]
  dsimp only
  by_cases h : r.val < half
  · have hm : (⟨(r.val + half) % 256, Nat.mod_lt _ (by decide)⟩ : Fin 256)
        = ⟨r.val + half, by omega⟩ := Fin.ext (by
      show (r.val + half) % 256 = r.val + half
      omega)
    rw [if_pos (Or.inl h), dif_pos h, hm]
  · rw [if_neg (by omega), dif_neg h]

theorem fnv_red_of_short (v : List Nat) (h : v.length ≤ 1) : fnv_red v = v.headD 0 := by
  rw [fnv_red, dif_pos h]

theorem fnv_red_step (v : List Nat) (h : 2 ≤ v.length) : fnv_red v = fnv_red (fnv_halve v) := by
  rw [fnv_red, dif_neg (by omega)]

theorem Arr256x64i32.column_length (a : Arr256x64i32) (n : Nat) (hn : n ≤ 256) (c : Fin 64) :
    (a.column n hn c).length = n := by
  unfold Arr256x64i32.column
  exact List.length_ofFn _

/-- The live rows of a column after a halving round are `fnv_halve` of the live rows before. -/
theorem Arr256x64i32.column_round (a : Arr256x64i32) (half : Nat) (hh : 2 * half ≤ 256)
    (c : Fin 64) :
    (a.reduceRound half hh).column half (by omega) c = fnv_halve (a.column (2 * half) hh c) := by
  have hl : (a.column (2 * half) hh c).length = 2 * half := Arr256x64i32.column_length _ _ _ _
  have hd : 2 * half / 2 = half := by omega
  unfold fnv_halve
  rw [hl, hd]
  unfold Arr256x64i32.column
  apply List.ext_getElem
  · simp only [List.length_ofFn, List.length_zipWith, List.length_take, List.length_drop]
    omega
  · intro n h1 h2
    have hn : n < half := by
      rw [List.length_ofFn] at h1
      exact h1
    simp only [List.getElem_ofFn, List.getElem_zipWith, List.getElem_take, List.getElem_drop]
    rw [Arr256x64i32.reduceRound_d, dif_pos hn]
    congr 2
    apply Fin.ext
    show n + half = half + n
    omega

theorem Arr256x64i32.red_round (a : Arr256x64i32) (half : Nat) (hh : 2 * half ≤ 256)
    (h1 : 1 ≤ half) (c : Fin 64) :
    fnv_red (a.column (2 * half) hh c)
      = fnv_red ((a.reduceRound half hh).column half (by omega) c) := by
  rw [fnv_red_step _ (by rw [Arr256x64i32.column_length]; omega), Arr256x64i32.column_round]

theorem Arr256x64i32.red_column_one (a : Arr256x64i32) (c : Fin 64) :
    fnv_red (a.column 1 (by decide) c) = a.d 0 c := by
  rw [fnv_red_of_short _ (by rw [Arr256x64i32.column_length])]
  rfl

theorem Arr256x64i32.reduceFNV_d0 (a : Arr256x64i32) (c : Fin 64) :
    (a.reduceFNV).d 0 c = fnv_red (a.column 256 (le_refl _) c) := by
  unfold Arr256x64i32.reduceFNV
  dsimp only
  rw [← Arr256x64i32.red_column_one]
  refine Eq.symm ?_
  refine (Arr256x64i32.red_round a 128 (by decide) (by decide) c).trans ?_
  refine (Arr256x64i32.red_round _ 64 (by decide) (by decide) c).trans ?_
  refine (Arr256x64i32.red_round _ 32 (by decide) (by decide) c).trans ?_
  refine (Arr256x64i32.red_round _ 16 (by decide) (by decide) c).trans ?_
  refine (Arr256x64i32.red_round _ 8 (by decide) (by decide) c).trans ?_
  refine (Arr256x64i32.red_round _ 4 (by decide) (by decide) c).trans ?_
  refine (Arr256x64i32.red_round _ 2 (by decide) (by decide) c).trans ?_
  exact Arr256x64i32.red_round _ 1 (by decide) (by decide) c

theorem Arr256x64i32.withColumnOf_column (b a : Arr256x64i32) (c : Fin 64) (n : Nat)
    (hn : n ≤ 256) : (b.withColumnOf a c).column n hn c = a.column n hn c := by
  unfold Arr256x64i32.column Arr256x64i32.withColumnOf
  dsimp only
  refine congrArg List.ofFn (funext (fun r => ?_))
  rw [if_pos rfl]

/-- C13: for every 256x64 array and every column c, after reduceFNV the entry d[0][c] is
red of the vector d[0][c] .. d[255][c] of the input, where red of a single element is that
element and red of a longer vector is red of zipWith FNV of its first and second half, with
FNV(a, b) = ((a * 0x01000193) mod 2^32) XOR b; every halving round computes its entries from
the array as it was when the round began (rows below half receive FNV of their old value and
the old value half a block further down, the other rows are kept), so no read sees a value
written in the same round; and d[0][c] is the same when every other column is replaced. -/
theorem C13_reduceFNV_column (a b : Arr256x64i32) (c : Fin 64) :
    (a.reduceFNV).d 0 c = fnv_red (a.column 256 (le_refl _) c)
      ∧ (∀ x : Nat, fnv_red [x] = x)
      ∧ (∀ (x y : Nat) (v : List Nat),
          fnv_red (x :: y :: v)
            = fnv_red (List.zipWith FNV
                ((x :: y :: v).take ((x :: y :: v).length / 2))
                ((x :: y :: v).drop ((x :: y :: v).length / 2))))
      ∧ (∀ v1 v2 : Nat, FNV v1 v2 = ((v1 * 0x01000193) % 4294967296) ^^^ v2)
      ∧ (∀ (half : Nat) (hh : 2 * half ≤ 256) (r : Fin 256),
          (a.reduceRound half hh).d r c
            = if h : r.val < half then FNV (a.d r c) (a.d ⟨r.val + half, by omega⟩ c)
              else a.d r c)
      ∧ ((b.withColumnOf a c).reduceFNV).d 0 c = (a.reduceFNV).d 0 c := by
  refine ⟨Arr256x64i32.reduceFNV_d0 a c, ?_, ?_, fun v1 v2 => rfl, ?_, ?_⟩
  · intro x
    exact fnv_red_of_short [x] (le_refl _)
  · intro x y v
    exact fnv_red_step (x :: y :: v) (by simp only [List.length_cons]; omega)
  · intro half hh r
    exact Arr256x64i32.reduceRound_d a half hh r c
  · rw [Arr256x64i32.reduceFNV_d0, Arr256x64i32.reduceFNV_d0,
      Arr256x64i32.withColumnOf_column]

/-! ## The bytes of the words of `Arr256x64i32` -/

theorem shl_mod_u32 (b k : Nat) (hb : b < 256) (hk : k ≤ 24) : (b <<< k) % U32 = b <<< k := by
  apply Nat.mod_eq_of_lt
  rw [Nat.shiftLeft_eq]
  have h1 : 2 ^ k ≤ 2 ^ 24 := Nat.pow_le_pow_right (by decide) hk
  have h2 : b * 2 ^ k ≤ 255 * 2 ^ 24 := Nat.mul_le_mul (by omega) h1
  unfold U32
  omega

theorem Arr256x64i32.ofMat_word (self : Arr256x64i32) (mat : Mat256x256i8) (r : Fin 256)
    (c : Fin 64) :
    (self.ofMat mat).d r c
      = (toU8 (mat.d r ⟨c.val, by omega⟩)).val
        + 256 * (toU8 (mat.d r ⟨c.val + 64, by omega⟩)).val
        + 65536 * (toU8 (mat.d r ⟨c.val + 128, by omega⟩)).val
        + 16777216 * (toU8 (mat.d r ⟨c.val + 192, by omega⟩)).val := by
  rw [Arr256x64i32.ofMat_d, shl_mod_u32 _ 24 (Fin.is_lt _) (by decide),
    shl_mod_u32 _ 16 (Fin.is_lt _) (by decide), shl_mod_u32 _ 8 (Fin.is_lt _) (by decide),
    shl_mod_u32 _ 0 (Fin.is_lt _) (by decide), Nat.shiftLeft_zero,
    le_word_or _ _ _ _ (Fin.is_lt _) (Fin.is_lt _) (Fin.is_lt _)]

/-- C14: for every Mat8 S, row r, column c below 64 and q below 4, byte q (little-endian) of
the word d[r][c] that the constructor of Arr256x64i32 builds is the 8-bit pattern of
S[r][c + 64q], that is the entry modulo 256, and the word is below 2^32: a negative entry sets
no bit outside its own byte.  The previous contents of the array play no part. -/
theorem C14_arr_word_bytes (self : Arr256x64i32) (S : Mat256x256i8) (r : Fin 256)
    (c : Fin 64) (q : Fin 4) :
    ((self.ofMat S).d r c >>> (8 * q.val)) % 256
        = (S.d r ⟨c.val + 64 * q.val, by omega⟩ % 256).toNat
      ∧ (self.ofMat S).d r c < U32 := by
  rw [Arr256x64i32.ofMat_word]
  constructor
  · rw [le_word_byte _ _ _ _ _ (Fin.is_lt _) (Fin.is_lt _) (Fin.is_lt _) (Fin.is_lt _) q.is_lt]
    have hq : q.val = 0 ∨ q.val = 1 ∨ q.val = 2 ∨ q.val = 3 := by omega
    rcases hq with h | h | h | h <;> simp only [h] <;> rfl
  · have h0 := (toU8 (S.d r ⟨c.val, by omega⟩)).is_lt
    have h1 := (toU8 (S.d r ⟨c.val + 64, by omega⟩)).is_lt
    have h2 := (toU8 (S.d r ⟨c.val + 128, by omega⟩)).is_lt
    have h3 := (toU8 (S.d r ⟨c.val + 192, by omega⟩)).is_lt
    unfold U32
    omega

/-! ## The two phases of `scrypt` -/

theorem Words32.xor_other_eq (x y : Words32) : x.xor_other y = x.xor y := by
  unfold Words32.xor_other Words32.xor
  dsimp only
  rw [forLoop_map1 (fun i a => a ^^^ y.lo.w i) x.lo.w,
    forLoop_map1 (fun i a => a ^^^ y.hi.w i) x.hi.w]

theorem LTCMemory.scrypt_read_eq (mem : LTCMemory) (Y : Words32) :
    LTCMemory.scrypt_read (mem, Y) = (mem, (scrypt_G mem.w32)^[1024] Y) := by
  unfold LTCMemory.scrypt_read
  refine forLoop_count 1024
    (fun k (s : LTCMemory × Words32) => s = (mem, (scrypt_G mem.w32)^[k] Y)) _ (mem, Y) ?_ ?_
  · rfl
  · intro i s hs
    rw [hs, Function.iterate_succ_apply']
    dsimp only
    rw [Words32.xor_other_eq]
    rfl

theorem LTCMemory.scrypt_eq (self : LTCMemory) (X0 : Words32) :
    self.scrypt X0
      = ((⟨fun t => scrypt_mix^[t.val] X0⟩ : LTCMemory),
          (scrypt_G (fun t => scrypt_mix^[t.val] X0))^[1024] (scrypt_mix^[1024] X0)) := by
  unfold LTCMemory.scrypt
  rw [LTCMemory.scrypt_fill_eq, LTCMemory.scrypt_read_eq]

/-- C15: for every input state X0, the pad that scrypt leaves has w[0] = X0 and
w[i+1] = mix(w[i]) for every i below 1023, it is the pad that the first loop has left (the
second loop writes nothing to it), and the state that scrypt leaves in X is G applied 1024
times to mix(w[1023]), with G(x) = mix(x XOR w[x.hi.w[0] & 1023]); mix(x) has
lo = xor_salsa8(x.lo, x.hi) and hi = xor_salsa8(x.hi, that lo), and xor_other is the XOR of
both halves.  The previous contents of the pad play no part. -/
theorem C15_scrypt_pad_and_state (self : LTCMemory) (X0 : Words32) :
    (self.scrypt X0).1.w32 0 = X0
      ∧ (∀ i : Fin 1023, (self.scrypt X0).1.w32 ⟨i.val + 1, by omega⟩
          = scrypt_mix ((self.scrypt X0).1.w32 ⟨i.val, by omega⟩))
      ∧ (self.scrypt X0).1 = (self.scrypt_fill X0).1
      ∧ (self.scrypt X0).2
          = (scrypt_G (self.scrypt X0).1.w32)^[1024] (scrypt_mix ((self.scrypt X0).1.w32 1023))
      ∧ (∀ (w : Fin 1024 → Words32) (x : Words32),
          scrypt_G w x
            = scrypt_mix (x.xor_other (w ⟨x.hi.w 0 &&& 1023, Nat.lt_succ_of_le Nat.and_le_right⟩)))
      ∧ (∀ x : Words32, scrypt_mix x
          = ⟨⟨xor_salsa8 x.lo.w x.hi.w⟩, ⟨xor_salsa8 x.hi.w (xor_salsa8 x.lo.w x.hi.w)⟩⟩)
      ∧ (∀ (x y : Words32) (i : Fin 16),
          (x.xor_other y).lo.w i = x.lo.w i ^^^ y.lo.w i
            ∧ (x.xor_other y).hi.w i = x.hi.w i ^^^ y.hi.w i) := by
  rw [LTCMemory.scrypt_eq, LTCMemory.scrypt_fill_eq]
  dsimp only
  refine ⟨?_, ?_, ?_, ?_, ?_, ?_, ?_⟩
  · exact Function.iterate_zero_apply scrypt_mix X0
  · intro i
    exact Function.iterate_succ_apply' scrypt_mix i.val X0
  · trivial
  · exact congrArg _ (Function.iterate_succ_apply' scrypt_mix 1023 X0)
  · intro w x
    rw [Words32.xor_other_eq]
    rfl
  · intro x
    rfl
  · intro x y i
    rw [Words32.xor_other_eq]
    exact ⟨rfl, rfl⟩

/-! ## The round loop of `xor_salsa8` -/

theorem salsa_columns (x : Fin 16 → Nat) :
    (salsa_body.take 16).foldl salsa_stmt x = salsa20_columnround x := by
  funext i
  fin_cases i <;> rfl

theorem salsa_rows (x : Fin 16 → Nat) :
    (salsa_body.drop 16).foldl salsa_stmt x = salsa20_rowround x := by
  funext i
  fin_cases i <;> rfl

/-- The 32 statements of the body of the round loop are one doubleround. -/
theorem salsa_body_doubleround (x : Fin 16 → Nat) :
    salsa_body.foldl salsa_stmt x = salsa20_doubleround x := by
  have h : salsa_body.foldl salsa_stmt x
      = (salsa_body.drop 16).foldl salsa_stmt ((salsa_body.take 16).foldl salsa_stmt x) := by
    rw [← List.foldl_append, List.take_append_drop]
  rw [h, salsa_columns, salsa_rows]
  rfl

/-- A loop whose body does not read the counter iterates the body. -/
theorem forLoop_iterate {σ : Type} (n : Nat) (f : σ → σ) (s : σ) :
    forLoop n (fun _ x => f x) s = f^[n] s := by
  induction n with
  | zero => rw [forLoop_zero]; rfl
  | succ n ih => rw [forLoop_succ_last, ih, Function.iterate_succ_apply']

theorem xor_salsa8_eq (B Bx : Fin 16 → Nat) :
    xor_salsa8 B Bx
      = fun i => ((B i ^^^ Bx i) + (salsa20_doubleround^[4] (fun t => B t ^^^ Bx t)) i) % U32 := by
  unfold xor_salsa8
  dsimp only
  have hb : (fun (_ : Fin 4) (x : Fin 16 → Nat) => salsa_body.foldl salsa_stmt x)
      = fun _ x => salsa20_doubleround x := by
    funext _ x
    exact salsa_body_doubleround x
  rw [hb, forLoop_iterate]

/-- C16: for all 16-word blocks B and Bx, xor_salsa8(B, Bx) leaves in B the words
Y + R(Y) modulo 2^32, where Y = B XOR Bx and R is the doubleround of the Salsa20 specification
(a columnround, then a rowround, made of quarterrounds with the rotations 7, 9, 13, 18)
applied four times; the result is that of xor_salsa8(Y, 0), so it is a function of B XOR Bx
alone; the quarterround, rowround, columnround and doubleround used here give the values of
the examples of the Salsa20 specification. -/
theorem C16_xor_salsa8_is_salsa20_8 (B Bx : Fin 16 → Nat) :
    (∀ i : Fin 16, xor_salsa8 B Bx i
        = ((B i ^^^ Bx i)
            + (salsa20_doubleround^[4] (fun t => B t ^^^ Bx t)) i) % 4294967296)
      ∧ xor_salsa8 B Bx = xor_salsa8 (fun i => B i ^^^ Bx i) (fun _ => 0)
      ∧ (∀ x : Fin 16 → Nat, salsa20_doubleround x = salsa20_rowround (salsa20_columnround x))
      ∧ salsa20_quarterround 0xe7e8c006 0xc4f9417d 0x6479b4b2 0x68c67137
          = (0xe876d72b, 0x9361dfd5, 0xf1460244, 0x948541a3)
      ∧ (List.finRange 16).map (salsa20_rowround (fun i => if i.val % 4 = 0 then 1 else 0))
          = [0x08008145, 0x00000080, 0x00010200, 0x20500000,
             0x20100001, 0x00048044, 0x00000080, 0x00010000,
             0x00000001, 0x00002000, 0x80040000, 0x00000000,
             0x00000001, 0x00000200, 0x00402000, 0x88000100]
      ∧ (List.finRange 16).map (salsa20_columnround (fun i => if i.val % 4 = 0 then 1 else 0))
          = [0x10090288, 0x00000000, 0x00000000, 0x00000000,
             0x00000101, 0x00000000, 0x00000000, 0x00000000,
             0x00020401, 0x00000000, 0x00000000, 0x00000000,
             0x40a04001, 0x00000000, 0x00000000, 0x00000000]
      ∧ (List.finRange 16).map (salsa20_doubleround (fun i => if i.val = 0 then 1 else 0))
          = [0x8186a22d, 0x0040a284, 0x82479210, 0x06929051,
             0x08000090, 0x02402200, 0x00004000, 0x00800000,
             0x00010200, 0x20400000, 0x08008104, 0x00000000,
             0x20500000, 0xa0000040, 0x0008180a, 0x612a8020] := by
  refine ⟨?_, ?_, fun x => rfl, by decide, by decide, by decide, by decide⟩
  · intro i
    rw [xor_salsa8_eq]
  · rw [xor_salsa8_eq, xor_salsa8_eq]
    have h0 : ∀ a : Nat, a ^^^ 0 = a := fun a => Nat.xor_zero a
    simp only [h0]

/-! ## The sum of the four lanes -/

theorem Mat256x256i8.addInPlace_eq (self b : Mat256x256i8) :
    self.addInPlace b
      = (⟨fun x y => if x.val < 256 ∨ (x.val = 256 ∧ y.val < 0)
          then toI8 ((self.d x y + b.d x y) % 256) else self.d x y⟩ : Mat256x256i8) := by
  unfold Mat256x256i8.addInPlace
  refine forLoop2_count 256 256
    (fun i j (m : Mat256x256i8) => m =
      (⟨fun x y => if x.val < i ∨ (x.val = i ∧ y.val < j)
        then toI8 ((self.d x y + b.d x y) % 256) else self.d x y⟩ : Mat256x256i8)) _ self
    ?_ ?_ ?_
  · refine Mat256x256i8.ext_d8 _ _ (fun x y => ?_)
    dsimp only
    rw [if_neg (by omega)]
  · intro i s hs
    rw [hs]
    refine Mat256x256i8.ext_d8 _ _ (fun x y => ?_)
    dsimp only
    have hy := y.is_lt
    by_cases h : x.val < i.val ∨ (x.val = i.val ∧ y.val < 256)
    · rw [if_pos h, if_pos (by omega)]
    · rw [if_neg h, if_neg (by omega)]
  · intro i j s hs
    refine Mat256x256i8.ext_d8 _ _ (fun x y => ?_)
    dsimp only
    rw [Mat256x256i8.set_d8, hs]
    dsimp only
    by_cases hxy : x = i ∧ y = j
    · rw [if_pos hxy,
        if_neg (show ¬ (i.val < i.val ∨ (i.val = i.val ∧ j.val < j.val)) by omega),
        if_pos (show x.val < i.val ∨ (x.val = i.val ∧ y.val < j.val + 1) by
          rw [hxy.1, hxy.2]; omega), hxy.1, hxy.2]
    · rw [if_neg hxy]
      have hne : ¬ (x.val = i.val ∧ y.val = j.val) := fun h =>
        hxy ⟨Fin.ext h.1, Fin.ext h.2⟩
      by_cases h : x.val < i.val ∨ (x.val = i.val ∧ y.val < j.val)
      · rw [if_pos h, if_pos (by omega)]
      · rw [if_neg h, if_neg (by omega)]

theorem Mat256x256i8.addInPlace_d (self b : Mat256x256i8) (x y : Fin 256) :
    (self.addInPlace b).d x y = toI8 ((self.d x y + b.d x y) % 256) := by
  rw [Mat256x256i8.addInPlace_eq]
  dsimp only
  rw [if_pos (Or.inl x.is_lt)]

theorem iter_mineBytom_sum_d (res8_0 : Mat256x256i8) (r : Fin 4 → Mat256x256i8)
    (x y : Fin 256) :
    (iter_mineBytom_sum res8_0 r).d x y
      = toI8 ((r 0).d x y + (r 1).d x y + (r 2).d x y + (r 3).d x y) := by
  unfold iter_mineBytom_sum
  dsimp only
  rw [Mat256x256i8.addInPlace_d, Mat256x256i8.addInPlace_d, Mat256x256i8.add_d8]
  generalize (r 0).d x y = a
  generalize (r 1).d x y = b
  generalize (r 2).d x y = c
  generalize (r 3).d x y = d
  unfold toI8
  omega

/-- C17: for all four lane results, every cell of the matrix that the three calls of add leave
in res8 (the second and third call with res8 as destination and first operand) is the value in
the int8 range that is congruent modulo 256 to the sum of the four cells; the matrix is the
same for every order of the four lanes and for every previous contents of res8;
Mat256x256i8::add is commutative and associative; and the digest of iter_mineBytom is computed
from this matrix. -/
theorem C17_lane_sum_order_free (sha3 : List Byte → Fin 32 → Byte) (u : Uninit)
    (res8_0 : Mat256x256i8) (r : Fin 4 → Mat256x256i8) :
    (∀ x y : Fin 256,
        -128 ≤ (iter_mineBytom_sum res8_0 r).d x y ∧ (iter_mineBytom_sum res8_0 r).d x y ≤ 127
          ∧ (iter_mineBytom_sum res8_0 r).d x y % 256
            = ((r 0).d x y + (r 1).d x y + (r 2).d x y + (r 3).d x y) % 256)
      ∧ (∀ (p : Equiv.Perm (Fin 4)) (res8_1 : Mat256x256i8),
          iter_mineBytom_sum res8_1 (fun k => r (p k)) = iter_mineBytom_sum res8_0 r)
      ∧ (∀ s1 s2 a b : Mat256x256i8, s1.add a b = s2.add b a)
      ∧ (∀ s1 s2 s3 s4 a b c : Mat256x256i8, s1.add (s2.add a b) c = s3.add a (s4.add b c))
      ∧ iter_mineBytom_finish sha3 u r
          = sha3 ((u.arr.ofMat (iter_mineBytom_sum u.res8 r)).reduceFNV).d0RawPtr := by
  refine ⟨?_, ?_, ?_, ?_, rfl⟩
  · intro x y
    rw [iter_mineBytom_sum_d]
    generalize (r 0).d x y + (r 1).d x y + (r 2).d x y + (r 3).d x y = t
    unfold toI8
    omega
  · intro p res8_1
    refine Mat256x256i8.ext_d8 _ _ (fun x y => ?_)
    rw [iter_mineBytom_sum_d, iter_mineBytom_sum_d]
    have h := Equiv.sum_comp p (fun k : Fin 4 => (r k).d x y)
    rw [Fin.sum_univ_four, Fin.sum_univ_four] at h
    rw [h]
  · intro s1 s2 a b
    refine Mat256x256i8.ext_d8 _ _ (fun x y => ?_)
    rw [Mat256x256i8.add_d8, Mat256x256i8.add_d8, add_comm]
  · intro s1 s2 s3 s4 a b c
    refine Mat256x256i8.ext_d8 _ _ (fun x y => ?_)
    rw [Mat256x256i8.add_d8, Mat256x256i8.add_d8, Mat256x256i8.add_d8, Mat256x256i8.add_d8]
    generalize a.d x y = a1
    generalize b.d x y = b1
    generalize c.d x y = c1
    unfold toI8
    omega

/-! ## The matrices of `BytomMatList16::init` -/

/-- C18: for every expanded seed X, init leaves in matVec[2i] what copyFromEven makes of the
pad of pass i and in matVec[2i+1] what copyFromOdd makes of it, for every i below 128, where
the pad and the state of pass i come from scrypt run on the pad and the state that pass i-1 has
left, the first pass starting from X; the 256 matrices do not depend on the previous contents
of the matrices or of the pad. -/
theorem C18_init_matrices (self : BytomMatList16) (ltcMem0 : LTCMemory) (X : Words32) :
    (∀ (i : Fin 128) (fresh : Mat256x256i16),
        (self.init ltcMem0 X).matVec ⟨2 * i.val, by omega⟩
            = fresh.copyFromEven (init_state ltcMem0 X (i.val + 1)).1
          ∧ (self.init ltcMem0 X).matVec ⟨2 * i.val + 1, by omega⟩
            = fresh.copyFromOdd (init_state ltcMem0 X (i.val + 1)).1)
      ∧ (init_state ltcMem0 X 0).2 = X
      ∧ (∀ n : Nat, init_state ltcMem0 X (n + 1)
          = (init_state ltcMem0 X n).1.scrypt (init_state ltcMem0 X n).2)
      ∧ (∀ (other : BytomMatList16) (ltcMem1 : LTCMemory),
          other.init ltcMem1 X = self.init ltcMem0 X) := by
  refine ⟨?_, rfl, fun n => init_state_succ _ _ n, fun other m1 =>
    BytomMatList16.init_indep other self m1 ltcMem0 X⟩
  intro i fresh
  constructor
  · rw [BytomMatList16.init_matVec]
    have h1 : (2 * i.val) / 2 + 1 = i.val + 1 := by omega
    have h2 : (⟨(2 * i.val) % 2, Nat.mod_lt _ (by decide)⟩ : Fin 2) = 0 := by
      apply Fin.ext
      show (2 * i.val) % 2 = 0
      omega
    simp only [h1, h2]
    exact Mat256x256i16.copyFrom_helper_indep _ _ _ _
  · rw [BytomMatList16.init_matVec]
    have h1 : (2 * i.val + 1) / 2 + 1 = i.val + 1 := by omega
    have h2 : (⟨(2 * i.val + 1) % 2, Nat.mod_lt _ (by decide)⟩ : Fin 2) = 1 := by
      apply Fin.ext
      show (2 * i.val + 1) % 2 = 1
      omega
    simp only [h1, h2]
    exact Mat256x256i16.copyFrom_helper_indep _ _ _ _

/-! ## The assertions of the accessors -/

theorem forLoopM_some {σ : Type} {n : Nat} (body : Fin n → σ → Option σ)
    (body1 : Fin n → σ → σ) (h : ∀ i s, body i s = some (body1 i s)) (s : σ) :
    forLoopM n body s = some (forLoop n body1 s) := by
  unfold forLoopM forLoop
  generalize List.finRange n = L
  induction L generalizing s with
  | nil => rfl
  | cons x xs ih =>
    rw [List.foldlM_cons, h x s]
    exact ih (body1 x s)

theorem toU32_natCast (i : Nat) (h : i < 4294967296) : toU32 (i : Int) = i := by
  unfold toU32
  omega

theorem LTCMemory.pad_get_assert_some (self : LTCMemory) (i : Nat) (h : i < 1024) :
    self.get_assert (i : Int) = some (self.get i h) := by
  unfold LTCMemory.get_assert LTCMemory.get
  have hu : toU32 (i : Int) = i := toU32_natCast i (by omega)
  simp only [hu]
  rw [dif_pos h]

theorem Words32.word_get_assert_some (self : Words32) (i : Nat) (h : i < 32) :
    self.get_assert (i : Int) = some (self.get i h) := by
  unfold Words32.get_assert Words32.get
  have hu : toU32 (i : Int) = i := toU32_natCast i (by omega)
  simp only [hu]
  by_cases h16 : i < 16
  · rw [dif_pos h16, dif_pos h16]
  · rw [dif_neg h16, dif_pos h, dif_neg h16]

theorem Mat256x256i16.copyFrom_helper_assert_some (self : Mat256x256i16) (ltcMem : LTCMemory)
    (offset : Fin 2) :
    self.copyFrom_helper_assert ltcMem (offset.val : Int)
      = some (self.copyFrom_helper ltcMem offset) := by
  unfold Mat256x256i16.copyFrom_helper_assert Mat256x256i16.copyFrom_helper
  refine forLoopM_some _ _ ?_ self
  intro i m
  have e1 : ((i.val : Int) * 4 + (offset.val : Int)) = ((i.val * 4 + offset.val : Nat) : Int) := by
    push_cast; rfl
  have e2 : ((i.val : Int) * 4 + 2 + (offset.val : Int))
      = ((i.val * 4 + 2 + offset.val : Nat) : Int) := by
    push_cast; rfl
  rw [e1, e2, LTCMemory.pad_get_assert_some _ _ (by omega),
    LTCMemory.pad_get_assert_some _ _ (by omega), Option.some_bind, Option.some_bind]
  refine forLoopM_some _ _ ?_ m
  intro j m
  by_cases h32 : 32 ≤ j.val
  · have e3 : ((j.val : Int) - 32) = ((j.val - 32 : Nat) : Int) := by omega
    rw [if_pos h32, e3, Words32.word_get_assert_some _ _ (by omega), Option.some_bind]
    dsimp only
    rw [dif_pos h32]
  · rw [if_neg h32, Words32.word_get_assert_some _ _ (by omega), Option.some_bind]
    dsimp only
    rw [dif_neg h32]

/-- C20: no index leaves its array.  For every pad, offset 0 or 1 and i below 256, the calls
LTCMemory::get(4i + offset) and LTCMemory::get(4i + 2 + offset) of copyFrom_helper pass the
assertion; for every Words32, Words32::get(j) for j below 32 and Words32::get(j - 32) for j
from 32 to 63 do not reach assert(false); copyFrom_helper run with the assertions completes
with the matrix of the run without them; the pad index X.hi.w[0] & 1023 of scrypt is below
1024; and every byte sequence[i] is below 256, the length of the matrix list. -/
theorem C20_indices_in_range (self : Mat256x256i16) (ltcMem : LTCMemory) (offset : Fin 2)
    (W X : Words32) (sequence : Fin 32 → Byte) :
    (∀ i : Fin 256,
        ltcMem.get_assert ((i.val : Int) * 4 + (offset.val : Int))
            = some (ltcMem.w32 ⟨i.val * 4 + offset.val, by omega⟩)
          ∧ ltcMem.get_assert ((i.val : Int) * 4 + 2 + (offset.val : Int))
            = some (ltcMem.w32 ⟨i.val * 4 + 2 + offset.val, by omega⟩))
      ∧ (∀ j : Fin 64,
          (if 32 ≤ j.val then W.get_assert ((j.val : Int) - 32)
            else W.get_assert (j.val : Int)).isSome = true)
      ∧ self.copyFrom_helper_assert ltcMem (offset.val : Int)
          = some (self.copyFrom_helper ltcMem offset)
      ∧ X.hi.w 0 &&& 1023 < 1024
      ∧ ∀ i : Fin 32, (sequence i).val < 256 := by
  refine ⟨?_, ?_, Mat256x256i16.copyFrom_helper_assert_some self ltcMem offset,
    Nat.lt_succ_of_le Nat.and_le_right, fun i => (sequence i).is_lt⟩
  · intro i
    have e1 : ((i.val : Int) * 4 + (offset.val : Int))
        = ((i.val * 4 + offset.val : Nat) : Int) := by
      push_cast; rfl
    have e2 : ((i.val : Int) * 4 + 2 + (offset.val : Int))
        = ((i.val * 4 + 2 + offset.val : Nat) : Int) := by
      push_cast; rfl
    rw [e1, e2, LTCMemory.pad_get_assert_some _ _ (by omega),
      LTCMemory.pad_get_assert_some _ _ (by omega)]
    exact ⟨rfl, rfl⟩
  · intro j
    by_cases h32 : 32 ≤ j.val
    · have e3 : ((j.val : Int) - 32) = ((j.val - 32 : Nat) : Int) := by omega
      rw [if_pos h32, e3, Words32.word_get_assert_some _ _ (by omega)]
      rfl
    · rw [if_neg h32, Words32.word_get_assert_some _ _ (by omega)]
      rfl

/-! ## Truncation between `Mat256x256i16` and `Mat256x256i8` -/

theorem toI8_of_range (v : Int) (h1 : -128 ≤ v) (h2 : v ≤ 127) : toI8 (v % 256) = v := by
  unfold toI8
  omega

theorem Mat256x256i16.const_InI8 (v : Int) (h1 : -128 ≤ v) (h2 : v ≤ 127) :
    (Mat256x256i16.const v).InI8 := fun _ _ => ⟨h1, h2⟩

theorem Mat256x256i8.const8_InI8 (v : Int) (h1 : -128 ≤ v) (h2 : v ≤ 127) :
    (Mat256x256i8.const v).InI8 := fun _ _ => ⟨h1, h2⟩

/-- C21: truncation between Mat16 and Mat8 loses nothing on the int8 range.  For every
Mat256x256i16 M with entries in [-128, 127], copyFrom(toMatI8(M)) is M; for every Mat256x256i8
m (entries in [-128, 127], the range of its cells), toMatI8(copyFrom(m)) is m; and the
assertion of copyFrom holds in every cell, for m and for toMatI8(M).  The previous contents of
the matrices that are written play no part. -/
theorem C21_truncation_round_trip (M self16 : Mat256x256i16) (m other8 : Mat256x256i8)
    (hM : M.InI8) (hm : m.InI8) :
    self16.copyFrom8 (M.toMatI8 other8) = M
      ∧ (self16.copyFrom8 m).toMatI8 other8 = m
      ∧ (∀ j i : Fin 256, Mat256x256i16.copyFrom8_assert m j i)
      ∧ (∀ j i : Fin 256, Mat256x256i16.copyFrom8_assert (M.toMatI8 other8) j i) := by
  refine ⟨?_, ?_, ?_, ?_⟩
  · refine Mat256x256i16.ext_d _ _ (fun a b => ?_)
    rw [Mat256x256i16.copyFrom8_d, Mat256x256i16.toMatI8_d, toI16_toI8]
    exact toI8_of_range _ (hM a b).1 (hM a b).2
  · refine Mat256x256i8.ext_d8 _ _ (fun a b => ?_)
    rw [Mat256x256i16.toMatI8_d, Mat256x256i16.copyFrom8_d,
      toI16_of_range _ (by have := hm a b; omega) (by have := hm a b; omega)]
    exact toI8_of_range _ (hm a b).1 (hm a b).2
  · intro j i
    exact toI16_of_range _ (by have := hm j i; omega) (by have := hm j i; omega)
  · intro j i
    unfold Mat256x256i16.copyFrom8_assert
    rw [Mat256x256i16.toMatI8_d]
    exact toI16_toI8 _

/-- C21 at the matrices whose cells all hold -1. -/
theorem C21_truncation_round_trip_witness :
    (Mat256x256i16.const (-1)).InI8 ∧ (Mat256x256i8.const (-1)).InI8
      ∧ Mat256x256i16.zero.copyFrom8 ((Mat256x256i16.const (-1)).toMatI8 Mat256x256i8.zero)
          = Mat256x256i16.const (-1)
      ∧ (Mat256x256i16.zero.copyFrom8 (Mat256x256i8.const (-1))).toMatI8 Mat256x256i8.zero
          = Mat256x256i8.const (-1) :=
  ⟨Mat256x256i16.const_InI8 (-1) (by decide) (by decide),
    Mat256x256i8.const8_InI8 (-1) (by decide) (by decide),
    (C21_truncation_round_trip (Mat256x256i16.const (-1)) Mat256x256i16.zero
      (Mat256x256i8.const (-1)) Mat256x256i8.zero
      (Mat256x256i16.const_InI8 (-1) (by decide) (by decide))
      (Mat256x256i8.const8_InI8 (-1) (by decide) (by decide))).1,
    (C21_truncation_round_trip (Mat256x256i16.const (-1)) Mat256x256i16.zero
      (Mat256x256i8.const (-1)) Mat256x256i8.zero
      (Mat256x256i16.const_InI8 (-1) (by decide) (by decide))
      (Mat256x256i8.const8_InI8 (-1) (by decide) (by decide))).2.1⟩

theorem Mat256x256i16.topup_eq (self : Mat256x256i16) (other : Mat256x256i8) :
    self.topup other
      = (⟨fun x y => if y.val < 256 ∨ (y.val = 256 ∧ x.val < 0)
          then toI8 (other.d x y + self.d x y % 256) else other.d x y⟩ : Mat256x256i8) := by
  unfold Mat256x256i16.topup
  refine forLoop2_count 256 256
    (fun i j (m : Mat256x256i8) => m =
      (⟨fun x y => if y.val < i ∨ (y.val = i ∧ x.val < j)
        then toI8 (other.d x y + self.d x y % 256) else other.d x y⟩ : Mat256x256i8)) _ other
    ?_ ?_ ?_
  · refine Mat256x256i8.ext_d8 _ _ (fun x y => ?_)
    dsimp only
    rw [if_neg (by omega)]
  · intro i s hs
    rw [hs]
    refine Mat256x256i8.ext_d8 _ _ (fun x y => ?_)
    dsimp only
    have hx := x.is_lt
    by_cases h : y.val < i.val ∨ (y.val = i.val ∧ x.val < 256)
    · rw [if_pos h, if_pos (by omega)]
    · rw [if_neg h, if_neg (by omega)]
  · intro i j s hs
    refine Mat256x256i8.ext_d8 _ _ (fun x y => ?_)
    dsimp only
    rw [Mat256x256i8.set_d8, hs]
    dsimp only
    by_cases hxy : x = j ∧ y = i
    · rw [if_pos hxy,
        if_neg (show ¬ (i.val < i.val ∨ (i.val = i.val ∧ j.val < j.val)) by omega),
        if_pos (show y.val < i.val ∨ (y.val = i.val ∧ x.val < j.val + 1) by
          rw [hxy.1, hxy.2]; omega), hxy.1, hxy.2]
    · rw [if_neg hxy]
      have hne : ¬ (x.val = j.val ∧ y.val = i.val) := fun h =>
        hxy ⟨Fin.ext h.1, Fin.ext h.2⟩
      by_cases h : y.val < i.val ∨ (y.val = i.val ∧ x.val < j.val)
      · rw [if_pos h, if_pos (by omega)]
      · rw [if_neg h, if_neg (by omega)]

theorem Mat256x256i16.topup_d (self : Mat256x256i16) (other : Mat256x256i8) (x y : Fin 256) :
    (self.topup other).d x y = toI8 (other.d x y + self.d x y % 256) := by
  rw [Mat256x256i16.topup_eq]
  dsimp only
  rw [if_pos (Or.inl y.is_lt)]

/-- C22: for every Mat256x256i16 M and every Mat256x256i8 m, topup leaves in m the matrix
that Mat256x256i8::add makes of m and M.toMatI8(): every cell is the value in the int8 range
that is congruent modulo 256 to the old cell plus the low 8 bits of the entry of M.  The
previous contents of the destinations of add and toMatI8 play no part. -/
theorem C22_topup_is_add_of_toMatI8 (M : Mat256x256i16) (m dst tmp : Mat256x256i8) :
    M.topup m = dst.add m (M.toMatI8 tmp)
      ∧ ∀ x y : Fin 256,
          -128 ≤ (M.topup m).d x y ∧ (M.topup m).d x y ≤ 127
            ∧ (M.topup m).d x y % 256 = (m.d x y + M.d x y % 256) % 256 := by
  constructor
  · refine Mat256x256i8.ext_d8 _ _ (fun x y => ?_)
    rw [Mat256x256i16.topup_d, Mat256x256i8.add_d8, Mat256x256i16.toMatI8_d]
    generalize m.d x y = a
    generalize M.d x y = b
    unfold toI8
    omega
  · intro x y
    rw [Mat256x256i16.topup_d]
    generalize m.d x y + M.d x y % 256 = t
    unfold toI8
    omega

/-! ## The chunks of the header in another order -/

/-- The result of lane `k` for `len = 32`, as the chain of 64 products on the hash of chunk
`k` of the header. -/
theorem iter_mineBytom_lane_chain (sha3 : List Byte → Fin 32 → Byte) (M : BytomMatList16)
    (header : Fin 32 → Byte) (k : Fin 4) (mat16_0 tmp16_0 scratch : Mat256x256i16)
    (resK : Mat256x256i8) :
    iter_mineBytom_lane sha3 M (List.ofFn header) 32 k mat16_0 tmp16_0 resK
      = (lane_chain scratch M
          (sha3 (List.ofFn (fun t : Fin 8 => header ⟨8 * k.val + t.val, by omega⟩)))
          64).toMatI8 resK := by
  unfold iter_mineBytom_lane
  dsimp only
  rw [header_chunk header k]
  rw [lane_loop_snd scratch M _ mat16_0 tmp16_0]

theorem permute_chunks_chunk (p : Equiv.Perm (Fin 4)) (header : Fin 32 → Byte) (k : Fin 4)
    (t : Fin 8) :
    permute_chunks p header ⟨8 * k.val + t.val, by omega⟩
      = header ⟨8 * (p k).val + t.val, by have := (p k).is_lt; omega⟩ := by
  have hk : (⟨(8 * k.val + t.val) / 8, by omega⟩ : Fin 4) = k := Fin.ext (by
    show (8 * k.val + t.val) / 8 = k.val
    omega)
  unfold permute_chunks
  refine congrArg header (Fin.ext ?_)
  show 8 * (p ⟨(8 * k.val + t.val) / 8, _⟩).val + (8 * k.val + t.val) % 8
    = 8 * (p k).val + t.val
  rw [hk]
  omega

/-- The lane `k` of the header with permuted chunks computes what lane `p k` computes on the
original header. -/
theorem lane_of_permuted (sha3 : List Byte → Fin 32 → Byte) (M : BytomMatList16)
    (header : Fin 32 → Byte) (p : Equiv.Perm (Fin 4)) (k : Fin 4)
    (m1 t1 m2 t2 : Mat256x256i16) (r1 r2 : Mat256x256i8) :
    iter_mineBytom_lane sha3 M (List.ofFn (permute_chunks p header)) 32 k m1 t1 r1
      = iter_mineBytom_lane sha3 M (List.ofFn header) 32 (p k) m2 t2 r2 := by
  rw [iter_mineBytom_lane_chain sha3 M _ k m1 t1 m1 r1,
    iter_mineBytom_lane_chain sha3 M header (p k) m2 t2 m1 r2,
    Mat256x256i16.toMatI8_indep _ r1 r2]
  have hc : (fun t : Fin 8 => permute_chunks p header ⟨8 * k.val + t.val, by omega⟩)
      = fun t : Fin 8 => header ⟨8 * (p k).val + t.val, by have := (p k).is_lt; omega⟩ :=
    funext (fun t => permute_chunks_chunk p header k t)
  rw [hc]

theorem iter_mineBytom_sum_perm (r0 r1 : Mat256x256i8) (r : Fin 4 → Mat256x256i8)
    (p : Equiv.Perm (Fin 4)) :
    iter_mineBytom_sum r1 (fun k => r (p k)) = iter_mineBytom_sum r0 r := by
  refine Mat256x256i8.ext_d8 _ _ (fun x y => ?_)
  rw [iter_mineBytom_sum_d, iter_mineBytom_sum_d]
  have h := Equiv.sum_comp p (fun k : Fin 4 => (r k).d x y)
  rw [Fin.sum_univ_four, Fin.sum_univ_four] at h
  rw [h]

/-- C23: for every matrix list (so for the list of every seed), every 32-byte header and
every permutation p of the four chunk numbers, iter_mineBytom writes the same digest for the
header whose chunk k is chunk p(k) of the original and for the original header: lane k of the
rearranged header computes what lane p(k) computes on the original, and the sum of the four
lane results does not depend on their order. -/
theorem C23_chunk_order_free (sha3 : List Byte → Fin 32 → Byte) (u : Uninit)
    (M : BytomMatList16) (header : Fin 32 → Byte) (p : Equiv.Perm (Fin 4)) :
    iter_mineBytom sha3 u M (List.ofFn (permute_chunks p header)) 32
        = iter_mineBytom sha3 u M (List.ofFn header) 32
      ∧ (∀ seed : Fin 32 → Byte,
          iter_mineBytom sha3 u (buildMatList sha3 u seed)
              (List.ofFn (permute_chunks p header)) 32
            = iter_mineBytom sha3 u (buildMatList sha3 u seed) (List.ofFn header) 32)
      ∧ (∀ (k : Fin 4) (t : Fin 8),
          permute_chunks p header ⟨8 * k.val + t.val, by omega⟩
            = header ⟨8 * (p k).val + t.val, by have := (p k).is_lt; omega⟩)
      ∧ (∀ k : Fin 4,
          iter_mineBytom_parallel sha3 u M (List.ofFn (permute_chunks p header)) 32 k
            = iter_mineBytom_parallel sha3 u M (List.ofFn header) 32 (p k)) := by
  have hlane : ∀ k : Fin 4,
      iter_mineBytom_parallel sha3 u M (List.ofFn (permute_chunks p header)) 32 k
        = iter_mineBytom_parallel sha3 u M (List.ofFn header) 32 (p k) := by
    intro k
    unfold iter_mineBytom_parallel
    exact lane_of_permuted sha3 M header p k _ _ _ _ _ _
  have hpar : iter_mineBytom_parallel sha3 u M (List.ofFn (permute_chunks p header)) 32
      = fun k => iter_mineBytom_parallel sha3 u M (List.ofFn header) 32 (p k) :=
    funext hlane
  have hfin : ∀ r : Fin 4 → Mat256x256i8, iter_mineBytom_finish sha3 u r
      = sha3 ((u.arr.ofMat (iter_mineBytom_sum u.res8 r)).reduceFNV).d0RawPtr :=
    fun r => rfl
  have main : ∀ M1 : BytomMatList16,
      iter_mineBytom_parallel sha3 u M1 (List.ofFn (permute_chunks p header)) 32
        = (fun k => iter_mineBytom_parallel sha3 u M1 (List.ofFn header) 32 (p k)) →
      iter_mineBytom sha3 u M1 (List.ofFn (permute_chunks p header)) 32
        = iter_mineBytom sha3 u M1 (List.ofFn header) 32 := by
    intro M1 h1
    rw [iter_mineBytom_eq_lanes, iter_mineBytom_eq_lanes,
      iter_mineBytom_lanes_eq _ _ _ _ _ _ (fun k => List.mem_finRange k),
      iter_mineBytom_lanes_eq _ _ _ _ _ _ (fun k => List.mem_finRange k),
      hfin, hfin, h1, iter_mineBytom_sum_perm u.res8 u.res8]
  refine ⟨main M hpar, ?_, fun k t => permute_chunks_chunk p header k t, hlane⟩
  intro seed
  refine main _ (funext (fun k => ?_))
  unfold iter_mineBytom_parallel
  exact lane_of_permuted sha3 _ header p k _ _ _ _ _ _

/-! ## The product with the identity matrix -/

theorem mul_acc_exact_identity (a b : Mat256x256i16) (i j : Fin 256)
    (ha : ∀ k : Fin 256, a.d i k = if i = k then 1 else 0) :
    mul_acc_exact a b i j = b.d i j := by
  unfold mul_acc_exact
  have hf : (fun k : Fin 256 => a.d i k * b.d k j)
      = fun k => if i = k then b.d k j else 0 := by
    funext k
    rw [ha k]
    split_ifs <;> simp
  rw [hf, ← Fin.sum_univ_def, Finset.sum_ite_eq]
  simp

/-- The product of the identity matrix and `B` under `mul_ref`: a cell in `[0, 127]` is kept,
a cell in `[-128, -1]` becomes the `int8_t` value of the cell minus one. -/
theorem mul_ref_identity (a b : Mat256x256i16) (i j : Fin 256)
    (ha : ∀ k : Fin 256, a.d i k = if i = k then 1 else 0)
    (h1 : -128 ≤ b.d i j) (h2 : b.d i j ≤ 127) :
    (mul_ref a b).d i j = if 0 ≤ b.d i j then b.d i j else toI8 (b.d i j - 1) := by
  simp only [mul_ref]
  rw [mul_acc_exact_identity a b i j ha]
  generalize b.d i j = v at h1 h2 ⊢
  by_cases hv : 0 ≤ v
  · have hd : (v + v * 256) / 256 = v := by omega
    rw [hd, if_pos hv]
    unfold sign_extend_i8
    split_ifs <;> omega
  · have hd : (v + v * 256) / 256 = v - 1 := by omega
    rw [hd, if_neg hv]
    unfold sign_extend_i8 toI8
    split_ifs <;> omega

theorem BytomMatList16.init_InI8 (self : BytomMatList16) (ltcMem0 : LTCMemory) (X : Words32)
    (k : Fin 256) : ((self.init ltcMem0 X).matVec k).InI8 := by
  intro a b
  rw [BytomMatList16.init_matVec, Mat256x256i16.copyFrom_helper_d]
  exact toI8_range _

/-- C24: the identity matrix is not neutral for mul.  For every B with entries in the int8
range and I what toIdentityMatrix leaves, the cell (i, j) of mul(I, B) is B[i][j] when
B[i][j] >= 0 and the int8 value of B[i][j] - 1 when B[i][j] < 0, which differs from B[i][j]
(-1 gives -2 and -128 gives 127); and for every matrix list that init has built, the first
product T_1 of a lane has this value in every cell, with B = matrices[seq[0]]. -/
theorem C24_identity_not_neutral (B self scratch : Mat256x256i16) (hB : B.InI8)
    (i j : Fin 256) :
    (self.mul scratch.toIdentityMatrix B).d i j
        = (if 0 ≤ B.d i j then B.d i j else toI8 (B.d i j - 1))
      ∧ (B.d i j < 0 → (self.mul scratch.toIdentityMatrix B).d i j ≠ B.d i j)
      ∧ toI8 (-1 - 1) = -2 ∧ toI8 (-128 - 1) = 127
      ∧ (∀ (l : BytomMatList16) (ltcMem0 : LTCMemory) (X : Words32) (seq : Fin 32 → Byte),
          (lane_chain scratch (l.init ltcMem0 X) seq 1).d i j
            = if 0 ≤ ((l.init ltcMem0 X).at_ (seq 0)).d i j
              then ((l.init ltcMem0 X).at_ (seq 0)).d i j
              else toI8 (((l.init ltcMem0 X).at_ (seq 0)).d i j - 1)) := by
  have key : ∀ (s t b : Mat256x256i16), b.InI8 →
      (s.mul t.toIdentityMatrix b).d i j
        = if 0 ≤ b.d i j then b.d i j else toI8 (b.d i j - 1) := by
    intro s t b hb
    rw [Mat256x256i16.mul_d]
    exact mul_ref_identity _ b i j (fun k => Mat256x256i16.toIdentityMatrix_d t i k)
      (hb i j).1 (hb i j).2
  refine ⟨key self scratch B hB, ?_, by decide, by decide, ?_⟩
  · intro hneg
    rw [key self scratch B hB, if_neg (by omega)]
    have h1 := (hB i j).1
    generalize B.d i j = v at hneg h1 ⊢
    unfold toI8
    omega
  · intro l ltcMem0 X seq
    have e : lane_chain scratch (l.init ltcMem0 X) seq 1
        = scratch.mul scratch.toIdentityMatrix ((l.init ltcMem0 X).at_ (seq 0)) := rfl
    rw [e]
    exact key scratch scratch _ (BytomMatList16.init_InI8 l ltcMem0 X (seq 0))

/-- C24 at the matrix whose cells all hold -1: the cell (0, 0) of the product with the
identity holds -2. -/
theorem C24_identity_not_neutral_witness :
    (Mat256x256i16.const (-1)).InI8
      ∧ (Mat256x256i16.zero.mul Mat256x256i16.zero.toIdentityMatrix
          (Mat256x256i16.const (-1))).d 0 0 = -2 :=
  ⟨Mat256x256i16.const_InI8 (-1) (by decide) (by decide),
    (C24_identity_not_neutral (Mat256x256i16.const (-1)) Mat256x256i16.zero Mat256x256i16.zero
      (Mat256x256i16.const_InI8 (-1) (by decide) (by decide)) 0 0).1.trans (by decide)⟩

/-! ## The leading zeros and the nonce -/

/-- C25, the code at three inputs.  For the all-zero array and for the array whose top byte
is 1 the function returns the number of leading zero bits of the 256-bit integer (256 and 7).
For the array whose byte 31 is 128 and whose other bytes are zero the integer is 2^255, which
has no leading zero bit, and the function returns 248: a byte of 128 or more neither adds to
the count nor ends the loop, so the 31 zero bytes below it are counted. -/
theorem C25_countLeadingZero_skips_high_bytes :
    countLeadingZero (top_byte 0) = 256
      ∧ leading_zero_bits (le_value256 (top_byte 0)) 256 = 256
      ∧ countLeadingZero (top_byte 1) = 7
      ∧ leading_zero_bits (le_value256 (top_byte 1)) 256 = 7
      ∧ le_value256 (top_byte 128) = 2 ^ 255
      ∧ leading_zero_bits (le_value256 (top_byte 128)) 256 = 0
      ∧ countLeadingZero (top_byte 128) = 248 := by
  refine ⟨by decide, by decide!, by decide, by decide, by decide, by decide, by decide⟩

/-- Invariant of the loop of `incrNonce` after `k` iterations: while `break` has not been
executed the bytes below `k` were 255 and are now 0; once it has, the array encodes the
successor of the original value, which is below `2 ^ 64`. -/
theorem incrNonce_inv (nonce : Fin 8 → Byte) :
    ((forLoop 8 incrNonce_body (nonce, false)).2 = false →
        (∀ j : Fin 8, j.val < 8 → nonce j = 255)
          ∧ (forLoop 8 incrNonce_body (nonce, false)).1
            = fun t => if t.val < 8 then 0 else nonce t)
      ∧ ((forLoop 8 incrNonce_body (nonce, false)).2 = true →
        le_value64 (forLoop 8 incrNonce_body (nonce, false)).1 = le_value64 nonce + 1
          ∧ le_value64 nonce + 1 < 2 ^ 64) := by
  refine forLoop_count 8
    (fun k (s : (Fin 8 → Byte) × Bool) =>
      (s.2 = false →
        (∀ j : Fin 8, j.val < k → nonce j = 255)
          ∧ s.1 = fun t => if t.val < k then 0 else nonce t)
      ∧ (s.2 = true →
        le_value64 s.1 = le_value64 nonce + 1 ∧ le_value64 nonce + 1 < 2 ^ 64))
    incrNonce_body (nonce, false) ?_ ?_
  · refine ⟨fun _ => ⟨fun j hj => absurd hj (Nat.not_lt_zero _), ?_⟩, fun h => Bool.noConfusion h⟩
    funext t
    rw [if_neg (Nat.not_lt_zero _)]
  · rintro i ⟨f, b⟩ ⟨h1, h2⟩
    cases b with
    | true =>
      have e : incrNonce_body i (f, true) = (f, true) := rfl
      rw [e]
      exact ⟨fun h => Bool.noConfusion h, fun _ => h2 rfl⟩
    | false =>
      obtain ⟨hall, hf⟩ := h1 rfl
      dsimp only at hf
      subst hf
      by_cases hb : nonce i = 255
      · have e : incrNonce_body i ((fun t => if t.val < i.val then 0 else nonce t), false)
            = (set1 (fun t => if t.val < i.val then 0 else nonce t) i 0, false) := by
          simp [incrNonce_body, hb]
        rw [e]
        refine ⟨fun _ => ⟨?_, ?_⟩, fun h => Bool.noConfusion h⟩
        · intro j hj
          by_cases hji : j.val < i.val
          · exact hall j hji
          · have : j = i := Fin.ext (by omega)
            rw [this]
            exact hb
        · funext t
          dsimp only [set1]
          by_cases hti : t = i
          · rw [if_pos hti, if_pos (by rw [hti]; omega)]
          · have hne : t.val ≠ i.val := fun h => hti (Fin.ext h)
            rw [if_neg hti]
            by_cases h : t.val < i.val
            · rw [if_pos h, if_pos (by omega)]
            · rw [if_neg h, if_neg (by omega)]
      · have hv : (nonce i).val ≠ 255 := fun h => hb (Fin.ext h)
        have hlt := (nonce i).is_lt
        have e : incrNonce_body i ((fun t => if t.val < i.val then 0 else nonce t), false)
            = (set1 (fun t => if t.val < i.val then 0 else nonce t) i
                ⟨((nonce i).val + 1) % 256, Nat.mod_lt _ (by decide)⟩, true) := by
          simp [incrNonce_body, hb]
        rw [e]
        refine ⟨fun h => Bool.noConfusion h, fun _ => ?_⟩
        dsimp only
        have b0 := (nonce 0).is_lt
        have b1 := (nonce 1).is_lt
        have b2 := (nonce 2).is_lt
        have b3 := (nonce 3).is_lt
        have b4 := (nonce 4).is_lt
        have b5 := (nonce 5).is_lt
        have b6 := (nonce 6).is_lt
        have b7 := (nonce 7).is_lt
        have a0 : 0 < i.val → (nonce 0).val = 255 := fun h =>
          congrArg Fin.val (hall 0 h)
        have a1 : 1 < i.val → (nonce 1).val = 255 := fun h =>
          congrArg Fin.val (hall 1 h)
        have a2 : 2 < i.val → (nonce 2).val = 255 := fun h =>
          congrArg Fin.val (hall 2 h)
        have a3 : 3 < i.val → (nonce 3).val = 255 := fun h =>
          congrArg Fin.val (hall 3 h)
        have a4 : 4 < i.val → (nonce 4).val = 255 := fun h =>
          congrArg Fin.val (hall 4 h)
        have a5 : 5 < i.val → (nonce 5).val = 255 := fun h =>
          congrArg Fin.val (hall 5 h)
        have a6 : 6 < i.val → (nonce 6).val = 255 := fun h =>
          congrArg Fin.val (hall 6 h)
        have v3 : ((3 : Fin 8) : Nat) = 3 := rfl
        have v4 : ((4 : Fin 8) : Nat) = 4 := rfl
        have v5 : ((5 : Fin 8) : Nat) = 5 := rfl
        have v6 : ((6 : Fin 8) : Nat) = 6 := rfl
        have v7 : ((7 : Fin 8) : Nat) = 7 := rfl
        rcases i with ⟨iv, hiv⟩
        interval_cases iv <;>
          simp [le_value64, set1, Fin.ext_iff, v3, v4, v5, v6, v7]
            at hv hlt a0 a1 a2 a3 a4 a5 a6 ⊢ <;> omega

theorem le_value64_byte (n : Fin 8 → Byte) (i : Fin 8) :
    (le_value64 n / 256 ^ i.val) % 256 = (n i).val := by
  have b0 := (n 0).is_lt
  have b1 := (n 1).is_lt
  have b2 := (n 2).is_lt
  have b3 := (n 3).is_lt
  have b4 := (n 4).is_lt
  have b5 := (n 5).is_lt
  have b6 := (n 6).is_lt
  have b7 := (n 7).is_lt
  rcases i with ⟨k, hk⟩
  interval_cases k
  · show (le_value64 n / 256 ^ 0) % 256 = (n 0).val
    unfold le_value64
    omega
  · show (le_value64 n / 256 ^ 1) % 256 = (n 1).val
    unfold le_value64
    omega
  · show (le_value64 n / 256 ^ 2) % 256 = (n 2).val
    unfold le_value64
    omega
  · show (le_value64 n / 256 ^ 3) % 256 = (n 3).val
    unfold le_value64
    omega
  · show (le_value64 n / 256 ^ 4) % 256 = (n 4).val
    unfold le_value64
    omega
  · show (le_value64 n / 256 ^ 5) % 256 = (n 5).val
    unfold le_value64
    omega
  · show (le_value64 n / 256 ^ 6) % 256 = (n 6).val
    unfold le_value64
    omega
  · show (le_value64 n / 256 ^ 7) % 256 = (n 7).val
    unfold le_value64
    omega

theorem incrNonce_value (nonce : Fin 8 → Byte) :
    le_value64 (incrNonce nonce) = (le_value64 nonce + 1) % 2 ^ 64 := by
  unfold incrNonce
  have key := incrNonce_inv nonce
  generalize forLoop 8 incrNonce_body (nonce, false) = s at key ⊢
  obtain ⟨f, b⟩ := s
  cases b with
  | false =>
    obtain ⟨hall, hf⟩ := key.1 rfl
    dsimp only at hf ⊢
    have a0 : (nonce 0).val = 255 := congrArg Fin.val (hall 0 (by decide))
    have a1 : (nonce 1).val = 255 := congrArg Fin.val (hall 1 (by decide))
    have a2 : (nonce 2).val = 255 := congrArg Fin.val (hall 2 (by decide))
    have a3 : (nonce 3).val = 255 := congrArg Fin.val (hall 3 (by decide))
    have a4 : (nonce 4).val = 255 := congrArg Fin.val (hall 4 (by decide))
    have a5 : (nonce 5).val = 255 := congrArg Fin.val (hall 5 (by decide))
    have a6 : (nonce 6).val = 255 := congrArg Fin.val (hall 6 (by decide))
    have a7 : (nonce 7).val = 255 := congrArg Fin.val (hall 7 (by decide))
    have e1 : le_value64 nonce = 2 ^ 64 - 1 := by
      unfold le_value64
      rw [a0, a1, a2, a3, a4, a5, a6, a7]
      norm_num
    have e2 : le_value64 f = 0 := by
      rw [hf]
      simp [le_value64]
    rw [e1, e2]
    norm_num
  | true =>
    obtain ⟨h1, h2⟩ := key.2 rfl
    dsimp only at h1 ⊢
    rw [h1, Nat.mod_eq_of_lt h2]

/-- C26: for every 8-byte nonce, the array that incrNonce leaves encodes, in little-endian
order, (v + 1) mod 2^64, where v is the value that the nonce encoded: byte i of the new array
is byte i of that number, and the nonce of eight bytes 0xFF becomes the nonce of eight zero
bytes. -/
theorem C26_incrNonce_successor (nonce : Fin 8 → Byte) :
    le_value64 (incrNonce nonce) = (le_value64 nonce + 1) % 2 ^ 64
      ∧ (∀ i : Fin 8,
          (incrNonce nonce i).val = ((le_value64 nonce + 1) % 2 ^ 64 / 256 ^ i.val) % 256)
      ∧ incrNonce (fun _ => 255) = fun _ => 0 := by
  refine ⟨incrNonce_value nonce, ?_, by decide⟩
  intro i
  rw [← incrNonce_value, le_value64_byte]

/-! ## The seed in the first matrix -/

/-- Byte `t % 4` of the word `exted[t / 4]` that `extend` leaves is byte `t % 32` of the hash
`h[t / 32]` of the chain of the seed. -/
theorem extend_byte (sha3 : List Byte → Fin 32 → Byte) (seedHash0 : Fin 4 → Fin 32 → Byte)
    (exted0 : Fin 32 → Nat) (seed : Fin 32 → Byte) (t : Fin 128) :
    (extend sha3 seedHash0 exted0 seed ⟨t.val / 4, by omega⟩ >>> (8 * (t.val % 4))) % 256
      = (seed_chain sha3 seed (t.val / 32) ⟨t.val % 32, Nat.mod_lt _ (by decide)⟩).val := by
  rw [extend_eq, le_word_byte _ _ _ _ (t.val % 4) (Fin.isLt _) (Fin.isLt _) (Fin.isLt _)
    (Fin.isLt _) (Nat.mod_lt _ (by decide))]
  have hrow : (t.val / 4) / 8 = t.val / 32 := by omega
  simp only [hrow]
  have hq4 : t.val % 4 = 0 ∨ t.val % 4 = 1 ∨ t.val % 4 = 2 ∨ t.val % 4 = 3 := by omega
  rcases hq4 with hq | hq | hq | hq
  · rw [if_pos hq]
    congr 2
    exact Fin.ext (by simp only; omega)
  · rw [if_neg (by omega), if_pos hq]
    congr 2
    exact Fin.ext (by simp only; omega)
  · rw [if_neg (by omega), if_neg (by omega), if_pos hq]
    congr 2
    exact Fin.ext (by simp only; omega)
  · rw [if_neg (by omega), if_neg (by omega), if_neg (by omega)]
    congr 2
    exact Fin.ext (by simp only; omega)

/-- The word that `copyFrom_helper` reads for a word index below 16 is a word of the `lo` half
of the slot `4 r + offset`. -/
theorem pad_word_lo (pad : LTCMemory) (off : Fin 2) (r : Fin 256) (j : Fin 64)
    (hj : j.val < 16) :
    pad_word pad off r j = (pad.w32 ⟨r.val * 4 + off.val, by omega⟩).lo.w ⟨j.val, hj⟩ := by
  unfold pad_word LTCMemory.get Words32.get
  rw [dif_neg (by omega), dif_pos hj]

/-- The cells of column 0 of the even matrix that come from the `lo` half of slot 0. -/
theorem Mat256x256i16.copyFromEven_column0 (self : Mat256x256i16) (pad : LTCMemory)
    (a : Fin 256) (ha : a.val / 4 < 16) :
    (self.copyFrom_helper pad 0).d a 0
      = toI8 ((((pad.w32 0).lo.w ⟨a.val / 4, ha⟩ >>> (8 * (a.val % 4))) &&& 0xFF : Nat) : Int) := by
  rw [Mat256x256i16.copyFrom_helper_d, pad_word_lo pad 0 0 ⟨a.val / 4, by omega⟩ ha]
  rfl

/-- The first pass of `init` leaves the expanded seed itself in slot 0 of the pad. -/
theorem LTCMemory.scrypt_slot0 (self : LTCMemory) (X : Words32) :
    (self.scrypt X).1.w32 0 = X := by
  rw [LTCMemory.scrypt_eq]
  exact Function.iterate_zero_apply scrypt_mix X

theorem BytomMatList16.init_matVec_zero (self : BytomMatList16) (ltcMem0 : LTCMemory)
    (X : Words32) :
    (self.init ltcMem0 X).matVec 0
      = (self.matVec 0).copyFrom_helper (ltcMem0.scrypt X).1 0 :=
  BytomMatList16.init_matVec self ltcMem0 X 0

theorem BytomMatList16.init_top_of_column0 (self : BytomMatList16) (ltcMem0 : LTCMemory)
    (X : Words32) (a : Fin 256) (ha : a.val / 4 < 16) :
    ((self.init ltcMem0 X).matVec 0).d a 0
      = toI8 (((X.lo.w ⟨a.val / 4, ha⟩ >>> (8 * (a.val % 4))) &&& 0xFF : Nat) : Int) := by
  rw [BytomMatList16.init_matVec_zero, Mat256x256i16.copyFromEven_column0 _ _ a ha,
    LTCMemory.scrypt_slot0]

/-- C27: for every 32-byte seed and every n below 32, the cell d[n][0] of matrix 0 of the list
built by extend, init_seed and init is byte n of the seed read as a signed 8-bit value: slot 0
of the pad of the first pass is the expanded seed, not yet mixed, and byte n of its first
eight words is byte n of the seed. -/
theorem C27_seed_on_top_of_column_0 (sha3 : List Byte → Fin 32 → Byte) (u : Uninit)
    (seed : Fin 32 → Byte) (n : Fin 32) :
    ((buildMatList sha3 u seed).at_ 0).d ⟨n.val, by omega⟩ 0
        = sign_extend_i8 ((seed n).val : Int)
      ∧ (u.ltcMem.scrypt (init_seed u.extSeed (extend sha3 u.seedHash u.exted seed))).1.w32 0
        = init_seed u.extSeed (extend sha3 u.seedHash u.exted seed)
      ∧ ((init_seed u.extSeed (extend sha3 u.seedHash u.exted seed)).lo.w
            ⟨n.val / 4, by omega⟩ >>> (8 * (n.val % 4))) % 256
        = (seed n).val := by
  have hbyte : ((init_seed u.extSeed (extend sha3 u.seedHash u.exted seed)).lo.w
        ⟨n.val / 4, by omega⟩ >>> (8 * (n.val % 4))) % 256 = (seed n).val := by
    rw [init_seed_eq]
    have h := extend_byte sha3 u.seedHash u.exted seed ⟨n.val, by omega⟩
    have e1 : seed_chain sha3 seed (n.val / 32) = seed := by
      have : n.val / 32 = 0 := by omega
      rw [this]
      rfl
    have e2 : (⟨n.val % 32, Nat.mod_lt _ (by decide)⟩ : Fin 32) = n := Fin.ext (by
      show n.val % 32 = n.val
      omega)
    dsimp only at h ⊢
    rw [e1, e2] at h
    exact h
  refine ⟨?_, LTCMemory.scrypt_slot0 u.ltcMem _, hbyte⟩
  unfold buildMatList BytomMatList16.at_
  dsimp only
  rw [BytomMatList16.init_top_of_column0 _ _ _ ⟨n.val, by omega⟩
    (by show n.val / 4 < 16; omega)]
  have hand : ∀ x : Nat, x &&& 0xFF = x % 256 := fun x => Nat.and_pow_two_sub_one_eq_mod x 8
  rw [hand, toI8_byte _ (Nat.mod_lt _ (by decide))]
  exact congrArg (fun v : Nat => sign_extend_i8 (v : Int)) hbyte

/-! ## The pad from the two matrices -/

theorem sign_extend_i8_inj (a b : Nat) (ha : a < 256) (hb : b < 256)
    (h : sign_extend_i8 (a : Int) = sign_extend_i8 (b : Int)) : a = b := by
  unfold sign_extend_i8 at h
  split_ifs at h <;> omega

/-- A 32-bit word is determined by its four bytes. -/
theorem word_of_bytes (x y : Nat) (hx : x < U32) (hy : y < U32)
    (h : ∀ q : Fin 4, (x >>> (8 * q.val)) % 256 = (y >>> (8 * q.val)) % 256) : x = y := by
  have h0 := h 0
  have h1 := h 1
  have h2 := h 2
  have h3 := h 3
  simp only [Nat.shiftRight_eq_div_pow] at h0 h1 h2 h3
  have v2 : ((2 : Fin 4) : Nat) = 2 := rfl
  have v3 : ((3 : Fin 4) : Nat) = 3 := rfl
  simp only [Fin.val_zero, Fin.val_one, v2, v3] at h0 h1 h2 h3
  norm_num at h0 h1 h2 h3
  unfold U32 at hx hy
  omega

theorem LTCMemory.get_get_congr (P : LTCMemory) (i1 i2 : Nat) (h1 : i1 < 1024)
    (h2 : i2 < 1024) (j1 j2 : Nat) (g1 : j1 < 32) (g2 : j2 < 32) (hi : i1 = i2)
    (hj : j1 = j2) : (P.get i1 h1).get j1 g1 = (P.get i2 h2).get j2 g2 := by
  subst hi
  subst hj
  rfl

/-- The cell into which `copyFrom_helper` reads byte `q` of word `w` of slot `s`: the call
with offset `s % 2`, column `s / 4`, row `4 * (32 * ((s % 4) / 2) + w) + q`. -/
theorem Mat256x256i16.copyFrom_helper_read_back (self : Mat256x256i16) (P : LTCMemory)
    (s : Fin 1024) (w : Fin 32) (q : Fin 4) :
    (self.copyFrom_helper P (slot_offset s)).d (slot_row s w q) (slot_column s)
      = sign_extend_i8 ((((P.w32 s).get w.val w.is_lt >>> (8 * q.val)) % 256 : Nat) : Int) := by
  unfold slot_offset slot_row slot_column
  rw [Mat256x256i16.copyFrom_helper_d]
  have hand : ∀ x : Nat, x &&& 0xFF = x % 256 := fun x => Nat.and_pow_two_sub_one_eq_mod x 8
  rw [hand, toI8_byte _ (Nat.mod_lt _ (by decide))]
  have ha4 : (4 * (32 * (s.val % 4 / 2) + w.val) + q.val) / 4 = 32 * (s.val % 4 / 2) + w.val := by
    omega
  have haq : (4 * (32 * (s.val % 4 / 2) + w.val) + q.val) % 4 = q.val := by omega
  have hw : pad_word P ⟨s.val % 2, Nat.mod_lt _ (by decide)⟩ ⟨s.val / 4, by omega⟩
      ⟨(4 * (32 * (s.val % 4 / 2) + w.val) + q.val) / 4, by omega⟩
      = (P.w32 s).get w.val w.is_lt := by
    unfold pad_word
    dsimp only
    by_cases h : 32 ≤ (4 * (32 * (s.val % 4 / 2) + w.val) + q.val) / 4
    · rw [dif_pos h]
      exact LTCMemory.get_get_congr P _ _ _ s.is_lt _ _ _ _ (by omega) (by omega)
    · rw [dif_neg h]
      exact LTCMemory.get_get_congr P _ _ _ s.is_lt _ _ _ _ (by omega) (by omega)
  dsimp only
  rw [hw, haq]

theorem Words16.ext_w (a b : Words16) (h : ∀ i, a.w i = b.w i) : a = b := by
  cases a
  cases b
  congr
  funext i
  exact h i

theorem Words32.get_lo (a : Words32) (i : Fin 16) :
    a.get i.val (by omega) = a.lo.w i := by
  unfold Words32.get
  rw [dif_pos i.is_lt]

theorem Words32.get_hi (a : Words32) (i : Fin 16) :
    a.get (16 + i.val) (by omega) = a.hi.w i := by
  unfold Words32.get
  rw [dif_neg (by omega)]
  exact congrArg a.hi.w (Fin.ext (by
    show 16 + i.val - 16 = i.val
    omega))

theorem Words32.ext_get (a b : Words32)
    (h : ∀ w : Fin 32, a.get w.val w.is_lt = b.get w.val w.is_lt) : a = b := by
  have hlo : a.lo = b.lo := Words16.ext_w _ _ (fun i =>
    (Words32.get_lo a i).symm.trans ((h ⟨i.val, by omega⟩).trans (Words32.get_lo b i)))
  have hhi : a.hi = b.hi := Words16.ext_w _ _ (fun i =>
    (Words32.get_hi a i).symm.trans ((h ⟨16 + i.val, by omega⟩).trans (Words32.get_hi b i)))
  cases a
  cases b
  simp only at hlo hhi
  rw [hlo, hhi]

theorem Words32.get_lt (a : Words32) (w : Nat) (hw : w < 32)
    (h : ∀ i : Fin 16, a.lo.w i < U32 ∧ a.hi.w i < U32) : a.get w hw < U32 := by
  unfold Words32.get
  split_ifs
  · exact (h _).1
  · exact (h _).2

theorem LTCMemory.ext_w32 (a b : LTCMemory) (h : ∀ s, a.w32 s = b.w32 s) : a = b := by
  cases a
  cases b
  congr
  funext s
  exact h s

theorem LTCMemory.const_Valid (v : Nat) (h : v < U32) : (LTCMemory.const v).Valid :=
  fun _ _ => ⟨h, h⟩

/-- Two bytes of the pad are read into the same cell of the same matrix only if they are the
same byte. -/
theorem slot_cell_inj (s t : Fin 1024) (w v : Fin 32) (q r : Fin 4) :
    slot_offset s = slot_offset t ∧ slot_row s w q = slot_row t v r
        ∧ slot_column s = slot_column t
      ↔ s = t ∧ w = v ∧ q = r := by
  unfold slot_offset slot_row slot_column
  simp only [Fin.mk.injEq]
  constructor
  · rintro ⟨h1, h2, h3⟩
    exact ⟨Fin.ext (by omega), Fin.ext (by omega), Fin.ext (by omega)⟩
  · rintro ⟨rfl, rfl, rfl⟩
    exact ⟨rfl, rfl, rfl⟩

/-- Every cell of both matrices receives a byte of the pad. -/
theorem slot_cell_surj (off : Fin 2) (row col : Fin 256) :
    ∃ (s : Fin 1024) (w : Fin 32) (q : Fin 4),
      slot_offset s = off ∧ slot_row s w q = row ∧ slot_column s = col := by
  refine ⟨⟨4 * col.val + 2 * (row.val / 128) + off.val, by omega⟩,
    ⟨row.val / 4 % 32, by omega⟩, ⟨row.val % 4, by omega⟩, ?_, ?_, ?_⟩
  · exact Fin.ext (by show (4 * col.val + 2 * (row.val / 128) + off.val) % 2 = off.val; omega)
  · exact Fin.ext (by
      show 4 * (32 * ((4 * col.val + 2 * (row.val / 128) + off.val) % 4 / 2)
        + row.val / 4 % 32) + row.val % 4 = row.val
      omega)
  · exact Fin.ext (by show (4 * col.val + 2 * (row.val / 128) + off.val) / 4 = col.val; omega)

/-- C28: the two matrices determine the pad.  For all pads P and P' of 32-bit words, if
copyFromEven gives the same matrix for both and copyFromOdd gives the same matrix for both,
then P = P'.  Byte q of word w of slot s is read into one cell: the matrix of the parity of
s (even for s = 0 or 2 modulo 4, odd for s = 1 or 3 modulo 4), column s / 4 and row
4 * (32 * ((s mod 4) / 2) + w) + q; different bytes go to different cells, and every cell of
both matrices receives a byte. -/
theorem C28_matrices_determine_pad (P Q : LTCMemory) (e1 e2 o1 o2 : Mat256x256i16)
    (hP : P.Valid) (hQ : Q.Valid) (hE : e1.copyFromEven P = e2.copyFromEven Q)
    (hO : o1.copyFromOdd P = o2.copyFromOdd Q) :
    P = Q
      ∧ (∀ (s : Fin 1024) (w : Fin 32) (q : Fin 4),
          (e1.copyFrom_helper P (slot_offset s)).d (slot_row s w q) (slot_column s)
            = sign_extend_i8
                ((((P.w32 s).get w.val w.is_lt >>> (8 * q.val)) % 256 : Nat) : Int))
      ∧ (∀ (s t : Fin 1024) (w v : Fin 32) (q r : Fin 4),
          slot_offset s = slot_offset t ∧ slot_row s w q = slot_row t v r
              ∧ slot_column s = slot_column t
            ↔ s = t ∧ w = v ∧ q = r)
      ∧ (∀ (off : Fin 2) (row col : Fin 256), ∃ (s : Fin 1024) (w : Fin 32) (q : Fin 4),
          slot_offset s = off ∧ slot_row s w q = row ∧ slot_column s = col) := by
  refine ⟨?_, fun s w q => Mat256x256i16.copyFrom_helper_read_back e1 P s w q,
    slot_cell_inj, slot_cell_surj⟩
  have hboth : ∀ off : Fin 2, e1.copyFrom_helper P off = e1.copyFrom_helper Q off := by
    intro off
    have h0 : e1.copyFrom_helper P 0 = e1.copyFrom_helper Q 0 :=
      hE.trans (Mat256x256i16.copyFrom_helper_indep e2 e1 Q 0)
    have h1 : e1.copyFrom_helper P 1 = e1.copyFrom_helper Q 1 :=
      (Mat256x256i16.copyFrom_helper_indep e1 o1 P 1).trans
        (hO.trans (Mat256x256i16.copyFrom_helper_indep o2 e1 Q 1))
    fin_cases off
    · exact h0
    · exact h1
  have hslot : ∀ s : Fin 1024, P.w32 s = Q.w32 s := by
    intro s
    refine Words32.ext_get _ _ (fun w => ?_)
    refine word_of_bytes _ _ (Words32.get_lt _ _ _ (hP s)) (Words32.get_lt _ _ _ (hQ s))
      (fun q => ?_)
    refine sign_extend_i8_inj _ _ (Nat.mod_lt _ (by decide)) (Nat.mod_lt _ (by decide)) ?_
    rw [← Mat256x256i16.copyFrom_helper_read_back e1 P s w q,
      ← Mat256x256i16.copyFrom_helper_read_back e1 Q s w q, hboth]
  exact LTCMemory.ext_w32 P Q hslot

/-- C28 at the pad whose words are all zero. -/
theorem C28_matrices_determine_pad_witness :
    (LTCMemory.const 0).Valid ∧ LTCMemory.const 0 = LTCMemory.const 0 :=
  ⟨LTCMemory.const_Valid 0 (by decide),
    (C28_matrices_determine_pad (LTCMemory.const 0) (LTCMemory.const 0) Mat256x256i16.zero
      Mat256x256i16.zero Mat256x256i16.zero Mat256x256i16.zero
      (LTCMemory.const_Valid 0 (by decide)) (LTCMemory.const_Valid 0 (by decide)) rfl rfl).1⟩

end Tensority
